import Mathlib

/-!
# goalisa: DSN codec and task tracker

A shallow embedding of `dsn.go` and `alisa_wrap.go`.

Go strings are byte sequences; they are embedded as lists of natural numbers
(one number below 256 per byte).  The standard-library functions the code
calls (`regexp`, `net/url`, `encoding/base64`, `encoding/json`, `sort`,
`strings`, `fmt`, `strconv`) are embedded by their behaviour on the
arguments the code passes to them.
-/

namespace Goalisa

/-- A Go `string`: a sequence of bytes. -/
abbrev GoString := List Nat

/-- The bytes of an ASCII literal (used for ASCII literals only, where the
code point of a character is its byte). -/
def lit (s : String) : GoString := s.toList.map Char.toNat

/-! ## encoding/base64: `RawURLEncoding` -/

/-- The alphabet of `base64.URLEncoding`: `A-Z a-z 0-9 - _`. -/
def b64Char (v : Nat) : Nat :=
  if v < 26 then 65 + v
  else if v < 52 then 97 + (v - 26)
  else if v < 62 then 48 + (v - 52)
  else if v = 62 then 45
  else 95

/-- The decode map of `base64.URLEncoding`; `none` stands for the entry 0xff. -/
def b64Val (c : Nat) : Option Nat :=
  if 65 ≤ c ∧ c ≤ 90 then some (c - 65)
  else if 97 ≤ c ∧ c ≤ 122 then some (c - 97 + 26)
  else if 48 ≤ c ∧ c ≤ 57 then some (c - 48 + 52)
  else if c = 45 then some 62
  else if c = 95 then some 63
  else none

/-- `base64.RawURLEncoding.EncodeToString`: three bytes give four characters,
a remainder of one or two bytes gives two or three characters, no padding.
`val` is `src[0]<<16 | src[1]<<8 | src[2]`. -/
def b64Encode : GoString → GoString
  | a :: b :: c :: rest =>
      let val := a * 65536 + b * 256 + c
      b64Char (val / 262144 % 64) :: b64Char (val / 4096 % 64) ::
        b64Char (val / 64 % 64) :: b64Char (val % 64) :: b64Encode rest
  | [a, b] =>
      let val := a * 65536 + b * 256
      [b64Char (val / 262144 % 64), b64Char (val / 4096 % 64), b64Char (val / 64 % 64)]
  | [a] =>
      let val := a * 65536
      [b64Char (val / 262144 % 64), b64Char (val / 4096 % 64)]
  | [] => []

/-- The quanta of `Encoding.decodeQuantum` on the 6-bit values of the input:
four values give three bytes, a final group of three or two values gives two
or one byte (the encoding is not strict: the unused low bits are dropped), a
final group of one value is corrupt input. -/
def b64DecodeVals : List Nat → Option GoString
  | a :: b :: c :: d :: rest =>
      let val := a * 262144 + b * 4096 + c * 64 + d
      match b64DecodeVals rest with
      | some t => some (val / 65536 % 256 :: val / 256 % 256 :: val % 256 :: t)
      | none => none
  | [a, b, c] =>
      let val := a * 262144 + b * 4096 + c * 64
      some [val / 65536 % 256, val / 256 % 256]
  | [a, b] =>
      let val := a * 262144 + b * 4096
      some [val / 65536 % 256]
  | [_] => none
  | [] => some []

/-- The 6-bit values of a character sequence; `none` when a character is
outside the alphabet. -/
def b64Vals : GoString → Option (List Nat)
  | [] => some []
  | c :: cs =>
      match b64Val c, b64Vals cs with
      | some v, some vs => some (v :: vs)
      | _, _ => none

/-- `base64.RawURLEncoding.DecodeString`: `\r` and `\n` are skipped, every
other character outside the alphabet (the padding character included) is
corrupt input; `none` stands for `CorruptInputError`. -/
def b64Decode (src : GoString) : Option GoString :=
  match b64Vals (src.filter (fun c => c != 10 && c != 13)) with
  | some vs => b64DecodeVals vs
  | none => none

/-! ## net/url: `QueryUnescape`, `ParseQuery`, `Values.Get` -/

/-- The hexadecimal digits `0-9 a-f A-F` (`ishex`). -/
def isHex (c : Nat) : Bool :=
  (48 ≤ c && c ≤ 57) || (97 ≤ c && c ≤ 102) || (65 ≤ c && c ≤ 70)

/-- The value of a hexadecimal digit (`unhex`). -/
def unhex (c : Nat) : Nat :=
  if 48 ≤ c ∧ c ≤ 57 then c - 48
  else if 97 ≤ c ∧ c ≤ 102 then c - 97 + 10
  else if 65 ≤ c ∧ c ≤ 70 then c - 65 + 10
  else 0

/-- `url.QueryUnescape`: `%XX` becomes the byte `XX`, `+` becomes a space,
every other byte is kept; a `%` not followed by two hexadecimal digits is an
`EscapeError` (`none`). -/
def queryUnescape : GoString → Option GoString
  | [] => some []
  | c :: rest =>
      if c = 37 then -- '%'
        match rest with
        | h1 :: h2 :: rest2 =>
            if isHex h1 && isHex h2 then
              match queryUnescape rest2 with
              | some t => some ((unhex h1 * 16 + unhex h2) :: t)
              | none => none
            else none
        | _ => none
      else
        match queryUnescape rest with
        | some t => some ((if c = 43 then 32 else c) :: t) -- '+' gives ' '
        | none => none

/-- The pieces of a string between the occurrences of the separator, in
order (`strings.Cut` applied until the string is used up yields the pieces
one by one). -/
def splitOn (sep : Nat) : GoString → List GoString
  | [] => [[]]
  | c :: cs =>
      if c = sep then [] :: splitOn sep cs
      else
        match splitOn sep cs with
        | [] => [[c]]
        | seg :: segs => (c :: seg) :: segs

/-- The value of `url.Values` after parsing: the pairs in order of
appearance; `m[key]` is the list of the values paired with `key`, in order. -/
abbrev Values := List (GoString × GoString)

/-- The loop body of `url.parseQuery` over the pieces between `&`: a piece
with a `;` is an error, an empty piece is skipped, another piece is cut at
its first `=` and both halves are unescaped.  The loop goes on after an
error, and returns it at the end: `none` stands for a non-nil error. -/
def parseSegments : List GoString → Option Values
  | [] => some []
  | seg :: segs =>
      if seg.contains 59 then none -- ';'
      else if seg = [] then parseSegments segs
      else
        match queryUnescape (seg.takeWhile (fun c => c != 61)),
              queryUnescape ((seg.dropWhile (fun c => c != 61)).drop 1),
              parseSegments segs with
        | some k, some v, some kvs => some ((k, v) :: kvs)
        | _, _, _ => none

/-- The constant `defaultMaxParams` of `net/url`: the largest number of query
parameters `url.ParseQuery` parses when `GODEBUG` sets no other limit. -/
def defaultMaxParams : Nat := 10000

/-- `url.ParseQuery` (`&` is the only separator).  The parameters are counted
before the loop, as one more than the number of `&` in the query
(`strings.Count(query, "&") + 1`, empty pieces included); more than
`defaultMaxParams` of them is an error, returned at once. -/
def parseQuery (query : GoString) : Option Values :=
  if query.count 38 + 1 ≤ defaultMaxParams then parseSegments (splitOn 38 query) else none

/-- `Values.Get`: the first value of the key, or the empty string. -/
def Values.Get (kvs : Values) (key : GoString) : GoString :=
  match kvs.lookup key with
  | some v => v
  | none => []

/-! ## regexp: `reDSN` -/

/-- The class `[a-zA-Z0-9_-]`. -/
def isIDChar (c : Nat) : Bool :=
  (97 ≤ c && c ≤ 122) || (65 ≤ c && c ≤ 90) || (48 ≤ c && c ≤ 57) || c == 95 || c == 45

/-- The class `[=a-zA-Z0-9_-]`. -/
def isSecretChar (c : Nat) : Bool :=
  c == 61 || isIDChar c

/-- The class `[:a-zA-Z0-9/_.-]`. -/
def isURLChar (c : Nat) : Bool :=
  c == 58 || isIDChar c || c == 47 || c == 46

/-- `reDSN.FindStringSubmatch` for
`^([a-zA-Z0-9_-]+):([=a-zA-Z0-9_-]+)@([:a-zA-Z0-9/_.-]+)\?([^/]+)$`;
the result holds the four groups `sub[1..4]`, `none` is the nil slice.
Each of the first three groups is followed by a character outside its class,
so it is the longest run of its class; the last group runs to the end. -/
def reDSN (dsn : GoString) : Option (GoString × GoString × GoString × GoString) :=
  let pid := dsn.takeWhile isIDChar
  match dsn.dropWhile isIDChar with
  | c1 :: r1 =>
      let ps := r1.takeWhile isSecretChar
      match r1.dropWhile isSecretChar with
      | c2 :: r2 =>
          let purl := r2.takeWhile isURLChar
          match r2.dropWhile isURLChar with
          | c3 :: q =>
              if c1 = 58 ∧ c2 = 64 ∧ c3 = 63 ∧ pid ≠ [] ∧ ps ≠ [] ∧ purl ≠ [] ∧
                  q ≠ [] ∧ q.all (fun c => c != 47) then
                some (pid, ps, purl, q)
              else none
          | [] => none
      | [] => none
  | [] => none

/-! ## Go maps -/

/-- A Go `map[string]string`: the key-value pairs, each key once, in the
order a `range` loop visits them (which Go leaves unspecified).  The nil map
and the empty map are both the empty list. -/
abbrev GoMap := List (GoString × GoString)

/-- The key-value pairs of a map have pairwise different keys. -/
def GoMap.NodupKeys (m : GoMap) : Prop := (m.map Prod.fst).Nodup

instance GoMap.decidableNodupKeys (m : GoMap) : Decidable (GoMap.NodupKeys m) :=
  inferInstanceAs (Decidable (m.map Prod.fst).Nodup)

/-- The map index expression `m[k]`: the value of the key, or the zero value. -/
def GoMap.get (m : GoMap) (k : GoString) : GoString :=
  match m.lookup k with
  | some v => v
  | none => []

/-- The assignment `m[k] = v`. -/
def GoMap.set (m : GoMap) (k v : GoString) : GoMap :=
  if m.any (fun p => p.1 == k) then m.map (fun p => if p.1 = k then (k, v) else p)
  else m ++ [(k, v)]

/-! ## encoding/json: `Unmarshal` into a `map[string]string` -/

/-- JSON white space: space, `\t`, `\r`, `\n`. -/
def isJSONSpace (c : Nat) : Bool :=
  c == 32 || c == 9 || c == 13 || c == 10

/-- Drops leading JSON white space. -/
def skipWS : GoString → GoString
  | [] => []
  | c :: cs => if isJSONSpace c then skipWS cs else c :: cs

/-- The bytes of U+FFFD, which `utf8.EncodeRune` writes for `RuneError`. -/
def runeError : GoString := [239, 191, 189]

/-- `utf8.EncodeRune` for a rune below 0x110000 (a surrogate gives U+FFFD). -/
def utf8Encode (r : Nat) : GoString :=
  if r < 128 then [r]
  else if r < 2048 then [192 + r / 64, 128 + r % 64]
  else if 55296 ≤ r ∧ r < 57344 then runeError
  else if r < 65536 then [224 + r / 4096, 128 + r / 64 % 64, 128 + r % 64]
  else [240 + r / 262144, 128 + r / 4096 % 64, 128 + r / 64 % 64, 128 + r % 64]

/-- A continuation byte `0x80..0xBF`. -/
def isCont (c : Nat) : Bool := 128 ≤ c && c ≤ 191

/-- The size `utf8.DecodeRune` reports for a well-formed multi-byte encoding
at the head of the string (first byte and accepted range of the second byte
as in the tables `first` and `acceptRanges`); `none` when `DecodeRune` gives
`(RuneError, 1)`. -/
def utf8SeqLen : GoString → Option Nat
  | b0 :: b1 :: rest =>
      if 194 ≤ b0 ∧ b0 ≤ 223 then (if isCont b1 then some 2 else none)
      else if 224 ≤ b0 ∧ b0 ≤ 239 then
        match rest with
        | b2 :: _ =>
            if (if b0 = 224 then 160 else 128) ≤ b1 ∧ b1 ≤ (if b0 = 237 then 159 else 191) ∧
                isCont b2 then some 3 else none
        | [] => none
      else if 240 ≤ b0 ∧ b0 ≤ 244 then
        match rest with
        | b2 :: b3 :: _ =>
            if (if b0 = 240 then 144 else 128) ≤ b1 ∧ b1 ≤ (if b0 = 244 then 143 else 191) ∧
                isCont b2 ∧ isCont b3 then some 4 else none
        | _ => none
      else none
  | _ => none

/-- The four hexadecimal digits of a `\u` escape as a number (`getu4`). -/
def hex4 (h1 h2 h3 h4 : Nat) : Nat :=
  unhex h1 * 4096 + unhex h2 * 256 + unhex h3 * 16 + unhex h4

/-- An escape sequence of a JSON string literal, given the bytes after the
backslash: the bytes it stands for and how many bytes after the backslash it
takes.  A `\u` escape of a high surrogate followed by a `\u` escape of a low
surrogate stands for the combined rune, another surrogate for U+FFFD.
`none`: the scanner rejects the escape. -/
def jsonEscape : GoString → Option (GoString × Nat)
  | [] => none
  | e :: rest =>
      if e = 117 then -- 'u'
        match rest with
        | h1 :: h2 :: h3 :: h4 :: rest2 =>
            if isHex h1 && isHex h2 && isHex h3 && isHex h4 then
              let rr := hex4 h1 h2 h3 h4
              if 55296 ≤ rr ∧ rr < 57344 then
                match rest2 with
                | b :: u :: g1 :: g2 :: g3 :: g4 :: _ =>
                    let rr1 := hex4 g1 g2 g3 g4
                    if b = 92 ∧ u = 117 ∧ (isHex g1 && isHex g2 && isHex g3 && isHex g4) ∧
                        rr < 56320 ∧ 56320 ≤ rr1 ∧ rr1 < 57344 then
                      some (utf8Encode ((rr - 55296) * 1024 + (rr1 - 56320) + 65536), 11)
                    else some (runeError, 5)
                | _ => some (runeError, 5)
              else some (utf8Encode rr, 5)
            else none
        | _ => none
      else if e = 34 ∨ e = 92 ∨ e = 47 then some ([e], 1) -- '"', '\\', '/'
      else if e = 98 then some ([8], 1) -- 'b'
      else if e = 102 then some ([12], 1) -- 'f'
      else if e = 110 then some ([10], 1) -- 'n'
      else if e = 114 then some ([13], 1) -- 'r'
      else if e = 116 then some ([9], 1) -- 't'
      else none

/-- A JSON string literal after its opening quote: the string it stands for
(as `unquote` gives it) and the input after the closing quote.  The first
argument counts bytes of a well-formed UTF-8 encoding still to be copied, the
second bytes of an escape sequence still to be passed over.  A control
character, a bad escape and a missing closing quote are syntax errors; a byte
that starts no well-formed UTF-8 encoding becomes U+FFFD. -/
def jsonString : Nat → Nat → GoString → Option (GoString × GoString)
  | _, _, [] => none
  | cp + 1, _, c :: rest =>
      match jsonString cp 0 rest with
      | some (t, r) => some (c :: t, r)
      | none => none
  | 0, sk + 1, _ :: rest => jsonString 0 sk rest
  | 0, 0, c :: rest =>
      if c = 34 then some ([], rest) -- '"'
      else if c = 92 then -- '\\'
        match jsonEscape rest with
        | some (out, n) =>
            match jsonString 0 n rest with
            | some (t, r) => some (out ++ t, r)
            | none => none
        | none => none
      else if c < 32 then none
      else if c < 128 then
        match jsonString 0 0 rest with
        | some (t, r) => some (c :: t, r)
        | none => none
      else
        match utf8SeqLen (c :: rest) with
        | some n =>
            match jsonString (n - 1) 0 rest with
            | some (t, r) => some (c :: t, r)
            | none => none
        | none =>
            match jsonString 0 0 rest with
            | some (t, r) => some (runeError ++ t, r)
            | none => none

/-- A value of an object member whose target is a Go `string`: a string
literal gives its string, the literal `null` leaves the zero value; every
other value is an error (a syntax error or an `UnmarshalTypeError`). -/
def jsonStringValue : GoString → Option (GoString × GoString)
  | [] => none
  | c :: rest =>
      if c = 34 then jsonString 0 0 rest
      else
        match c :: rest with
        | n :: u :: l1 :: l2 :: rest2 =>
            if n = 110 ∧ u = 117 ∧ l1 = 108 ∧ l2 = 108 then some ([], rest2) else none
        | _ => none

/-- The members of a JSON object from the opening quote of a key on, stored
one by one into the map (a key that comes again overwrites).  Each round
takes at least one byte, so a fuel of the length of the input is never used
up. -/
def jsonMembers : Nat → GoString → GoMap → Option GoMap
  | 0, _, _ => none
  | fuel + 1, s, m =>
      match s with
      | [] => none
      | q :: s1 =>
          if q = 34 then
            match jsonString 0 0 s1 with
            | some (k, s2) =>
                match skipWS s2 with
                | colon :: s3 =>
                    if colon = 58 then
                      match jsonStringValue (skipWS s3) with
                      | some (v, s4) =>
                          match skipWS s4 with
                          | d :: s5 =>
                              if d = 44 then jsonMembers fuel (skipWS s5) (m.set k v) -- ','
                              else if d = 125 ∧ skipWS s5 = [] then some (m.set k v) -- '}'
                              else none
                          | [] => none
                      | none => none
                    else none
                | [] => none
            | none => none
          else none

/-- `json.Unmarshal(buf, &envs)` for a nil `envs map[string]string`: the
input is one JSON value between optional white space.  The literal `null`
leaves the map nil (the empty map), an object whose values are string
literals or `null` fills a new map; every other input is an error (`none`). -/
def jsonUnmarshalMap (buf : GoString) : Option GoMap :=
  match skipWS buf with
  | [] => none
  | c :: rest =>
      if c = 123 then -- '{'
        match skipWS rest with
        | [] => none
        | d :: rest2 =>
            if d = 125 then (if skipWS rest2 = [] then some [] else none) -- '}'
            else jsonMembers buf.length (d :: rest2) []
      else
        match c :: rest with
        | n :: u :: l1 :: l2 :: rest2 =>
            if n = 110 ∧ u = 117 ∧ l1 = 108 ∧ l2 = 108 ∧ skipWS rest2 = [] then some [] else none
        | _ => none

/-! ## sort, strings -/

/-- The order `<=` of Go strings: bytewise lexicographic. -/
def strLE : GoString → GoString → Bool
  | [], _ => true
  | _ :: _, [] => false
  | a :: as, b :: bs => a < b || (a == b && strLE as bs)

/-- `sort.Strings`. -/
def sortStrings (keys : List GoString) : List GoString :=
  keys.insertionSort (fun a b => strLE a b = true)

/-- `strings.Join`. -/
def join (elems : List GoString) (sep : GoString) : GoString :=
  sep.intercalate elems

/-! ## dsn.go -/

/-- The struct `Config`. -/
structure Config where
  POPAccessID : GoString
  POPAccessSecret : GoString
  POPURL : GoString
  POPScheme : GoString
  Env : GoMap
  With : GoMap
  Verbose : Bool
  Project : GoString
deriving DecidableEq, Repr

/-- The errors `ParseDSN` returns. -/
inductive DSNError where
  /-- The DSN does not match `reDSN`. -/
  | malformed (dsn : GoString)
  /-- The error of `url.ParseQuery`. -/
  | query
  /-- A required parameter is missing: `dsn is missing required parameter k`. -/
  | missingParameter (k : GoString)
  /-- The error of `base64.RawURLEncoding.DecodeString`. -/
  | corruptBase64
  /-- The error of `json.Unmarshal`. -/
  | invalidJSON
deriving DecidableEq, Repr

deriving instance DecidableEq for Except

/-- The function `encodeJSONB64`: the keys in `range` order, sorted, each
rendered as `"k":"v"`, joined by commas between braces, in base64. -/
def encodeJSONB64 (env : GoMap) : GoString :=
  let keys := sortStrings (env.map Prod.fst)
  let kvStrs := keys.map (fun k => [34] ++ k ++ [34, 58, 34] ++ GoMap.get env k ++ [34])
  let jsonStr := [123] ++ join kvStrs [44] ++ [125]
  b64Encode jsonStr

/-- The function `decodeJSONB64`. -/
def decodeJSONB64 (b64env : GoString) : Except DSNError GoMap :=
  match b64Decode b64env with
  | none => .error .corruptBase64
  | some buf =>
      match jsonUnmarshalMap buf with
      | none => .error .invalidJSON
      | some envs => .ok envs

/-- The loop of `ParseDSN` over the required parameters: the first one whose
value is empty. -/
def firstMissing (kvs : Values) : List GoString → Option GoString
  | [] => none
  | k :: ks => if Values.Get kvs k = [] then some k else firstMissing kvs ks

/-- The function `ParseDSN`. -/
def ParseDSN (dsn : GoString) : Except DSNError Config :=
  match reDSN dsn with
  | none => .error (.malformed dsn)
  | some (pid, ps, purl, q) =>
      match parseQuery q with
      | none => .error .query
      | some kvs =>
          match firstMissing kvs [lit "env", lit "with", lit "curr_project"] with
          | some k => .error (.missingParameter k)
          | none =>
              match decodeJSONB64 (Values.Get kvs (lit "env")) with
              | .error e => .error e
              | .ok env =>
                  match decodeJSONB64 (Values.Get kvs (lit "with")) with
                  | .error e => .error e
                  | .ok with_ =>
                      let scheme := Values.Get kvs (lit "scheme")
                      let scheme := if scheme.length = 0 then lit "http" else scheme
                      let verbose := decide (Values.Get kvs (lit "verbose") = lit "true")
                      let project := Values.Get kvs (lit "curr_project")
                      .ok { POPAccessID := pid, POPAccessSecret := ps, POPURL := purl, Env := env,
                            With := with_, Verbose := verbose, Project := project,
                            POPScheme := scheme }

/-- `strconv.FormatBool`. -/
def formatBool (b : Bool) : GoString :=
  if b then lit "true" else lit "false"

/-- The method `Config.FormatDSN`. -/
def Config.FormatDSN (cfg : Config) : GoString :=
  cfg.POPAccessID ++ lit ":" ++ cfg.POPAccessSecret ++ lit "@" ++ cfg.POPURL ++
    lit "?env=" ++ encodeJSONB64 cfg.Env ++ lit "&with=" ++ encodeJSONB64 cfg.With ++
    lit "&verbose=" ++ formatBool cfg.Verbose ++ lit "&curr_project=" ++ cfg.Project ++
    lit "&scheme=" ++ cfg.POPScheme

/-- The scheme `ParseDSN` stores for a parsed query. -/
def schemeOf (kvs : Values) : GoString :=
  if (Values.Get kvs (lit "scheme")).length = 0 then lit "http" else Values.Get kvs (lit "scheme")

/-- The shape `accessId:accessSecret@url?query`: the access id is a non-empty
string over `[a-zA-Z0-9_-]`, the secret one over `[=a-zA-Z0-9_-]`, the url
one over `[:a-zA-Z0-9/_.-]`. -/
def DSNShape (s : GoString) : Prop :=
  ∃ pid ps purl q : GoString,
    s = pid ++ lit ":" ++ ps ++ lit "@" ++ purl ++ lit "?" ++ q ∧
    pid ≠ [] ∧ (∀ c ∈ pid, isIDChar c = true) ∧
    ps ≠ [] ∧ (∀ c ∈ ps, isSecretChar c = true) ∧
    purl ≠ [] ∧ (∀ c ∈ purl, isURLChar c = true)

/-- The letters and digits `a-z A-Z 0-9`. -/
def isAlnum (c : Nat) : Bool :=
  (97 ≤ c && c ≤ 122) || (65 ≤ c && c ≤ 90) || (48 ≤ c && c ≤ 57)

/-- The text `"k":"v"` of a key-value pair. -/
def renderMember (p : GoString × GoString) : GoString :=
  [34] ++ p.1 ++ [34, 58, 34] ++ p.2 ++ [34]

/-- The text `{"k1":"v1","k2":"v2",...}` of the pairs in the given order. -/
def renderObject (ps : GoMap) : GoString :=
  [123] ++ join (ps.map renderMember) [44] ++ [125]

/-- The pairs of a map in the order of their keys. -/
def sortedPairs (m : GoMap) : GoMap :=
  (sortStrings (m.map Prod.fst)).map (fun k => (k, GoMap.get m k))

/-- The string is well-formed UTF-8 and holds no control character (a byte
below 0x20), no `"` and no `\`.  The first argument counts the continuation
bytes still due of the encoding under way. -/
def jsonPlain : Nat → GoString → Bool
  | 0, [] => true
  | _ + 1, [] => false
  | cp + 1, c :: rest => isCont c && jsonPlain cp rest
  | 0, c :: rest =>
      if c < 32 ∨ c = 34 ∨ c = 92 then false
      else if c < 128 then jsonPlain 0 rest
      else
        match utf8SeqLen (c :: rest) with
        | some n => jsonPlain (n - 1) rest
        | none => false

/-- A byte other than `&`, `;`, `%`, `+` and `/`. -/
def querySafe (c : Nat) : Bool :=
  c != 38 && c != 59 && c != 37 && c != 43 && c != 47

/-- The keys of the map are pairwise different, and its keys and values are
well-formed UTF-8 without control characters, `"` and `\`. -/
def plainMap (m : GoMap) : Prop :=
  GoMap.NodupKeys m ∧ ∀ p ∈ m, jsonPlain 0 p.1 = true ∧ jsonPlain 0 p.2 = true

instance decidablePlainMap (m : GoMap) : Decidable (plainMap m) :=
  inferInstanceAs (Decidable (_ ∧ _))

/-- A Config whose strings `FormatDSN` writes and `ParseDSN` reads back as
they are: access id, secret and url are non-empty strings over the classes of
the DSN grammar, project and scheme are non-empty and hold none of `&`, `;`,
`%`, `+`, `/`, and the maps are plain. -/
def Config.Plain (C : Config) : Prop :=
  C.POPAccessID ≠ [] ∧ (∀ c ∈ C.POPAccessID, isIDChar c = true) ∧
  C.POPAccessSecret ≠ [] ∧ (∀ c ∈ C.POPAccessSecret, isSecretChar c = true) ∧
  C.POPURL ≠ [] ∧ (∀ c ∈ C.POPURL, isURLChar c = true) ∧
  C.Project ≠ [] ∧ (∀ c ∈ C.Project, querySafe c = true) ∧
  C.POPScheme ≠ [] ∧ (∀ c ∈ C.POPScheme, querySafe c = true) ∧
  plainMap C.Env ∧ plainMap C.With

instance Config.decidablePlain (C : Config) : Decidable (Config.Plain C) :=
  inferInstanceAs (Decidable (_ ∧ _))

/-- The text begins, after white space, with `{`, as every JSON object does. -/
def beginsObject (buf : GoString) : Bool :=
  match skipWS buf with
  | c :: _ => c == 123
  | [] => false

/-! ## The encoded parameters, in the words of the spec -/

/-- The characters of the URL-safe base64 alphabet: `A-Z`, `a-z`, `0-9`, `-`
and `_`. -/
def isBase64URLChar (c : Nat) : Bool :=
  (65 ≤ c && c ≤ 90) || (97 ≤ c && c ≤ 122) || (48 ≤ c && c ≤ 57) || c == 45 || c == 95

/-- Valid unpadded URL-safe base64: characters of the alphabet only (so no
padding character), in a number that encodes whole bytes (groups of four
characters and a last group of two or three; one character alone encodes
nothing). -/
def validRawURLBase64 (v : GoString) : Bool :=
  v.all isBase64URLChar && v.length % 4 != 1

/-- JSON white space only. -/
def isWS (w : GoString) : Bool := w.all isJSONSpace

/-- The text of a JSON string literal between its quotes: any byte from 0x20
on other than `"` and `\`, the escapes `\"`, `\\`, `\/`, `\b`, `\f`, `\n`,
`\r`, `\t`, and `\u` followed by four hexadecimal digits. -/
inductive StringBody : GoString → Prop
  | nil : StringBody []
  | char (c : Nat) (t : GoString) : 32 ≤ c → c ≠ 34 → c ≠ 92 → StringBody t →
      StringBody (c :: t)
  | esc (e : Nat) (t : GoString) : e ∈ [34, 92, 47, 98, 102, 110, 114, 116] → StringBody t →
      StringBody (92 :: e :: t)
  | uni (h1 h2 h3 h4 : Nat) (t : GoString) : isHex h1 = true → isHex h2 = true →
      isHex h3 = true → isHex h4 = true → StringBody t →
      StringBody (92 :: 117 :: h1 :: h2 :: h3 :: h4 :: t)

/-- The text of the value of an object member: a string literal, or the
literal `null`. -/
inductive ValueText : GoString → Prop
  | string (b : GoString) : StringBody b → ValueText (34 :: (b ++ [34]))
  | null : ValueText [110, 117, 108, 108]

/-- The text of a JSON object from the opening quote of its first key to the
end of the input: members `"key" : value` separated by commas and closed by
`}`, with white space allowed between the tokens and at the end. -/
inductive MembersText : GoString → Prop
  | last (k w1 w2 vt w3 w4 : GoString) : StringBody k → isWS w1 = true → isWS w2 = true →
      ValueText vt → isWS w3 = true → isWS w4 = true →
      MembersText (34 :: (k ++ 34 :: (w1 ++ 58 :: (w2 ++ (vt ++ (w3 ++ 125 :: w4))))))
  | more (k w1 w2 vt w3 w4 rest : GoString) : StringBody k → isWS w1 = true → isWS w2 = true →
      ValueText vt → isWS w3 = true → isWS w4 = true → MembersText rest →
      MembersText (34 :: (k ++ 34 :: (w1 ++ 58 :: (w2 ++ (vt ++ (w3 ++ 44 :: (w4 ++ rest)))))))

/-- The text is one JSON object whose member values are strings or `null`,
between optional white space. -/
def ObjectText (buf : GoString) : Prop :=
  ∃ w0 w1 rest, isWS w0 = true ∧ isWS w1 = true ∧ buf = w0 ++ 123 :: (w1 ++ rest) ∧
    ((∃ w2, isWS w2 = true ∧ rest = 125 :: w2) ∨ MembersText rest)

/-- The text is the JSON literal `null`, between optional white space. -/
def NullText (buf : GoString) : Prop :=
  ∃ w0 w1, isWS w0 = true ∧ isWS w1 = true ∧ buf = w0 ++ (110 :: 117 :: 108 :: 108 :: w1)

/-- A value of `env` or `with` that stands for a mapping: once `\r` and `\n`
are taken out it is valid unpadded URL-safe base64, and the bytes it decodes
to are the JSON literal `null` or a JSON object whose member values are
strings or `null`. -/
def EncodedStringMap (v : GoString) : Prop :=
  validRawURLBase64 (v.filter (fun c => c != 10 && c != 13)) = true ∧
    ∃ buf, b64Decode v = some buf ∧ (NullText buf ∨ ObjectText buf)

/-! ## alisa_wrap.go -/

/-- Modelled from the spec: the task statuses the constants `alisaTaskWaiting`,
`alisaTaskAllocate`, `alisaTaskRunning`, `alisaTaskCompleted`,
`alisaTaskExpired` and the failure status stand for (the constants are
declared outside the given sources). -/
inductive TaskStatus where
  | waiting
  | allocate
  | running
  | completed
  | failed
  | expired
deriving DecidableEq, Repr

/-- Modelled from the spec: the method `alisa.completed`, declared outside the
given sources: Completed, Failed and Expired are the only statuses for which
the task is finished. -/
def completed (status : TaskStatus) : Bool :=
  match status with
  | .completed | .failed | .expired => true
  | .waiting | .allocate | .running => false

/-- The constant `waitInteveral`, in seconds. -/
def waitInteveral : Nat := 2

/-- The constant `readResultsBatch`. -/
def readResultsBatch : Int := 20

/-- A Go `error` value: one made by a remote operation, or the one made by
`fmt.Errorf("invalid task status=%d", status)`. -/
inductive GoError (ε : Type) where
  | remote (e : ε)
  | invalidTaskStatus (status : TaskStatus)
deriving DecidableEq, Repr

/-- The receiver `alisa`: the `Verbose` flag of its configuration and the
remote operations `createTask`, `getStatus`, `readLogs` and `getResults`
(methods declared outside the given sources), each a function of the state
`σ` of the task service. -/
structure Alisa (σ ρ ε : Type) where
  Verbose : Bool
  createTask : GoString → σ → Except (GoError ε) (GoString × TaskStatus) × σ
  getStatus : GoString → σ → Except (GoError ε) TaskStatus × σ
  readLogs : GoString → Int → σ → Except (GoError ε) Int × σ
  getResults : GoString → Int → σ → (Option ρ × Option (GoError ε)) × σ

/-- What a run does, in order: the remote calls with their arguments, the
sleeps and the printed lines. -/
inductive Event where
  | createTask (cmd : GoString)
  | getStatus (taskID : GoString)
  | readLogs (taskID : GoString) (offset : Int)
  | getResults (taskID : GoString) (batch : Int)
  | sleep (seconds : Nat)
  | println (msg : GoString)
deriving DecidableEq, Repr

/-- The state of a run: the state of the task service and the events so far. -/
structure World (σ : Type) where
  remote : σ
  trace : List Event

/-- The pair `(*alisaTaskResult, error)` a tracker returns. -/
abbrev Outcome (ρ ε : Type) := Option ρ × Option (GoError ε)

/-- The part of both trackers after the status `Completed` is seen. -/
def fetchResults {σ ρ ε : Type} (ali : Alisa σ ρ ε) (taskID : GoString) (resultExpected : Bool)
    (w : World σ) : Outcome ρ ε × World σ :=
  if resultExpected then
    ((ali.getResults taskID readResultsBatch w.remote).1,
      ⟨(ali.getResults taskID readResultsBatch w.remote).2,
        w.trace ++ [.getResults taskID readResultsBatch]⟩)
  else ((none, none), w)

/-- The method `alisa.trackingTaskQuietly`.  The first argument bounds the
rounds of the loop; `none`: the loop is still going after that many rounds. -/
def trackingTaskQuietly {σ ρ ε : Type} (ali : Alisa σ ρ ε) (taskID : GoString)
    (resultExpected : Bool) : Nat → TaskStatus → World σ → Option (Outcome ρ ε × World σ)
  | fuel, status, w =>
      if completed status then
        if status = .completed then some (fetchResults ali taskID resultExpected w)
        else some ((none, some (.invalidTaskStatus status)), w)
      else
        match fuel with
        | 0 => none
        | fuel + 1 =>
            let tr := w.trace ++ [.sleep waitInteveral, .getStatus taskID]
            match ali.getStatus taskID w.remote with
            | (.error err, s) => some ((none, some err), ⟨s, tr⟩)
            | (.ok status, s) => trackingTaskQuietly ali taskID resultExpected fuel status ⟨s, tr⟩

/-- The method `alisa.trackingTaskWithLog`.  The first argument bounds the
rounds of the loop; `none`: the loop is still going after that many rounds. -/
def trackingTaskWithLog {σ ρ ε : Type} (ali : Alisa σ ρ ε) (taskID : GoString)
    (resultExpected : Bool) :
    Nat → TaskStatus → Int → World σ → Option (Outcome ρ ε × World σ)
  | fuel, status, logOffset, w =>
      if completed status then
        if status = .expired then
          some ((none, some (.invalidTaskStatus status)),
            ⟨w.remote, w.trace ++ [.println (lit "waiting for resources timeout")]⟩)
        else if logOffset ≥ 0 then
          match ali.readLogs taskID logOffset w.remote with
          | (.error err, s) => some ((none, some err), ⟨s, w.trace ++ [.readLogs taskID logOffset]⟩)
          | (.ok _, s) =>
              if status = .completed then
                some (fetchResults ali taskID resultExpected
                  ⟨s, w.trace ++ [.readLogs taskID logOffset]⟩)
              else
                some ((none, some (.invalidTaskStatus status)),
                  ⟨s, w.trace ++ [.readLogs taskID logOffset]⟩)
        else if status = .completed then some (fetchResults ali taskID resultExpected w)
        else some ((none, some (.invalidTaskStatus status)), w)
      else
        match fuel with
        | 0 => none
        | fuel + 1 =>
            let poll (logOffset : Int) (w : World σ) : Option (Outcome ρ ε × World σ) :=
              let tr := w.trace ++ [.sleep waitInteveral, .getStatus taskID]
              match ali.getStatus taskID w.remote with
              | (.error err, s) => some ((none, some err), ⟨s, tr⟩)
              | (.ok status, s) =>
                  trackingTaskWithLog ali taskID resultExpected fuel status logOffset ⟨s, tr⟩
            if status = .waiting ∨ status = .allocate then
              poll logOffset ⟨w.remote, w.trace ++ [.println (lit "waiting for resources")]⟩
            else if status = .running ∧ logOffset ≥ 0 then
              match ali.readLogs taskID logOffset w.remote with
              | (.error err, s) =>
                  some ((none, some err), ⟨s, w.trace ++ [.readLogs taskID logOffset]⟩)
              | (.ok logOffset1, s) => poll logOffset1 ⟨s, w.trace ++ [.readLogs taskID logOffset]⟩
            else poll logOffset w

/-- The method `alisa.run`. -/
def run {σ ρ ε : Type} (ali : Alisa σ ρ ε) (fuel : Nat) (cmd : GoString) (resultExpected : Bool)
    (w : World σ) : Option (Outcome ρ ε × World σ) :=
  match ali.createTask cmd w.remote with
  | (.error err, s) => some ((none, some err), ⟨s, w.trace ++ [.createTask cmd]⟩)
  | (.ok (taskID, status), s) =>
      if ali.Verbose then
        trackingTaskWithLog ali taskID resultExpected fuel status 0 ⟨s, w.trace ++ [.createTask cmd]⟩
      else
        trackingTaskQuietly ali taskID resultExpected fuel status ⟨s, w.trace ++ [.createTask cmd]⟩

/-- The method `alisa.exec`: the error of `run(cmd, false)`. -/
def exec {σ ρ ε : Type} (ali : Alisa σ ρ ε) (fuel : Nat) (cmd : GoString) (w : World σ) :
    Option (Option (GoError ε) × World σ) :=
  match run ali fuel cmd false w with
  | some (out, w1) => some (out.2, w1)
  | none => none

/-- The method `alisa.query`. -/
def query {σ ρ ε : Type} (ali : Alisa σ ρ ε) (fuel : Nat) (cmd : GoString) (w : World σ) :
    Option (Outcome ρ ε × World σ) :=
  run ali fuel cmd true w

/-- Successive `getStatus` calls for the task, starting in state `s` of the
service, answer the statuses of the list in order, without an error, and
leave the service in state `s1`. -/
def Polls {σ ρ ε : Type} (ali : Alisa σ ρ ε) (taskID : GoString) : σ → List TaskStatus → σ → Prop
  | s, [], s1 => s1 = s
  | s, st :: sts, s1 =>
      (ali.getStatus taskID s).1 = .ok st ∧ Polls ali taskID (ali.getStatus taskID s).2 sts s1

/-- The events of one round of the quiet loop, once per fetched status. -/
def quietRounds (taskID : GoString) : List TaskStatus → List Event
  | [] => []
  | _ :: sts => .sleep waitInteveral :: .getStatus taskID :: quietRounds taskID sts

/-- A task service that answers `getStatus` from a script (an error `0` once
the script is used up), never fails to read logs, and returns the result `7`. -/
def scripted : Alisa (List TaskStatus) Nat Nat where
  Verbose := false
  createTask := fun _ s => (.ok (lit "task", .waiting), s)
  getStatus := fun _ s =>
    match s with
    | [] => (.error (.remote 0), [])
    | st :: rest => (.ok st, rest)
  readLogs := fun _ off s => (.ok (off + 1), s)
  getResults := fun _ _ s => ((some 7, none), s)

/-- One round of the loop of `trackingTaskWithLog`, for a status that is not
finished: the notice or the log read, the sleep and the status fetch.  An
error ends the run with the outcome given; otherwise the round gives the
next status, the next log offset and the next state. -/
def logRound {σ ρ ε : Type} (ali : Alisa σ ρ ε) (taskID : GoString) (status : TaskStatus)
    (logOffset : Int) (w : World σ) :
    Except (Outcome ρ ε × World σ) (TaskStatus × Int × World σ) :=
  let poll (logOffset : Int) (w : World σ) :
      Except (Outcome ρ ε × World σ) (TaskStatus × Int × World σ) :=
    let tr := w.trace ++ [.sleep waitInteveral, .getStatus taskID]
    match ali.getStatus taskID w.remote with
    | (.error err, s) => .error ((none, some err), ⟨s, tr⟩)
    | (.ok status, s) => .ok (status, logOffset, ⟨s, tr⟩)
  if status = .waiting ∨ status = .allocate then
    poll logOffset ⟨w.remote, w.trace ++ [.println (lit "waiting for resources")]⟩
  else if status = .running ∧ logOffset ≥ 0 then
    match ali.readLogs taskID logOffset w.remote with
    | (.error err, s) => .error ((none, some err), ⟨s, w.trace ++ [.readLogs taskID logOffset]⟩)
    | (.ok logOffset1, s) => poll logOffset1 ⟨s, w.trace ++ [.readLogs taskID logOffset]⟩
  else poll logOffset w

/-- The part of `trackingTaskWithLog` after the loop, for a finished status. -/
def logFinish {σ ρ ε : Type} (ali : Alisa σ ρ ε) (taskID : GoString) (resultExpected : Bool)
    (status : TaskStatus) (logOffset : Int) (w : World σ) : Outcome ρ ε × World σ :=
  if status = .expired then
    ((none, some (.invalidTaskStatus status)),
      ⟨w.remote, w.trace ++ [.println (lit "waiting for resources timeout")]⟩)
  else if logOffset ≥ 0 then
    match ali.readLogs taskID logOffset w.remote with
    | (.error err, s) => ((none, some err), ⟨s, w.trace ++ [.readLogs taskID logOffset]⟩)
    | (.ok _, s) =>
        if status = .completed then
          fetchResults ali taskID resultExpected ⟨s, w.trace ++ [.readLogs taskID logOffset]⟩
        else
          ((none, some (.invalidTaskStatus status)), ⟨s, w.trace ++ [.readLogs taskID logOffset]⟩)
  else if status = .completed then fetchResults ali taskID resultExpected w
  else ((none, some (.invalidTaskStatus status)), w)

/-- The part of `trackingTaskQuietly` after the loop, for a finished status. -/
def quietFinish {σ ρ ε : Type} (ali : Alisa σ ρ ε) (taskID : GoString) (resultExpected : Bool)
    (status : TaskStatus) (w : World σ) : Outcome ρ ε × World σ :=
  if status = .completed then fetchResults ali taskID resultExpected w
  else ((none, some (.invalidTaskStatus status)), w)

/-- The task service answers the calls of the rounds of the logging loop
without an error: in a round with the status Running and a log offset that
is not negative, `readLogs` for that offset returns the next offset of the
list, and in every round `getStatus` returns the next status of the list.
The rounds start in state `s` with the log offset `off` and leave the
service in state `s1` with the log offset `off1`. -/
def LogPolls {σ ρ ε : Type} (ali : Alisa σ ρ ε) (taskID : GoString) :
    σ → Int → TaskStatus → List TaskStatus → List Int → σ → Int → Prop
  | s, off, _, [], las, s1, off1 => las = [] ∧ s1 = s ∧ off1 = off
  | s, off, st, st1 :: rest, las, s1, off1 =>
      if st = .running ∧ off ≥ 0 then
        match las with
        | [] => False
        | o :: las1 =>
            (ali.readLogs taskID off s).1 = .ok o ∧
            (ali.getStatus taskID (ali.readLogs taskID off s).2).1 = .ok st1 ∧
            LogPolls ali taskID (ali.getStatus taskID (ali.readLogs taskID off s).2).2
              o st1 rest las1 s1 off1
      else
        (ali.getStatus taskID s).1 = .ok st1 ∧
          LogPolls ali taskID (ali.getStatus taskID s).2 off st1 rest las s1 off1

/-- The events of the rounds of the logging loop, one round per fetched
status: the notice for Waiting and Allocate, the log read for Running with a
log offset that is not negative (the next log offset is the next one of the
list), then the sleep and the status fetch. -/
def logRounds (taskID : GoString) : Int → TaskStatus → List TaskStatus → List Int → List Event
  | _, _, [], _ => []
  | off, st, st1 :: rest, las =>
      if st = .waiting ∨ st = .allocate then
        .println (lit "waiting for resources") :: .sleep waitInteveral :: .getStatus taskID ::
          logRounds taskID off st1 rest las
      else if st = .running ∧ off ≥ 0 then
        match las with
        | [] => []
        | o :: las1 =>
            .readLogs taskID off :: .sleep waitInteveral :: .getStatus taskID ::
              logRounds taskID o st1 rest las1
      else .sleep waitInteveral :: .getStatus taskID :: logRounds taskID off st1 rest las

/-- The offsets of the `readLogs` calls among the events, in order. -/
def readOffsets : List Event → List Int
  | [] => []
  | e :: evs =>
      match e with
      | .readLogs _ off => off :: readOffsets evs
      | _ => readOffsets evs

/-- The events without the `readLogs` calls and the printed lines. -/
def dropLogging (evs : List Event) : List Event :=
  evs.filter (fun e =>
    match e with
    | .readLogs _ _ => false
    | .println _ => false
    | _ => true)

/-- The number of `getStatus` calls among the events. -/
def statusCalls : List Event → Nat
  | [] => 0
  | e :: evs =>
      match e with
      | .getStatus _ => statusCalls evs + 1
      | _ => statusCalls evs

/-- The seconds of the sleeps among the events, in order. -/
def sleeps : List Event → List Nat
  | [] => []
  | e :: evs =>
      match e with
      | .sleep n => n :: sleeps evs
      | _ => sleeps evs

/-- The number of `getResults` calls among the events. -/
def resultCalls : List Event → Nat
  | [] => 0
  | e :: evs =>
      match e with
      | .getResults _ _ => resultCalls evs + 1
      | _ => resultCalls evs

/-- A task service that answers `getStatus` from a script of statuses and
`readLogs` from a script of offsets (the offset asked for once that script is
used up), and returns the result `7`. -/
def scriptedLogs : Alisa (List TaskStatus × List Int) Nat Nat where
  Verbose := true
  createTask := fun _ s => (.ok (lit "task", .waiting), s)
  getStatus := fun _ s =>
    match s.1 with
    | [] => (.error (.remote 0), s)
    | st :: rest => (.ok st, (rest, s.2))
  readLogs := fun _ off s =>
    match s.2 with
    | [] => (.ok off, s)
    | o :: rest => (.ok o, (s.1, rest))
  getResults := fun _ _ s => ((some 7, none), s)

/-- A task service whose status depends on the log reads: Completed once the
logs were read, Failed before. -/
def logSensitive : Alisa Bool Nat Nat where
  Verbose := true
  createTask := fun _ s => (.ok (lit "task", .running), s)
  getStatus := fun _ s => (.ok (if s then .completed else .failed), s)
  readLogs := fun _ off _ => (.ok off, true)
  getResults := fun _ _ s => ((some 7, none), s)

/-- A task service where every call fails with the error `9`. -/
def failing : Alisa Unit Nat Nat where
  Verbose := true
  createTask := fun _ s => (.error (.remote 9), s)
  getStatus := fun _ s => (.error (.remote 9), s)
  readLogs := fun _ _ s => (.error (.remote 9), s)
  getResults := fun _ _ s => ((none, some (.remote 9)), s)

/-! ## Lemmas: `ParseDSN` -/

theorem ParseDSN_ok_inv {dsn : GoString} {C : Config} (h : ParseDSN dsn = .ok C) :
    ∃ pid ps purl q kvs env w,
      reDSN dsn = some (pid, ps, purl, q) ∧ parseQuery q = some kvs ∧
      firstMissing kvs [lit "env", lit "with", lit "curr_project"] = none ∧
      decodeJSONB64 (Values.Get kvs (lit "env")) = .ok env ∧
      decodeJSONB64 (Values.Get kvs (lit "with")) = .ok w ∧
      C = { POPAccessID := pid, POPAccessSecret := ps, POPURL := purl, Env := env, With := w,
            Verbose := decide (Values.Get kvs (lit "verbose") = lit "true"),
            Project := Values.Get kvs (lit "curr_project"), POPScheme := schemeOf kvs } := by
  unfold ParseDSN at h
  split at h
  · cases h
  · rename_i pid ps purl q hre
    split at h
    · cases h
    · rename_i kvs hq
      split at h
      · cases h
      · rename_i hm
        split at h
        · cases h
        · rename_i env he
          split at h
          · cases h
          · rename_i w hw
            simp only [Except.ok.injEq] at h
            exact ⟨pid, ps, purl, q, kvs, env, w, hre, hq, hm, he, hw, h.symm⟩

theorem ParseDSN_eq_of {dsn pid ps purl q : GoString} {kvs : Values} {env w : GoMap}
    (hre : reDSN dsn = some (pid, ps, purl, q)) (hq : parseQuery q = some kvs)
    (hm : firstMissing kvs [lit "env", lit "with", lit "curr_project"] = none)
    (he : decodeJSONB64 (Values.Get kvs (lit "env")) = .ok env)
    (hw : decodeJSONB64 (Values.Get kvs (lit "with")) = .ok w) :
    ParseDSN dsn = .ok
      { POPAccessID := pid, POPAccessSecret := ps, POPURL := purl, Env := env, With := w,
        Verbose := decide (Values.Get kvs (lit "verbose") = lit "true"),
        Project := Values.Get kvs (lit "curr_project"), POPScheme := schemeOf kvs } := by
  unfold ParseDSN
  simp only [hre, hq, hm, he, hw, schemeOf]

/-! ## The structural grammar -/

theorem lit_colon : lit ":" = [58] := by decide
theorem lit_at : lit "@" = [64] := by decide
theorem lit_qmark : lit "?" = [63] := by decide

theorem dropWhile_head_false {p : Nat → Bool} :
    ∀ {l : List Nat} {c : Nat} {r : List Nat}, l.dropWhile p = c :: r → p c = false := by
  intro l
  induction l with
  | nil => intro c r h; simp at h
  | cons a t ih =>
      intro c r h
      by_cases ha : p a = true
      · rw [List.dropWhile_cons_of_pos ha] at h
        exact ih h
      · rw [List.dropWhile_cons_of_neg ha] at h
        simp only [List.cons.injEq] at h
        rw [← h.1]
        simpa using ha

theorem takeWhile_append_stop {p : Nat → Bool} (a : List Nat) (d : Nat) (r : List Nat)
    (ha : ∀ c ∈ a, p c = true) (hd : p d = false) :
    (a ++ d :: r).takeWhile p = a ∧ (a ++ d :: r).dropWhile p = d :: r := by
  induction a with
  | nil => simp [List.takeWhile, List.dropWhile, hd]
  | cons x t ih =>
      have hx : p x = true := ha x (List.mem_cons_self _ _)
      have := ih (fun c hc => ha c (List.mem_cons_of_mem _ hc))
      simp [List.takeWhile, List.dropWhile, hx, this.1, this.2]

/-- What a match of `reDSN` says about the string. -/
theorem reDSN_sound {dsn pid ps purl q : GoString} (h : reDSN dsn = some (pid, ps, purl, q)) :
    dsn = pid ++ 58 :: (ps ++ 64 :: (purl ++ 63 :: q)) ∧
      pid ≠ [] ∧ (∀ c ∈ pid, isIDChar c = true) ∧
      ps ≠ [] ∧ (∀ c ∈ ps, isSecretChar c = true) ∧
      purl ≠ [] ∧ (∀ c ∈ purl, isURLChar c = true) ∧
      q ≠ [] ∧ (∀ c ∈ q, c ≠ 47) := by
  unfold reDSN at h
  split at h
  · rename_i c1 r1 h1
    split at h
    · rename_i c2 r2 h2
      split at h
      · rename_i c3 q3 h3
        dsimp only at h
        split at h
        · rename_i hc
          obtain ⟨e1, e2, e3, n1, n2, n3, n4, hq⟩ := hc
          simp only [Option.some.injEq, Prod.mk.injEq] at h
          obtain ⟨hpid, hps, hpurl, hqq⟩ := h
          subst e1 e2 e3 hqq
          have d1 := List.takeWhile_append_dropWhile isIDChar dsn
          have d2 := List.takeWhile_append_dropWhile isSecretChar r1
          have d3 := List.takeWhile_append_dropWhile isURLChar r2
          rw [h1, hpid] at d1
          rw [h2, hps] at d2
          rw [h3, hpurl] at d3
          refine ⟨?_, ?_, ?_, ?_, ?_, ?_, ?_, n4, ?_⟩
          · rw [d3, d2, d1]
          · rw [← hpid]; exact n1
          · intro c hc; rw [← hpid] at hc; exact List.mem_takeWhile_imp hc
          · rw [← hps]; exact n2
          · intro c hc; rw [← hps] at hc; exact List.mem_takeWhile_imp hc
          · rw [← hpurl]; exact n3
          · intro c hc; rw [← hpurl] at hc; exact List.mem_takeWhile_imp hc
          · intro c hc
            have := List.all_eq_true.mp hq c hc
            simpa using this
        · cases h
      · cases h
    · cases h
  · cases h

/-- The strings `reDSN` matches. -/
theorem reDSN_complete (pid ps purl q : GoString)
    (n1 : pid ≠ []) (c1 : ∀ c ∈ pid, isIDChar c = true)
    (n2 : ps ≠ []) (c2 : ∀ c ∈ ps, isSecretChar c = true)
    (n3 : purl ≠ []) (c3 : ∀ c ∈ purl, isURLChar c = true)
    (n4 : q ≠ []) (c4 : ∀ c ∈ q, c ≠ 47) :
    reDSN (pid ++ 58 :: (ps ++ 64 :: (purl ++ 63 :: q))) = some (pid, ps, purl, q) := by
  have t1 := takeWhile_append_stop (p := isIDChar) pid 58 (ps ++ 64 :: (purl ++ 63 :: q)) c1
    (by decide)
  have t2 := takeWhile_append_stop (p := isSecretChar) ps 64 (purl ++ 63 :: q) c2 (by decide)
  have t3 := takeWhile_append_stop (p := isURLChar) purl 63 q c3 (by decide)
  unfold reDSN
  simp only [t1.1, t1.2, t2.1, t2.2, t3.1, t3.2]
  have hq : (q.all fun c => c != 47) = true := by
    rw [List.all_eq_true]
    intro c hc
    simpa using c4 c hc
  simp [n1, n2, n3, n4, hq]

theorem ParseDSN_malformed_iff (dsn : GoString) :
    ParseDSN dsn = .error (.malformed dsn) ↔ reDSN dsn = none := by
  constructor
  · intro h
    cases hre : reDSN dsn with
    | none => rfl
    | some m =>
        obtain ⟨pid, ps, purl, q⟩ := m
        unfold ParseDSN at h
        simp only [hre] at h
        split at h
        · cases h
        · split at h
          · cases h
          · split at h
            · rename_i e he
              cases h
              unfold decodeJSONB64 at he
              split at he
              · cases he
              · split at he <;> cases he
            · split at h
              · rename_i e he
                cases h
                unfold decodeJSONB64 at he
                split at he
                · cases he
                · split at he <;> cases he
              · cases h
  · intro h
    unfold ParseDSN
    simp [h]

/-- C5: `ParseDSN` accepts a string only if it has the shape
`accessId:accessSecret@url?query` with a non-empty access id over
`[a-zA-Z0-9_-]`, a non-empty secret over `[=a-zA-Z0-9_-]` and a non-empty url
over `[:a-zA-Z0-9/_.-]`; a string not of this shape gets the malformed-DSN
error, whatever its query part holds, as does the string `a b:c@d?env=e30`
whose access id holds a space. -/
theorem ParseDSN_shape (s : GoString) :
    (∀ C, ParseDSN s = .ok C → DSNShape s) ∧
      (¬ DSNShape s → ParseDSN s = .error (.malformed s)) ∧
      ParseDSN (lit "a b:c@d?env=e30") = .error (.malformed (lit "a b:c@d?env=e30")) := by
  have hshape : ∀ pid ps purl q, reDSN s = some (pid, ps, purl, q) → DSNShape s := by
    intro pid ps purl q hre
    obtain ⟨e, n1, c1, n2, c2, n3, c3, -, -⟩ := reDSN_sound hre
    refine ⟨pid, ps, purl, q, ?_, n1, c1, n2, c2, n3, c3⟩
    rw [e, lit_colon, lit_at, lit_qmark]
    simp
  refine ⟨?_, ?_, by decide⟩
  · intro C h
    obtain ⟨pid, ps, purl, q, kvs, env, w, hre, -⟩ := ParseDSN_ok_inv h
    exact hshape pid ps purl q hre
  · intro hn
    rw [ParseDSN_malformed_iff]
    cases hre : reDSN s with
    | none => rfl
    | some m =>
        obtain ⟨pid, ps, purl, q⟩ := m
        exact absurd (hshape pid ps purl q hre) hn

/-! ## Query parameters of an accepted DSN -/

theorem Values.Get_eq_nil_iff (kvs : Values) (k : GoString) :
    Values.Get kvs k = [] ↔ kvs.lookup k = none ∨ kvs.lookup k = some [] := by
  unfold Values.Get
  cases kvs.lookup k <;> simp

/-- C7: for every DSN that `ParseDSN` accepts, the returned `POPScheme` is
`http` when the query has no `scheme` parameter or its first value is empty,
and otherwise it is the first `scheme` value of the query. -/
theorem ParseDSN_scheme (dsn : GoString) (C : Config) (h : ParseDSN dsn = .ok C) :
    ∃ pid ps purl q kvs, reDSN dsn = some (pid, ps, purl, q) ∧ parseQuery q = some kvs ∧
      C.POPScheme =
        match kvs.lookup (lit "scheme") with
        | none => lit "http"
        | some [] => lit "http"
        | some (c :: v) => c :: v := by
  obtain ⟨pid, ps, purl, q, kvs, env, w, hre, hq, -, -, -, hC⟩ := ParseDSN_ok_inv h
  refine ⟨pid, ps, purl, q, kvs, hre, hq, ?_⟩
  subst hC
  simp only [schemeOf, Values.Get]
  cases hl : kvs.lookup (lit "scheme") with
  | none => simp
  | some v => cases v <;> simp

theorem ParseDSN_scheme_witness :
    ∃ pid ps purl q kvs,
      reDSN (lit "a:b@c?env=e30&with=e30&curr_project=p&scheme=https") = some (pid, ps, purl, q) ∧
      parseQuery q = some kvs ∧
      lit "https" =
        match kvs.lookup (lit "scheme") with
        | none => lit "http"
        | some [] => lit "http"
        | some (c :: v) => c :: v :=
  ParseDSN_scheme (lit "a:b@c?env=e30&with=e30&curr_project=p&scheme=https")
    ⟨lit "a", lit "b", lit "c", lit "https", [], [], false, lit "p"⟩ (by decide)

/-- C8: for every DSN that `ParseDSN` accepts, the returned `Verbose` is true
if and only if the first `verbose` value of the query is exactly `true`; it
is false for every other value and when the parameter is absent. -/
theorem ParseDSN_verbose (dsn : GoString) (C : Config) (h : ParseDSN dsn = .ok C) :
    ∃ pid ps purl q kvs, reDSN dsn = some (pid, ps, purl, q) ∧ parseQuery q = some kvs ∧
      (C.Verbose = true ↔ kvs.lookup (lit "verbose") = some (lit "true")) := by
  obtain ⟨pid, ps, purl, q, kvs, env, w, hre, hq, -, -, -, hC⟩ := ParseDSN_ok_inv h
  refine ⟨pid, ps, purl, q, kvs, hre, hq, ?_⟩
  subst hC
  simp only [Values.Get, decide_eq_true_eq]
  cases hl : kvs.lookup (lit "verbose") with
  | none => simp [lit]
  | some v => simp

theorem ParseDSN_verbose_witness :
    ∃ pid ps purl q kvs,
      reDSN (lit "a:b@c?env=e30&with=e30&curr_project=p&verbose=TRUE") = some (pid, ps, purl, q) ∧
      parseQuery q = some kvs ∧
      (false = true ↔ kvs.lookup (lit "verbose") = some (lit "true")) :=
  ParseDSN_verbose (lit "a:b@c?env=e30&with=e30&curr_project=p&verbose=TRUE")
    ⟨lit "a", lit "b", lit "c", lit "http", [], [], false, lit "p"⟩ (by decide)

/-- C4: for every DSN that matches `reDSN` and whose query parses, if one of
the required keys `env`, `with`, `curr_project` is absent or its first value
is empty, `ParseDSN` returns no Config but the missing-parameter error that
names the first such key in this order; so it names `with` when `env` is
given and `with` is not. -/
theorem ParseDSN_missing (dsn pid ps purl q : GoString) (kvs : Values)
    (hre : reDSN dsn = some (pid, ps, purl, q)) (hq : parseQuery q = some kvs)
    (hmiss : ∃ k ∈ [lit "env", lit "with", lit "curr_project"],
      kvs.lookup k = none ∨ kvs.lookup k = some []) :
    (∃ k ∈ [lit "env", lit "with", lit "curr_project"],
        (kvs.lookup k = none ∨ kvs.lookup k = some []) ∧
        ParseDSN dsn = .error (.missingParameter k)) ∧
      ((kvs.lookup (lit "env") = none ∨ kvs.lookup (lit "env") = some []) →
        ParseDSN dsn = .error (.missingParameter (lit "env"))) ∧
      (¬ (kvs.lookup (lit "env") = none ∨ kvs.lookup (lit "env") = some []) →
        (kvs.lookup (lit "with") = none ∨ kvs.lookup (lit "with") = some []) →
        ParseDSN dsn = .error (.missingParameter (lit "with"))) ∧
      (¬ (kvs.lookup (lit "env") = none ∨ kvs.lookup (lit "env") = some []) →
        ¬ (kvs.lookup (lit "with") = none ∨ kvs.lookup (lit "with") = some []) →
        (kvs.lookup (lit "curr_project") = none ∨ kvs.lookup (lit "curr_project") = some []) →
        ParseDSN dsn = .error (.missingParameter (lit "curr_project"))) := by
  have key : ∀ k, (kvs.lookup k = none ∨ kvs.lookup k = some []) ↔ Values.Get kvs k = [] :=
    fun k => (Values.Get_eq_nil_iff kvs k).symm
  simp only [key] at hmiss ⊢
  have h1 : Values.Get kvs (lit "env") = [] →
      ParseDSN dsn = .error (.missingParameter (lit "env")) := by
    intro h
    unfold ParseDSN
    simp [hre, hq, firstMissing, h]
  have h2 : ¬ Values.Get kvs (lit "env") = [] → Values.Get kvs (lit "with") = [] →
      ParseDSN dsn = .error (.missingParameter (lit "with")) := by
    intro h h'
    unfold ParseDSN
    simp [hre, hq, firstMissing, h, h']
  have h3 : ¬ Values.Get kvs (lit "env") = [] → ¬ Values.Get kvs (lit "with") = [] →
      Values.Get kvs (lit "curr_project") = [] →
      ParseDSN dsn = .error (.missingParameter (lit "curr_project")) := by
    intro h h' h''
    unfold ParseDSN
    simp [hre, hq, firstMissing, h, h', h'']
  refine ⟨?_, h1, h2, h3⟩
  by_cases he : Values.Get kvs (lit "env") = []
  · exact ⟨lit "env", by simp, he, h1 he⟩
  · by_cases hw : Values.Get kvs (lit "with") = []
    · exact ⟨lit "with", by simp, hw, h2 he hw⟩
    · have hp : Values.Get kvs (lit "curr_project") = [] := by
        obtain ⟨k, hk, hk'⟩ := hmiss
        simp only [List.mem_cons, List.mem_singleton, List.not_mem_nil, or_false] at hk
        rcases hk with rfl | rfl | rfl
        · exact absurd hk' he
        · exact absurd hk' hw
        · exact hk'
      exact ⟨lit "curr_project", by simp, hp, h3 he hw hp⟩

theorem ParseDSN_missing_witness :
    ParseDSN (lit "a:b@c?env=e30&curr_project=p") = .error (.missingParameter (lit "with")) :=
  (ParseDSN_missing (lit "a:b@c?env=e30&curr_project=p") (lit "a") (lit "b") (lit "c")
    (lit "env=e30&curr_project=p") [(lit "env", lit "e30"), (lit "curr_project", lit "p")]
    (by decide) (by decide) ⟨lit "with", by decide, Or.inl (by decide)⟩).2.2.1
    (by decide) (Or.inl (by decide))

/-! ## The limit on the query parameters -/

theorem parseQuery_of_le {q : GoString} (h : q.count 38 + 1 ≤ defaultMaxParams) :
    parseQuery q = parseSegments (splitOn 38 q) := by
  unfold parseQuery
  rw [if_pos h]

theorem parseQuery_some {q : GoString} {kvs : Values} (h : parseQuery q = some kvs) :
    q.count 38 + 1 ≤ defaultMaxParams ∧ parseSegments (splitOn 38 q) = some kvs := by
  unfold parseQuery at h
  split at h
  · rename_i hc
    exact ⟨hc, h⟩
  · cases h

theorem parseQuery_over {q : GoString} (h : defaultMaxParams < q.count 38 + 1) :
    parseQuery q = none := by
  unfold parseQuery
  rw [if_neg (by omega)]

theorem count_append_sep (a b : GoString) (h : (38 : Nat) ∉ a) :
    (a ++ 38 :: b).count 38 = b.count 38 + 1 := by
  rw [List.count_append, List.count_eq_zero_of_not_mem h, List.count_cons_self]
  omega

/-- A DSN that matches `reDSN` holds its `&` in the query. -/
theorem count_amp_of_reDSN {dsn pid ps purl q : GoString}
    (h : reDSN dsn = some (pid, ps, purl, q)) : dsn.count 38 = q.count 38 := by
  obtain ⟨e, -, c1, -, c2, -, c3, -, -⟩ := reDSN_sound h
  have h1 : pid.count 38 = 0 := List.count_eq_zero_of_not_mem (fun hm => by
    have := c1 38 hm
    revert this
    decide)
  have h2 : ps.count 38 = 0 := List.count_eq_zero_of_not_mem (fun hm => by
    have := c2 38 hm
    revert this
    decide)
  have h3 : purl.count 38 = 0 := List.count_eq_zero_of_not_mem (fun hm => by
    have := c3 38 hm
    revert this
    decide)
  rw [e]
  simp only [List.count_append, List.count_cons, h1, h2, h3]
  simp

/-- A DSN that matches `reDSN` with more than `defaultMaxParams` query
parameters is rejected with the error of `url.ParseQuery`. -/
theorem ParseDSN_over {dsn pid ps purl q : GoString}
    (hre : reDSN dsn = some (pid, ps, purl, q)) (h : defaultMaxParams < q.count 38 + 1) :
    ParseDSN dsn = .error .query := by
  unfold ParseDSN
  simp only [hre, parseQuery_over h]

/-! ## Extra query parameters -/

theorem splitOn_ne_nil (sep : Nat) (a : GoString) : splitOn sep a ≠ [] := by
  cases a with
  | nil => simp [splitOn]
  | cons c t =>
      unfold splitOn
      split
      · simp
      · split <;> simp

theorem splitOn_cons (sep c : Nat) (t : GoString) :
    splitOn sep (c :: t) =
      if c = sep then [] :: splitOn sep t
      else
        match splitOn sep t with
        | [] => [[c]]
        | seg :: segs => (c :: seg) :: segs := by
  rw [splitOn]

theorem splitOn_append_sep (sep : Nat) (a b : GoString) :
    splitOn sep (a ++ sep :: b) = splitOn sep a ++ splitOn sep b := by
  induction a with
  | nil => simp [splitOn]
  | cons c t ih =>
      rw [List.cons_append, splitOn_cons, splitOn_cons, ih]
      by_cases hc : c = sep
      · simp [hc]
      · cases hs : splitOn sep t with
        | nil => exact absurd hs (splitOn_ne_nil sep t)
        | cons seg segs => simp [hc]

theorem splitOn_of_not_mem (sep : Nat) (a : GoString) (h : sep ∉ a) : splitOn sep a = [a] := by
  induction a with
  | nil => simp [splitOn]
  | cons c t ih =>
      have hc : ¬ c = sep := fun e => h (by simp [e])
      have ht : sep ∉ t := fun e => h (List.mem_cons_of_mem _ e)
      simp [splitOn, hc, ih ht]

theorem parseSegments_cons (seg : GoString) (segs : List GoString) :
    parseSegments (seg :: segs) =
      if seg.contains 59 then none
      else if seg = [] then parseSegments segs
      else
        match queryUnescape (seg.takeWhile (fun c => c != 61)),
              queryUnescape ((seg.dropWhile (fun c => c != 61)).drop 1),
              parseSegments segs with
        | some k, some v, some kvs => some ((k, v) :: kvs)
        | _, _, _ => none := by
  rw [parseSegments]

theorem parseSegments_append (l1 l2 : List GoString) :
    parseSegments (l1 ++ l2) =
      match parseSegments l1, parseSegments l2 with
      | some a, some b => some (a ++ b)
      | _, _ => none := by
  induction l1 with
  | nil =>
      rw [List.nil_append]
      cases parseSegments l2 <;> simp [parseSegments]
  | cons seg segs ih =>
      rw [List.cons_append, parseSegments_cons, parseSegments_cons, ih]
      split_ifs
      · rfl
      · rfl
      · cases queryUnescape (List.takeWhile (fun c => c != 61) seg) <;>
          cases queryUnescape (List.drop 1 (List.dropWhile (fun c => c != 61) seg)) <;>
          cases parseSegments segs <;> cases parseSegments l2 <;> rfl

theorem queryUnescape_cons (c : Nat) (rest : GoString) (h : c ≠ 37) :
    queryUnescape (c :: rest) =
      match queryUnescape rest with
      | some t => some ((if c = 43 then 32 else c) :: t)
      | none => none := by
  conv_lhs => rw [queryUnescape.eq_def]
  simp only [h, if_false]

theorem queryUnescape_plain (s : GoString) (h : ∀ c ∈ s, c ≠ 37 ∧ c ≠ 43) :
    queryUnescape s = some s := by
  induction s with
  | nil => simp [queryUnescape]
  | cons c t ih =>
      have hc := h c (List.mem_cons_self _ _)
      have ht := ih (fun d hd => h d (List.mem_cons_of_mem _ hd))
      rw [queryUnescape_cons c t hc.1, ht]
      simp [hc.2]

/-- One piece `k=v` of a query whose key has no `=` and whose two halves
need no unescaping. -/
theorem parseSegments_pair (k v : GoString) (segs : List GoString)
    (hk : ∀ c ∈ k, c ≠ 37 ∧ c ≠ 43 ∧ c ≠ 59 ∧ c ≠ 61)
    (hv : ∀ c ∈ v, c ≠ 37 ∧ c ≠ 43 ∧ c ≠ 59) :
    parseSegments ((k ++ 61 :: v) :: segs) =
      match parseSegments segs with
      | some kvs => some ((k, v) :: kvs)
      | none => none := by
  have t := takeWhile_append_stop (p := fun c => c != 61) k 61 v
    (fun c hc => by simpa using (hk c hc).2.2.2) (by simp)
  have h59 : (k ++ 61 :: v).contains 59 = false := by
    rw [Bool.eq_false_iff]
    intro hmem
    have hmem : (59 : Nat) ∈ k ++ 61 :: v := by simpa using hmem
    rcases List.mem_append.mp hmem with hm | hm
    · exact (hk 59 hm).2.2.1 rfl
    · rcases List.mem_cons.mp hm with hm | hm
      · cases hm
      · exact (hv 59 hm).2.2 rfl
  have uk := queryUnescape_plain k (fun c hc => ⟨(hk c hc).1, (hk c hc).2.1⟩)
  have uv := queryUnescape_plain v (fun c hc => ⟨(hv c hc).1, (hv c hc).2.1⟩)
  have hne : k ++ 61 :: v ≠ [] := by simp
  rw [parseSegments_cons]
  simp only [h59, Bool.false_eq_true, if_false, t.1, t.2, List.drop_succ_cons, List.drop_zero,
    uk, uv, hne]
  cases parseSegments segs <;> rfl

theorem lookup_append_single (kvs : Values) (k v key : GoString) (h : key ≠ k) :
    (kvs ++ [(k, v)]).lookup key = kvs.lookup key := by
  induction kvs with
  | nil =>
      have : (key == k) = false := by simpa using h
      simp [List.lookup, this]
  | cons p t ih =>
      obtain ⟨a, b⟩ := p
      simp only [List.cons_append, List.lookup]
      cases key == a <;> simp [ih]

theorem ParseDSN_congr {s s1 pid ps purl q q1 : GoString} {kvs kvs1 : Values}
    (hre : reDSN s = some (pid, ps, purl, q)) (hq : parseQuery q = some kvs)
    (hre1 : reDSN s1 = some (pid, ps, purl, q1)) (hq1 : parseQuery q1 = some kvs1)
    (hget : ∀ key ∈ [lit "env", lit "with", lit "curr_project", lit "scheme", lit "verbose"],
      Values.Get kvs1 key = Values.Get kvs key) :
    ParseDSN s1 = ParseDSN s := by
  have g1 := hget (lit "env") (by simp)
  have g2 := hget (lit "with") (by simp)
  have g3 := hget (lit "curr_project") (by simp)
  have g4 := hget (lit "scheme") (by simp)
  have g5 := hget (lit "verbose") (by simp)
  unfold ParseDSN
  simp only [hre, hq, hre1, hq1, firstMissing, g1, g2, g3, g4, g5]

theorem isAlnum_ne {c : Nat} (h : isAlnum c = true) :
    c ≠ 37 ∧ c ≠ 38 ∧ c ≠ 43 ∧ c ≠ 47 ∧ c ≠ 59 ∧ c ≠ 61 := by
  simp only [isAlnum, Bool.or_eq_true, Bool.and_eq_true, decide_eq_true_eq] at h
  omega

theorem reDSN_append {s pid ps purl q : GoString} (t : GoString)
    (h : reDSN s = some (pid, ps, purl, q)) (ht : ∀ c ∈ t, c ≠ 47) :
    reDSN (s ++ t) = some (pid, ps, purl, q ++ t) := by
  obtain ⟨e, n1, c1, n2, c2, n3, c3, n4, c4⟩ := reDSN_sound h
  have hs : s ++ t = pid ++ 58 :: (ps ++ 64 :: (purl ++ 63 :: (q ++ t))) := by
    rw [e]
    simp
  rw [hs]
  apply reDSN_complete pid ps purl _ n1 c1 n2 c2 n3 c3
  · simp [n4]
  · intro c hc
    rcases List.mem_append.mp hc with hm | hm
    · exact c4 c hm
    · exact ht c hm

theorem splitOn_replicate (n : Nat) :
    splitOn 38 (List.replicate n 38) = List.replicate (n + 1) [] := by
  induction n with
  | zero => rfl
  | succ n ih =>
      rw [List.replicate_succ, splitOn, if_pos rfl, ih]
      rfl

theorem parseSegments_replicate (n : Nat) : parseSegments (List.replicate n []) = some [] := by
  induction n with
  | zero => rfl
  | succ n ih =>
      rw [List.replicate_succ, parseSegments]
      simp [ih]

/-- Characters `&` at the end of an accepted DSN add empty pieces to the
query, which `url.ParseQuery` skips but counts. -/
theorem ParseDSN_trailing_amps (s : GoString) (C : Config) (n : Nat) (h : ParseDSN s = .ok C)
    (hn : s.count 38 + n + 1 ≤ defaultMaxParams) :
    ParseDSN (s ++ List.replicate n 38) = .ok C := by
  cases n with
  | zero => simpa using h
  | succ n =>
      obtain ⟨pid, ps, purl, q, kvs, env, w, hre, hq, -, -, -, -⟩ := ParseDSN_ok_inv h
      obtain ⟨-, hseg0⟩ := parseQuery_some hq
      have hcount := count_amp_of_reDSN hre
      have hre1 := reDSN_append (List.replicate (n + 1) 38) hre (by
        intro c hc
        rw [List.eq_of_mem_replicate hc]
        decide)
      have hq1 : parseQuery (q ++ List.replicate (n + 1) 38) = some (kvs ++ []) := by
        rw [parseQuery_of_le (by
          rw [List.count_append, List.count_replicate_self, ← hcount]
          omega), List.replicate_succ, splitOn_append_sep, parseSegments_append, hseg0,
          splitOn_replicate, parseSegments_replicate]
      rw [ParseDSN_congr hre hq hre1 hq1, h]
      intro key _
      rw [List.append_nil]

/-- C9, the claim as stated fails: the DSN
`a:b@c?env=e30&with=e30&curr_project=p` followed by 9997 characters `&` has
10000 query parameters (empty ones are counted) and `ParseDSN` accepts it;
with `&x1=y2` appended it has 10001, and `ParseDSN` returns the error of
`url.ParseQuery`. -/
theorem ParseDSN_unknown_param_limit :
    ParseDSN (lit "a:b@c?env=e30&with=e30&curr_project=p" ++ List.replicate 9997 38) =
        .ok ⟨lit "a", lit "b", lit "c", lit "http", [], [], false, lit "p"⟩ ∧
      ParseDSN (lit "a:b@c?env=e30&with=e30&curr_project=p" ++ List.replicate 9997 38 ++
        lit "&" ++ lit "x1" ++ lit "=" ++ lit "y2") = .error .query := by
  have h1 : ParseDSN (lit "a:b@c?env=e30&with=e30&curr_project=p" ++ List.replicate 9997 38) =
      .ok ⟨lit "a", lit "b", lit "c", lit "http", [], [], false, lit "p"⟩ :=
    ParseDSN_trailing_amps _ _ 9997 (by decide) (by decide)
  refine ⟨h1, ?_⟩
  obtain ⟨pid, ps, purl, q, kvs, env, w, hre, -, -, -, -, -⟩ := ParseDSN_ok_inv h1
  have hcount := count_amp_of_reDSN hre
  have hre1 := reDSN_append (lit "&x1=y2") hre (by decide)
  have e : lit "a:b@c?env=e30&with=e30&curr_project=p" ++ List.replicate 9997 38 ++
      lit "&" ++ lit "x1" ++ lit "=" ++ lit "y2" =
      lit "a:b@c?env=e30&with=e30&curr_project=p" ++ List.replicate 9997 38 ++ lit "&x1=y2" := by
    simp only [List.append_assoc]
    rfl
  rw [e]
  refine ParseDSN_over hre1 ?_
  rw [List.count_append, ← hcount, List.count_append, List.count_replicate_self]
  decide

/-- C9, amended: for every DSN `s` that `ParseDSN` accepts, every key `k` of
letters and digits other than `env`, `with`, `curr_project`, `scheme`,
`verbose`, and every value `v` of letters and digits: when `s` holds at most
9998 characters `&` (fewer than `defaultMaxParams` query parameters),
`ParseDSN` accepts `s&k=v` too and returns the same Config; when `s` holds
more, `ParseDSN` rejects `s&k=v` with the error of `url.ParseQuery`. -/
theorem ParseDSN_unknown_param (s k v : GoString) (C : Config) (h : ParseDSN s = .ok C)
    (hk : ∀ c ∈ k, isAlnum c = true) (hv : ∀ c ∈ v, isAlnum c = true)
    (hne : k ∉ [lit "env", lit "with", lit "curr_project", lit "scheme", lit "verbose"]) :
    (s.count 38 ≤ 9998 → ParseDSN (s ++ lit "&" ++ k ++ lit "=" ++ v) = .ok C) ∧
      (9998 < s.count 38 → ParseDSN (s ++ lit "&" ++ k ++ lit "=" ++ v) = .error .query) := by
  obtain ⟨pid, ps, purl, q, kvs, env, w, hre, hq, -, -, -, -⟩ := ParseDSN_ok_inv h
  obtain ⟨e, n1, c1, n2, c2, n3, c3, n4, c4⟩ := reDSN_sound hre
  obtain ⟨-, hseg0⟩ := parseQuery_some hq
  have hcount := count_amp_of_reDSN hre
  have hlit1 : lit "&" = [38] := by decide
  have hlit2 : lit "=" = [61] := by decide
  have hs1 : s ++ lit "&" ++ k ++ lit "=" ++ v =
      pid ++ 58 :: (ps ++ 64 :: (purl ++ 63 :: (q ++ 38 :: (k ++ 61 :: v)))) := by
    rw [hlit1, hlit2, e]
    simp
  have hre1 : reDSN (s ++ lit "&" ++ k ++ lit "=" ++ v) =
      some (pid, ps, purl, q ++ 38 :: (k ++ 61 :: v)) := by
    rw [hs1]
    apply reDSN_complete pid ps purl _ n1 c1 n2 c2 n3 c3
    · simp
    · intro c hc
      rcases List.mem_append.mp hc with hm | hm
      · exact c4 c hm
      · rcases List.mem_cons.mp hm with hm | hm
        · rw [hm]; decide
        · rcases List.mem_append.mp hm with hm | hm
          · exact (isAlnum_ne (hk c hm)).2.2.2.1
          · rcases List.mem_cons.mp hm with hm | hm
            · rw [hm]; decide
            · exact (isAlnum_ne (hv c hm)).2.2.2.1
  have h38 : (38 : Nat) ∉ k ++ 61 :: v := by
    intro hm
    rcases List.mem_append.mp hm with hm | hm
    · exact (isAlnum_ne (hk 38 hm)).2.1 rfl
    · rcases List.mem_cons.mp hm with hm | hm
      · cases hm
      · exact (isAlnum_ne (hv 38 hm)).2.1 rfl
  have hcount1 : (q ++ 38 :: (k ++ 61 :: v)).count 38 = s.count 38 + 1 := by
    rw [List.count_append, List.count_cons_self, List.count_eq_zero_of_not_mem h38, hcount]
  constructor
  · intro hle
    have hseg : parseSegments [k ++ 61 :: v] = some [(k, v)] := by
      rw [parseSegments_pair k v []]
      · simp [parseSegments]
      · intro c hc
        have := isAlnum_ne (hk c hc)
        exact ⟨this.1, this.2.2.1, this.2.2.2.2.1, this.2.2.2.2.2⟩
      · intro c hc
        have := isAlnum_ne (hv c hc)
        exact ⟨this.1, this.2.2.1, this.2.2.2.2.1⟩
    have hq1 : parseQuery (q ++ 38 :: (k ++ 61 :: v)) = some (kvs ++ [(k, v)]) := by
      rw [parseQuery_of_le (by rw [hcount1]; unfold defaultMaxParams; omega),
        splitOn_append_sep, parseSegments_append, hseg0, splitOn_of_not_mem 38 _ h38, hseg]
    rw [ParseDSN_congr hre hq hre1 hq1, h]
    intro key hkey
    have hkk : key ≠ k := fun e => hne (e ▸ hkey)
    simp only [Values.Get, lookup_append_single kvs k v key hkk]
  · intro hlt
    exact ParseDSN_over hre1 (by rw [hcount1]; unfold defaultMaxParams; omega)

theorem ParseDSN_unknown_param_witness :
    ParseDSN (lit "a:b@c?env=e30&with=e30&curr_project=p" ++ lit "&" ++ lit "x1" ++ lit "=" ++
        lit "y2") =
      .ok ⟨lit "a", lit "b", lit "c", lit "http", [], [], false, lit "p"⟩ :=
  (ParseDSN_unknown_param (lit "a:b@c?env=e30&with=e30&curr_project=p") (lit "x1") (lit "y2")
    ⟨lit "a", lit "b", lit "c", lit "http", [], [], false, lit "p"⟩ (by decide) (by decide)
    (by decide) (by decide)).1 (by decide)

/-! ## Sorting the keys -/

theorem strLE_refl (a : GoString) : strLE a a = true := by
  induction a with
  | nil => rfl
  | cons x t ih => simp [strLE, ih]

theorem strLE_total (a b : GoString) : strLE a b = true ∨ strLE b a = true := by
  induction a generalizing b with
  | nil => left; rfl
  | cons x t ih =>
      cases b with
      | nil => right; rfl
      | cons y u =>
          simp only [strLE, Bool.or_eq_true, Bool.and_eq_true, decide_eq_true_eq, beq_iff_eq]
          rcases Nat.lt_trichotomy x y with h | h | h
          · left; left; exact h
          · rcases ih u with h1 | h1
            · left; right; exact ⟨h, h1⟩
            · right; right; exact ⟨h.symm, h1⟩
          · right; left; exact h

theorem strLE_trans {a b c : GoString} (h1 : strLE a b = true) (h2 : strLE b c = true) :
    strLE a c = true := by
  induction a generalizing b c with
  | nil => rfl
  | cons x t ih =>
      cases b with
      | nil => simp [strLE] at h1
      | cons y u =>
          cases c with
          | nil => simp [strLE] at h2
          | cons z v =>
              simp only [strLE, Bool.or_eq_true, Bool.and_eq_true, decide_eq_true_eq,
                beq_iff_eq] at h1 h2 ⊢
              rcases h1 with h1 | ⟨e1, h1⟩
              · rcases h2 with h2 | ⟨e2, h2⟩
                · left; omega
                · left; omega
              · rcases h2 with h2 | ⟨e2, h2⟩
                · left; omega
                · right; exact ⟨by omega, ih h1 h2⟩

theorem strLE_antisymm {a b : GoString} (h1 : strLE a b = true) (h2 : strLE b a = true) :
    a = b := by
  induction a generalizing b with
  | nil =>
      cases b with
      | nil => rfl
      | cons y u => simp [strLE] at h2
  | cons x t ih =>
      cases b with
      | nil => simp [strLE] at h1
      | cons y u =>
          simp only [strLE, Bool.or_eq_true, Bool.and_eq_true, decide_eq_true_eq,
            beq_iff_eq] at h1 h2
          rcases h1 with h1 | ⟨e1, h1⟩
          · rcases h2 with h2 | ⟨e2, h2⟩
            · omega
            · omega
          · rcases h2 with h2 | ⟨e2, h2⟩
            · omega
            · rw [e1, ih h1 h2]

theorem strLE_isTotal : IsTotal GoString (fun a b => strLE a b = true) := ⟨strLE_total⟩

theorem strLE_isTrans : IsTrans GoString (fun a b => strLE a b = true) :=
  ⟨fun _ _ _ h1 h2 => strLE_trans h1 h2⟩

theorem strLE_isAntisymm : IsAntisymm GoString (fun a b => strLE a b = true) :=
  ⟨fun _ _ h1 h2 => strLE_antisymm h1 h2⟩

theorem sortStrings_perm (keys : List GoString) : (sortStrings keys).Perm keys :=
  List.perm_insertionSort _ keys

theorem sortStrings_sorted (keys : List GoString) :
    (sortStrings keys).Sorted (fun a b => strLE a b = true) :=
  haveI := strLE_isTotal
  haveI := strLE_isTrans
  List.sorted_insertionSort _ keys

theorem sortStrings_eq_of_perm {k1 k2 : List GoString} (h : k1.Perm k2) :
    sortStrings k1 = sortStrings k2 :=
  haveI := strLE_isAntisymm
  List.eq_of_perm_of_sorted
    (((sortStrings_perm k1).trans h).trans (sortStrings_perm k2).symm)
    (sortStrings_sorted k1) (sortStrings_sorted k2)

/-! ## Maps with pairwise different keys -/

theorem lookup_of_mem {m : GoMap} (hm : GoMap.NodupKeys m) {k v : GoString} (h : (k, v) ∈ m) :
    m.lookup k = some v := by
  induction m with
  | nil => simp at h
  | cons p t ih =>
      obtain ⟨a, b⟩ := p
      simp only [GoMap.NodupKeys, List.map_cons, List.nodup_cons] at hm
      rcases List.mem_cons.mp h with h | h
      · cases h
        simp [List.lookup]
      · have hne : k ≠ a := by
          intro e
          apply hm.1
          rw [← e]
          exact List.mem_map_of_mem Prod.fst h
        have : (k == a) = false := by simpa using hne
        simp only [List.lookup, this]
        exact ih hm.2 h

theorem GoMap.get_of_mem {m : GoMap} (hm : GoMap.NodupKeys m) {p : GoString × GoString}
    (h : p ∈ m) : GoMap.get m p.1 = p.2 := by
  unfold GoMap.get
  rw [lookup_of_mem hm (k := p.1) (v := p.2) h]

theorem mem_of_lookup {m : GoMap} {k v : GoString} (h : m.lookup k = some v) : (k, v) ∈ m := by
  induction m with
  | nil => simp at h
  | cons p t ih =>
      obtain ⟨a, b⟩ := p
      simp only [List.lookup] at h
      cases hk : k == a with
      | true =>
          rw [hk] at h
          simp only [Option.some.injEq] at h
          have : k = a := by simpa using hk
          rw [this, h]
          exact List.mem_cons_self _ _
      | false =>
          rw [hk] at h
          exact List.mem_cons_of_mem _ (ih h)

theorem GoMap.get_perm {m1 m2 : GoMap} (h1 : GoMap.NodupKeys m1) (h : m1.Perm m2)
    (k : GoString) : GoMap.get m1 k = GoMap.get m2 k := by
  have h2 : GoMap.NodupKeys m2 := (h.map Prod.fst).nodup_iff.mp h1
  unfold GoMap.get
  cases e1 : m1.lookup k with
  | some v => rw [lookup_of_mem h2 (h.subset (mem_of_lookup e1))]
  | none =>
      cases e2 : m2.lookup k with
      | none => rfl
      | some v =>
          rw [lookup_of_mem h1 (h.symm.subset (mem_of_lookup e2))] at e1
          cases e1

theorem map_get_self {m : GoMap} (hm : GoMap.NodupKeys m) :
    (m.map Prod.fst).map (fun k => (k, GoMap.get m k)) = m := by
  rw [List.map_map]
  conv_rhs => rw [← List.map_id m]
  apply List.map_congr_left
  intro p hp
  simp only [Function.comp, id]
  rw [GoMap.get_of_mem hm hp]

theorem sortedPairs_perm {m : GoMap} (hm : GoMap.NodupKeys m) : (sortedPairs m).Perm m := by
  have := (sortStrings_perm (m.map Prod.fst)).map (fun k => (k, GoMap.get m k))
  rw [map_get_self hm] at this
  exact this

theorem sortedPairs_keys (m : GoMap) : (sortedPairs m).map Prod.fst = sortStrings (m.map Prod.fst) := by
  unfold sortedPairs
  rw [List.map_map]
  conv_rhs => rw [← List.map_id (sortStrings (m.map Prod.fst))]
  rfl

theorem sortedPairs_eq_of_perm {m1 m2 : GoMap} (h1 : GoMap.NodupKeys m1) (h : m1.Perm m2) :
    sortedPairs m1 = sortedPairs m2 := by
  unfold sortedPairs
  rw [sortStrings_eq_of_perm (h.map Prod.fst)]
  apply List.map_congr_left
  intro k _
  rw [GoMap.get_perm h1 h k]

theorem encodeJSONB64_eq (m : GoMap) : encodeJSONB64 m = b64Encode (renderObject (sortedPairs m)) := by
  unfold encodeJSONB64 renderObject sortedPairs
  simp only [List.map_map]
  rfl

/-- C2: two Configs that agree on the scalar fields and whose `Env` and `With`
maps hold the same key-value pairs, in whatever order the pairs were put in
or are visited, have the same `FormatDSN` string; and `encodeJSONB64` encodes
the text `{"k":"v",...}` of the pairs of the map in the sorted order of
their keys. -/
theorem FormatDSN_deterministic (C1 C2 : Config)
    (hid : C1.POPAccessID = C2.POPAccessID) (hsec : C1.POPAccessSecret = C2.POPAccessSecret)
    (hurl : C1.POPURL = C2.POPURL) (hscheme : C1.POPScheme = C2.POPScheme)
    (hverb : C1.Verbose = C2.Verbose) (hproj : C1.Project = C2.Project)
    (nEnv : GoMap.NodupKeys C1.Env) (nWith : GoMap.NodupKeys C1.With)
    (hEnv : C1.Env.Perm C2.Env) (hWith : C1.With.Perm C2.With) :
    C1.FormatDSN = C2.FormatDSN ∧
      encodeJSONB64 C1.Env = b64Encode (renderObject (sortedPairs C1.Env)) ∧
      (sortedPairs C1.Env).Perm C1.Env ∧
      ((sortedPairs C1.Env).map Prod.fst).Sorted (fun a b => strLE a b = true) := by
  refine ⟨?_, encodeJSONB64_eq _, sortedPairs_perm nEnv, ?_⟩
  · unfold Config.FormatDSN
    rw [encodeJSONB64_eq C1.Env, encodeJSONB64_eq C1.With, encodeJSONB64_eq C2.Env,
      encodeJSONB64_eq C2.With, sortedPairs_eq_of_perm nEnv hEnv,
      sortedPairs_eq_of_perm nWith hWith, hid, hsec, hurl, hscheme, hverb, hproj]
  · rw [sortedPairs_keys]
    exact sortStrings_sorted _

theorem FormatDSN_deterministic_witness :
    Config.FormatDSN ⟨lit "a", lit "b", lit "c", lit "http",
        [(lit "x", lit "1"), (lit "y", lit "2")], [], true, lit "p"⟩ =
      Config.FormatDSN ⟨lit "a", lit "b", lit "c", lit "http",
        [(lit "y", lit "2"), (lit "x", lit "1")], [], true, lit "p"⟩ :=
  (FormatDSN_deterministic
    ⟨lit "a", lit "b", lit "c", lit "http", [(lit "x", lit "1"), (lit "y", lit "2")], [], true,
      lit "p"⟩
    ⟨lit "a", lit "b", lit "c", lit "http", [(lit "y", lit "2"), (lit "x", lit "1")], [], true,
      lit "p"⟩
    rfl rfl rfl rfl rfl rfl (by decide) (by decide) (List.Perm.swap _ _ _) (List.Perm.refl _)).1

/-! ## base64 -/

theorem b64Val_b64Char (v : Nat) (h : v < 64) : b64Val (b64Char v) = some v := by
  interval_cases v <;> rfl

theorem b64Char_isIDChar (v : Nat) : isIDChar (b64Char v) = true := by
  unfold b64Char isIDChar
  split_ifs <;> simp <;> omega

theorem b64Encode_isIDChar : ∀ (bs : GoString), ∀ c ∈ b64Encode bs, isIDChar c = true
  | [], c, h => by simp [b64Encode] at h
  | [a], c, h => by
      simp only [b64Encode, List.mem_cons, List.mem_singleton, List.not_mem_nil, or_false] at h
      rcases h with h | h <;> rw [h] <;> exact b64Char_isIDChar _
  | [a, b], c, h => by
      simp only [b64Encode, List.mem_cons, List.mem_singleton, List.not_mem_nil, or_false] at h
      rcases h with h | h | h <;> rw [h] <;> exact b64Char_isIDChar _
  | a :: b :: c1 :: rest, c, h => by
      simp only [b64Encode, List.mem_cons] at h
      rcases h with h | h | h | h | h
      · rw [h]; exact b64Char_isIDChar _
      · rw [h]; exact b64Char_isIDChar _
      · rw [h]; exact b64Char_isIDChar _
      · rw [h]; exact b64Char_isIDChar _
      · exact b64Encode_isIDChar rest c h

theorem b64Encode_ne_nil {bs : GoString} (h : bs ≠ []) : b64Encode bs ≠ [] := by
  match bs, h with
  | [a], _ => simp [b64Encode]
  | [a, b], _ => simp [b64Encode]
  | a :: b :: c :: rest, _ => simp [b64Encode]

theorem b64Vals_cons (c : Nat) (cs : GoString) :
    b64Vals (c :: cs) =
      match b64Val c, b64Vals cs with
      | some v, some vs => some (v :: vs)
      | _, _ => none := by
  rw [b64Vals]

theorem b64_vals_roundtrip : ∀ (bs : GoString), (∀ b ∈ bs, b < 256) →
    ∃ vs, b64Vals (b64Encode bs) = some vs ∧ b64DecodeVals vs = some bs
  | [], _ => ⟨[], rfl, rfl⟩
  | [a], h => by
      have ha : a < 256 := h a (by simp)
      refine ⟨[a * 65536 / 262144 % 64, a * 65536 / 4096 % 64], ?_, ?_⟩
      · simp only [b64Encode, b64Vals_cons]
        rw [b64Val_b64Char _ (Nat.mod_lt _ (by norm_num)),
          b64Val_b64Char _ (Nat.mod_lt _ (by norm_num))]
        rfl
      · simp only [b64DecodeVals, Option.some.injEq, List.cons.injEq, and_true]
        omega
  | [a, b], h => by
      have ha : a < 256 := h a (by simp)
      have hb : b < 256 := h b (by simp)
      refine ⟨[(a * 65536 + b * 256) / 262144 % 64, (a * 65536 + b * 256) / 4096 % 64,
        (a * 65536 + b * 256) / 64 % 64], ?_, ?_⟩
      · simp only [b64Encode, b64Vals_cons]
        rw [b64Val_b64Char _ (Nat.mod_lt _ (by norm_num)),
          b64Val_b64Char _ (Nat.mod_lt _ (by norm_num)),
          b64Val_b64Char _ (Nat.mod_lt _ (by norm_num))]
        rfl
      · simp only [b64DecodeVals, Option.some.injEq, List.cons.injEq, and_true]
        omega
  | a :: b :: c :: rest, h => by
      have ha : a < 256 := h a (by simp)
      have hb : b < 256 := h b (by simp)
      have hc : c < 256 := h c (by simp)
      obtain ⟨vs, h1, h2⟩ := b64_vals_roundtrip rest (fun x hx => h x (by simp [hx]))
      refine ⟨(a * 65536 + b * 256 + c) / 262144 % 64 :: (a * 65536 + b * 256 + c) / 4096 % 64 ::
        (a * 65536 + b * 256 + c) / 64 % 64 :: (a * 65536 + b * 256 + c) % 64 :: vs, ?_, ?_⟩
      · simp only [b64Encode, b64Vals_cons]
        rw [b64Val_b64Char _ (Nat.mod_lt _ (by norm_num)),
          b64Val_b64Char _ (Nat.mod_lt _ (by norm_num)),
          b64Val_b64Char _ (Nat.mod_lt _ (by norm_num)),
          b64Val_b64Char _ (Nat.mod_lt _ (by norm_num)), h1]
      · simp only [b64DecodeVals, h2, Option.some.injEq, List.cons.injEq, and_true]
        omega

/-- Decoding undoes encoding. -/
theorem b64Decode_b64Encode (bs : GoString) (h : ∀ b ∈ bs, b < 256) :
    b64Decode (b64Encode bs) = some bs := by
  obtain ⟨vs, h1, h2⟩ := b64_vals_roundtrip bs h
  have hf : (b64Encode bs).filter (fun c => c != 10 && c != 13) = b64Encode bs := by
    rw [List.filter_eq_self]
    intro c hc
    have := b64Encode_isIDChar bs c hc
    simp only [isIDChar, Bool.or_eq_true, Bool.and_eq_true, decide_eq_true_eq, beq_iff_eq] at this
    simp only [bne_iff_ne, ne_eq, Bool.and_eq_true, decide_eq_true_eq]
    omega
  unfold b64Decode
  rw [hf, h1]
  exact h2

/-! ## JSON string literals of plain strings -/

theorem utf8SeqLen_append {s : GoString} {n : Nat} (r : GoString) (h : utf8SeqLen s = some n) :
    utf8SeqLen (s ++ r) = some n := by
  rcases s with _ | ⟨b0, _ | ⟨b1, _ | ⟨b2, _ | ⟨b3, tl⟩⟩⟩⟩
  · simp [utf8SeqLen] at h
  · simp [utf8SeqLen] at h
  · rw [utf8SeqLen.eq_def] at h
    simp only [] at h
    split_ifs at h with h1 h2 h3 h4
    · cases r <;> (rw [utf8SeqLen.eq_def]; simp [h1, h2, h])
  · rw [utf8SeqLen.eq_def] at h
    simp only [] at h
    rw [utf8SeqLen.eq_def]
    simp only [List.cons_append, List.nil_append]
    split_ifs at h ⊢ <;> exact h
  · rw [utf8SeqLen.eq_def] at h
    simp only [] at h
    rw [utf8SeqLen.eq_def]
    simp only [List.cons_append]
    exact h

theorem utf8SeqLen_lt {c : Nat} {rest : GoString} {n : Nat}
    (h : utf8SeqLen (c :: rest) = some n) : c < 256 := by
  rw [utf8SeqLen.eq_def] at h
  rcases rest with _ | ⟨b1, tl⟩
  · simp at h
  · simp only [] at h
    split_ifs at h <;> omega

theorem jsonPlain_lt : ∀ (s : GoString) (cp : Nat), jsonPlain cp s = true → ∀ b ∈ s, b < 256 := by
  intro s
  induction s with
  | nil => intro cp _ b hb; simp at hb
  | cons c t ih =>
      intro cp h b hb
      cases cp with
      | succ k =>
          rw [jsonPlain] at h
          simp only [Bool.and_eq_true] at h
          rcases List.mem_cons.mp hb with e | hb
          · have := h.1
            simp only [isCont, Bool.and_eq_true, decide_eq_true_eq] at this
            omega
          · exact ih k h.2 b hb
      | zero =>
          rw [jsonPlain] at h
          split_ifs at h with h1 h2
          · rcases List.mem_cons.mp hb with e | hb
            · omega
            · exact ih 0 h b hb
          · cases hu : utf8SeqLen (c :: t) with
            | none => simp [hu] at h
            | some n =>
                simp only [hu] at h
                rcases List.mem_cons.mp hb with e | hb
                · rw [e]; exact utf8SeqLen_lt hu
                · exact ih (n - 1) h b hb

/-- A plain string between quotes is read back as it is. -/
theorem jsonString_plain : ∀ (s : GoString) (cp : Nat) (rest : GoString),
    jsonPlain cp s = true → jsonString cp 0 (s ++ 34 :: rest) = some (s, rest) := by
  intro s
  induction s with
  | nil =>
      intro cp rest h
      cases cp with
      | zero => simp [jsonString]
      | succ k => simp [jsonPlain] at h
  | cons c t ih =>
      intro cp rest h
      cases cp with
      | succ k =>
          rw [jsonPlain] at h
          simp only [Bool.and_eq_true] at h
          rw [List.cons_append, jsonString.eq_2, ih k rest h.2]
      | zero =>
          rw [jsonPlain] at h
          split_ifs at h with h1 h2
          · have e1 : ¬ c = 34 := fun e => h1 (Or.inr (Or.inl e))
            have e2 : ¬ c = 92 := fun e => h1 (Or.inr (Or.inr e))
            have e3 : ¬ c < 32 := fun e => h1 (Or.inl e)
            rw [List.cons_append, jsonString.eq_4]
            simp only [e1, e2, e3, h2, if_false, if_true, ih 0 rest h]
          · have e1 : ¬ c = 34 := fun e => h1 (Or.inr (Or.inl e))
            have e2 : ¬ c = 92 := fun e => h1 (Or.inr (Or.inr e))
            have e3 : ¬ c < 32 := fun e => h1 (Or.inl e)
            cases hu : utf8SeqLen (c :: t) with
            | none => simp [hu] at h
            | some n =>
                simp only [hu] at h
                have hu1 : utf8SeqLen (c :: (t ++ 34 :: rest)) = some n := by
                  have := utf8SeqLen_append (34 :: rest) hu
                  simpa using this
                rw [List.cons_append, jsonString.eq_4]
                simp only [e1, e2, e3, h2, if_false, hu1, ih (n - 1) rest h]

/-! ## JSON objects of plain strings -/

theorem skipWS_cons (c : Nat) (cs : GoString) (h : isJSONSpace c = false) :
    skipWS (c :: cs) = c :: cs := by
  rw [skipWS]
  simp [h]

theorem join_single (x sep : GoString) : join [x] sep = x := by
  simp [join, List.intercalate, List.intersperse]

theorem join_cons_cons (x y sep : GoString) (l : List GoString) :
    join (x :: y :: l) sep = x ++ sep ++ join (y :: l) sep := by
  simp [join, List.intercalate, List.intersperse]

theorem renderMember_cons (p : GoString × GoString) (T : GoString) :
    renderMember p ++ T = 34 :: (p.1 ++ 34 :: 58 :: 34 :: (p.2 ++ 34 :: T)) := by
  simp [renderMember]

/-- One round of `jsonMembers` on the text of a plain pair. -/
theorem jsonMembers_step (fuel : Nat) (p : GoString × GoString) (d : Nat) (T : GoString)
    (m : GoMap) (h1 : jsonPlain 0 p.1 = true) (h2 : jsonPlain 0 p.2 = true)
    (hd : isJSONSpace d = false) :
    jsonMembers (fuel + 1) (renderMember p ++ d :: T) m =
      if d = 44 then jsonMembers fuel (skipWS T) (m.set p.1 p.2)
      else if d = 125 ∧ skipWS T = [] then some (m.set p.1 p.2)
      else none := by
  rw [renderMember_cons, jsonMembers]
  simp only [if_true]
  rw [jsonString_plain p.1 0 _ h1]
  simp only []
  rw [skipWS_cons 58 _ (by decide)]
  simp only [if_true]
  rw [skipWS_cons 34 _ (by decide), jsonStringValue]
  simp only [if_true]
  rw [jsonString_plain p.2 0 _ h2]
  simp only []
  rw [skipWS_cons d _ hd]

theorem GoMap.set_of_not_mem (m : GoMap) (k v : GoString) (h : k ∉ m.map Prod.fst) :
    GoMap.set m k v = m ++ [(k, v)] := by
  unfold GoMap.set
  have : m.any (fun p => p.1 == k) = false := by
    rw [Bool.eq_false_iff]
    intro hany
    rw [List.any_eq_true] at hany
    obtain ⟨p, hp, hpk⟩ := hany
    apply h
    have e : p.1 = k := by simpa using hpk
    rw [← e]
    exact List.mem_map_of_mem Prod.fst hp
  simp [this]

theorem foldl_set_nodup : ∀ (ps m : GoMap), GoMap.NodupKeys (m ++ ps) →
    ps.foldl (fun m q => GoMap.set m q.1 q.2) m = m ++ ps := by
  intro ps
  induction ps with
  | nil => intro m _; simp
  | cons q t ih =>
      intro m h
      have hq : q.1 ∉ m.map Prod.fst := by
        unfold GoMap.NodupKeys at h
        rw [List.map_append, List.map_cons, List.nodup_append] at h
        intro hm
        exact h.2.2 hm (List.mem_cons_self _ _)
      rw [List.foldl_cons, GoMap.set_of_not_mem m q.1 q.2 hq]
      have h' : GoMap.NodupKeys ((m ++ [(q.1, q.2)]) ++ t) := by
        simpa using h
      rw [ih _ h']
      simp

theorem jsonMembers_render : ∀ (ps : GoMap) (p : GoString × GoString) (m : GoMap) (fuel : Nat),
    ps.length < fuel →
    (∀ q ∈ p :: ps, jsonPlain 0 q.1 = true ∧ jsonPlain 0 q.2 = true) →
    jsonMembers fuel (join ((p :: ps).map renderMember) [44] ++ [125]) m =
      some ((p :: ps).foldl (fun m q => GoMap.set m q.1 q.2) m) := by
  intro ps
  induction ps with
  | nil =>
      intro p m fuel hf hp
      obtain ⟨n, rfl⟩ : ∃ n, fuel = n + 1 := ⟨fuel - 1, by simp at hf; omega⟩
      have := hp p (List.mem_cons_self _ _)
      rw [List.map_cons, List.map_nil, join_single,
        jsonMembers_step n p 125 [] m this.1 this.2 (by decide)]
      simp [skipWS]
  | cons q t ih =>
      intro p m fuel hf hp
      obtain ⟨n, rfl⟩ : ∃ n, fuel = n + 1 := ⟨fuel - 1, by simp at hf; omega⟩
      have hpp := hp p (List.mem_cons_self _ _)
      have hn : t.length < n := by simp at hf; omega
      have hrec := ih q (GoMap.set m p.1 p.2) n hn
        (fun x hx => hp x (List.mem_cons_of_mem _ hx))
      have hstart : ∃ X, join ((q :: t).map renderMember) [44] ++ [125] = 34 :: X := by
        cases t with
        | nil => exact ⟨_, by rw [List.map_cons, List.map_nil, join_single, renderMember_cons]⟩
        | cons r u =>
            exact ⟨_, by
              rw [List.map_cons, List.map_cons, join_cons_cons, List.append_assoc,
                List.append_assoc, renderMember_cons]⟩
      obtain ⟨X, hX⟩ := hstart
      rw [List.map_cons, List.map_cons, join_cons_cons, ← List.map_cons, List.append_assoc,
        List.append_assoc, List.singleton_append,
        jsonMembers_step n p 44 _ m hpp.1 hpp.2 (by decide)]
      simp only [if_true]
      rw [hX, skipWS_cons 34 _ (by decide), ← hX, hrec]
      rfl

theorem length_le_join (l : List GoString) (sep : GoString) (h : ∀ x ∈ l, x ≠ []) :
    l.length ≤ (join l sep).length := by
  induction l with
  | nil => simp
  | cons x t ih =>
      have hx : 1 ≤ x.length := by
        have := h x (List.mem_cons_self _ _)
        cases x with
        | nil => exact absurd rfl this
        | cons a b => simp
      have ht := ih (fun y hy => h y (List.mem_cons_of_mem _ hy))
      cases t with
      | nil => rw [join_single]; simpa using hx
      | cons y u =>
          rw [join_cons_cons]
          simp only [List.length_cons, List.length_append] at ht ⊢
          omega

/-- The text of plain pairs with pairwise different keys is read back as
these pairs. -/
theorem jsonUnmarshalMap_renderObject (ps : GoMap) (hn : GoMap.NodupKeys ps)
    (hp : ∀ q ∈ ps, jsonPlain 0 q.1 = true ∧ jsonPlain 0 q.2 = true) :
    jsonUnmarshalMap (renderObject ps) = some ps := by
  unfold jsonUnmarshalMap renderObject
  rw [List.append_assoc, List.singleton_append, skipWS_cons 123 _ (by decide)]
  simp only [if_true]
  cases ps with
  | nil => simp [join, skipWS, isJSONSpace]
  | cons p t =>
      have hstart : ∃ X, join ((p :: t).map renderMember) [44] ++ [125] = 34 :: X := by
        cases t with
        | nil => exact ⟨_, by rw [List.map_cons, List.map_nil, join_single, renderMember_cons]⟩
        | cons r u =>
            exact ⟨_, by
              rw [List.map_cons, List.map_cons, join_cons_cons, List.append_assoc,
                List.append_assoc, renderMember_cons]⟩
      obtain ⟨X, hX⟩ := hstart
      have hlen : t.length < (123 :: (join ((p :: t).map renderMember) [44] ++ [125])).length := by
        have := length_le_join ((p :: t).map renderMember) [44] (by
          intro x hx
          rw [List.mem_map] at hx
          obtain ⟨q, -, rfl⟩ := hx
          simp [renderMember])
        simp only [List.length_cons, List.length_append, List.length_map, List.length_nil] at this ⊢
        omega
      have hmem := jsonMembers_render t p [] _ hlen hp
      rw [hX, skipWS_cons 34 _ (by decide)]
      simp only [show ¬ (34 : Nat) = 125 by decide, if_false]
      rw [← hX, hmem, foldl_set_nodup (p :: t) [] (by simpa using hn)]
      simp

/-! ## Parsing a formatted DSN -/

theorem renderObject_lt (ps : GoMap)
    (hp : ∀ q ∈ ps, jsonPlain 0 q.1 = true ∧ jsonPlain 0 q.2 = true) :
    ∀ b ∈ renderObject ps, b < 256 := by
  have hmember : ∀ q ∈ ps, ∀ b ∈ renderMember q, b < 256 := by
    intro q hq b hb
    have h1 := jsonPlain_lt q.1 0 (hp q hq).1
    have h2 := jsonPlain_lt q.2 0 (hp q hq).2
    simp only [renderMember, List.mem_append, List.mem_cons, List.mem_singleton,
      List.not_mem_nil, or_false] at hb
    rcases hb with ((((hb | hb) | hb) | hb) | hb)
    · omega
    · exact h1 b hb
    · omega
    · exact h2 b hb
    · omega
  have hjoin : ∀ l : List GoString, (∀ x ∈ l, ∀ b ∈ x, b < 256) → ∀ b ∈ join l [44], b < 256 := by
    intro l
    induction l with
    | nil => intro _ b hb; simp [join, List.intercalate] at hb
    | cons x t ih =>
        intro hl b hb
        cases t with
        | nil =>
            rw [join_single] at hb
            exact hl x (List.mem_cons_self _ _) b hb
        | cons y u =>
            rw [join_cons_cons] at hb
            simp only [List.mem_append, List.mem_singleton] at hb
            rcases hb with (hb | hb) | hb
            · exact hl x (List.mem_cons_self _ _) b hb
            · omega
            · exact ih (fun z hz => hl z (List.mem_cons_of_mem _ hz)) b hb
  intro b hb
  simp only [renderObject, List.mem_append, List.mem_singleton] at hb
  rcases hb with (hb | hb) | hb
  · omega
  · apply hjoin _ _ b hb
    intro x hx
    rw [List.mem_map] at hx
    obtain ⟨q, hq, rfl⟩ := hx
    exact hmember q hq
  · omega

theorem renderObject_ne_nil (ps : GoMap) : renderObject ps ≠ [] := by
  simp [renderObject]

/-- Decoding what `encodeJSONB64` encodes gives the pairs of the map, in the
order of their keys. -/
theorem decodeJSONB64_encodeJSONB64 (m : GoMap) (h : plainMap m) :
    decodeJSONB64 (encodeJSONB64 m) = .ok (sortedPairs m) := by
  have hperm := sortedPairs_perm h.1
  have hn : GoMap.NodupKeys (sortedPairs m) := (hperm.map Prod.fst).nodup_iff.mpr h.1
  have hp : ∀ q ∈ sortedPairs m, jsonPlain 0 q.1 = true ∧ jsonPlain 0 q.2 = true :=
    fun q hq => h.2 q (hperm.subset hq)
  unfold decodeJSONB64
  rw [encodeJSONB64_eq, b64Decode_b64Encode _ (renderObject_lt _ hp)]
  simp only [jsonUnmarshalMap_renderObject _ hn hp]

theorem isIDChar_ne {c : Nat} (h : isIDChar c = true) :
    c ≠ 37 ∧ c ≠ 38 ∧ c ≠ 43 ∧ c ≠ 47 ∧ c ≠ 59 ∧ c ≠ 61 := by
  simp only [isIDChar, Bool.or_eq_true, Bool.and_eq_true, decide_eq_true_eq, beq_iff_eq] at h
  omega

theorem querySafe_ne {c : Nat} (h : querySafe c = true) :
    c ≠ 37 ∧ c ≠ 38 ∧ c ≠ 43 ∧ c ≠ 47 ∧ c ≠ 59 := by
  simp only [querySafe, Bool.and_eq_true, bne_iff_ne, ne_eq] at h
  omega

/-- The query `FormatDSN` writes, for parts that need no escaping. -/
theorem parseQuery_formatted (E W V P S : GoString)
    (hE : ∀ c ∈ E, c ≠ 37 ∧ c ≠ 38 ∧ c ≠ 43 ∧ c ≠ 47 ∧ c ≠ 59)
    (hW : ∀ c ∈ W, c ≠ 37 ∧ c ≠ 38 ∧ c ≠ 43 ∧ c ≠ 47 ∧ c ≠ 59)
    (hV : ∀ c ∈ V, c ≠ 37 ∧ c ≠ 38 ∧ c ≠ 43 ∧ c ≠ 47 ∧ c ≠ 59)
    (hP : ∀ c ∈ P, c ≠ 37 ∧ c ≠ 38 ∧ c ≠ 43 ∧ c ≠ 47 ∧ c ≠ 59)
    (hS : ∀ c ∈ S, c ≠ 37 ∧ c ≠ 38 ∧ c ≠ 43 ∧ c ≠ 47 ∧ c ≠ 59) :
    parseQuery ((lit "env" ++ 61 :: E) ++ 38 :: ((lit "with" ++ 61 :: W) ++ 38 ::
        ((lit "verbose" ++ 61 :: V) ++ 38 :: ((lit "curr_project" ++ 61 :: P) ++ 38 ::
        (lit "scheme" ++ 61 :: S))))) =
      some [(lit "env", E), (lit "with", W), (lit "verbose", V), (lit "curr_project", P),
        (lit "scheme", S)] := by
  have seg : ∀ (k v : GoString), (∀ c ∈ k, isAlnum c = true ∨ c = 95) →
      (∀ c ∈ v, c ≠ 37 ∧ c ≠ 38 ∧ c ≠ 43 ∧ c ≠ 47 ∧ c ≠ 59) →
      (38 : Nat) ∉ k ++ 61 :: v ∧ (∀ c ∈ k, c ≠ 37 ∧ c ≠ 43 ∧ c ≠ 59 ∧ c ≠ 61) ∧
        (∀ c ∈ v, c ≠ 37 ∧ c ≠ 43 ∧ c ≠ 59) := by
    intro k v hk hv
    have hk' : ∀ c ∈ k, c ≠ 37 ∧ c ≠ 38 ∧ c ≠ 43 ∧ c ≠ 47 ∧ c ≠ 59 ∧ c ≠ 61 := by
      intro c hc
      rcases hk c hc with h | h
      · exact isAlnum_ne h
      · omega
    refine ⟨?_, fun c hc => ?_, fun c hc => ?_⟩
    · intro hm
      rcases List.mem_append.mp hm with hm | hm
      · exact (hk' 38 hm).2.1 rfl
      · rcases List.mem_cons.mp hm with hm | hm
        · cases hm
        · exact (hv 38 hm).2.1 rfl
    · have := hk' c hc
      exact ⟨this.1, this.2.2.1, this.2.2.2.2.1, this.2.2.2.2.2⟩
    · have := hv c hc
      exact ⟨this.1, this.2.2.1, this.2.2.2.2⟩
  have s1 := seg (lit "env") E (by decide) hE
  have s2 := seg (lit "with") W (by decide) hW
  have s3 := seg (lit "verbose") V (by decide) hV
  have s4 := seg (lit "curr_project") P (by decide) hP
  have s5 := seg (lit "scheme") S (by decide) hS
  rw [parseQuery_of_le (by
    rw [count_append_sep _ _ s1.1, count_append_sep _ _ s2.1, count_append_sep _ _ s3.1,
      count_append_sep _ _ s4.1, List.count_eq_zero_of_not_mem s5.1]
    decide)]
  rw [splitOn_append_sep, splitOn_append_sep, splitOn_append_sep, splitOn_append_sep,
    splitOn_of_not_mem 38 _ s1.1, splitOn_of_not_mem 38 _ s2.1, splitOn_of_not_mem 38 _ s3.1,
    splitOn_of_not_mem 38 _ s4.1, splitOn_of_not_mem 38 _ s5.1]
  simp only [List.singleton_append]
  rw [parseSegments_pair _ _ _ s1.2.1 s1.2.2, parseSegments_pair _ _ _ s2.2.1 s2.2.2,
    parseSegments_pair _ _ _ s3.2.1 s3.2.2, parseSegments_pair _ _ _ s4.2.1 s4.2.2,
    parseSegments_pair _ _ _ s5.2.1 s5.2.2]
  simp [parseSegments]

theorem FormatDSN_eq (C : Config) :
    C.FormatDSN = C.POPAccessID ++ 58 :: (C.POPAccessSecret ++ 64 :: (C.POPURL ++ 63 ::
      ((lit "env" ++ 61 :: encodeJSONB64 C.Env) ++ 38 ::
        ((lit "with" ++ 61 :: encodeJSONB64 C.With) ++ 38 ::
        ((lit "verbose" ++ 61 :: formatBool C.Verbose) ++ 38 ::
        ((lit "curr_project" ++ 61 :: C.Project) ++ 38 ::
        (lit "scheme" ++ 61 :: C.POPScheme))))))) := by
  unfold Config.FormatDSN
  rw [show lit ":" = [58] from by decide, show lit "@" = [64] from by decide,
    show lit "?env=" = 63 :: (lit "env" ++ [61]) from by decide,
    show lit "&with=" = 38 :: (lit "with" ++ [61]) from by decide,
    show lit "&verbose=" = 38 :: (lit "verbose" ++ [61]) from by decide,
    show lit "&curr_project=" = 38 :: (lit "curr_project" ++ [61]) from by decide,
    show lit "&scheme=" = 38 :: (lit "scheme" ++ [61]) from by decide]
  simp only [List.append_assoc, List.cons_append, List.nil_append]

theorem get_formatted (E W V P S : GoString) :
    Values.Get [(lit "env", E), (lit "with", W), (lit "verbose", V), (lit "curr_project", P),
        (lit "scheme", S)] (lit "env") = E ∧
    Values.Get [(lit "env", E), (lit "with", W), (lit "verbose", V), (lit "curr_project", P),
        (lit "scheme", S)] (lit "with") = W ∧
    Values.Get [(lit "env", E), (lit "with", W), (lit "verbose", V), (lit "curr_project", P),
        (lit "scheme", S)] (lit "verbose") = V ∧
    Values.Get [(lit "env", E), (lit "with", W), (lit "verbose", V), (lit "curr_project", P),
        (lit "scheme", S)] (lit "curr_project") = P ∧
    Values.Get [(lit "env", E), (lit "with", W), (lit "verbose", V), (lit "curr_project", P),
        (lit "scheme", S)] (lit "scheme") = S :=
  ⟨rfl, rfl, rfl, rfl, rfl⟩

/-- Parsing the DSN of a plain Config gives the Config back, with the pairs
of its maps in the order of their keys. -/
theorem ParseDSN_FormatDSN_plain (C : Config) (h : C.Plain) :
    ParseDSN C.FormatDSN = .ok
      { POPAccessID := C.POPAccessID, POPAccessSecret := C.POPAccessSecret, POPURL := C.POPURL,
        POPScheme := C.POPScheme, Env := sortedPairs C.Env, With := sortedPairs C.With,
        Verbose := C.Verbose, Project := C.Project } := by
  obtain ⟨n1, c1, n2, c2, n3, c3, nP, cP, nS, cS, hEnv, hWith⟩ := h
  have hb64 : ∀ m : GoMap, ∀ c ∈ encodeJSONB64 m, c ≠ 37 ∧ c ≠ 38 ∧ c ≠ 43 ∧ c ≠ 47 ∧ c ≠ 59 := by
    intro m c hc
    rw [encodeJSONB64_eq] at hc
    have := isIDChar_ne (b64Encode_isIDChar _ c hc)
    exact ⟨this.1, this.2.1, this.2.2.1, this.2.2.2.1, this.2.2.2.2.1⟩
  have hne64 : ∀ m : GoMap, encodeJSONB64 m ≠ [] := by
    intro m
    rw [encodeJSONB64_eq]
    exact b64Encode_ne_nil (renderObject_ne_nil _)
  have hV : ∀ c ∈ formatBool C.Verbose, c ≠ 37 ∧ c ≠ 38 ∧ c ≠ 43 ∧ c ≠ 47 ∧ c ≠ 59 := by
    cases C.Verbose <;> decide
  have hP : ∀ c ∈ C.Project, c ≠ 37 ∧ c ≠ 38 ∧ c ≠ 43 ∧ c ≠ 47 ∧ c ≠ 59 :=
    fun c hc => querySafe_ne (cP c hc)
  have hS : ∀ c ∈ C.POPScheme, c ≠ 37 ∧ c ≠ 38 ∧ c ≠ 43 ∧ c ≠ 47 ∧ c ≠ 59 :=
    fun c hc => querySafe_ne (cS c hc)
  have hq := parseQuery_formatted (encodeJSONB64 C.Env) (encodeJSONB64 C.With)
    (formatBool C.Verbose) C.Project C.POPScheme (hb64 _) (hb64 _) hV hP hS
  have hre := reDSN_complete C.POPAccessID C.POPAccessSecret C.POPURL
    ((lit "env" ++ 61 :: encodeJSONB64 C.Env) ++ 38 ::
        ((lit "with" ++ 61 :: encodeJSONB64 C.With) ++ 38 ::
        ((lit "verbose" ++ 61 :: formatBool C.Verbose) ++ 38 ::
        ((lit "curr_project" ++ 61 :: C.Project) ++ 38 ::
        (lit "scheme" ++ 61 :: C.POPScheme))))) n1 c1 n2 c2 n3 c3 (by simp [lit])
    (by
      have hk : ∀ k : GoString, (∀ c ∈ k, c ≠ 47) → ∀ v : GoString,
          (∀ c ∈ v, c ≠ 37 ∧ c ≠ 38 ∧ c ≠ 43 ∧ c ≠ 47 ∧ c ≠ 59) →
          ∀ c ∈ k ++ 61 :: v, c ≠ 47 := by
        intro k hk v hv c hc
        rcases List.mem_append.mp hc with hm | hm
        · exact hk c hm
        · rcases List.mem_cons.mp hm with hm | hm
          · omega
          · exact (hv c hm).2.2.2.1
      have k1 := hk (lit "env") (by decide) _ (hb64 C.Env)
      have k2 := hk (lit "with") (by decide) _ (hb64 C.With)
      have k3 := hk (lit "verbose") (by decide) _ hV
      have k4 := hk (lit "curr_project") (by decide) _ hP
      have k5 := hk (lit "scheme") (by decide) _ hS
      intro c hc
      rcases List.mem_append.mp hc with hm | hm
      · exact k1 c hm
      rcases List.mem_cons.mp hm with hm | hm
      · omega
      rcases List.mem_append.mp hm with hm | hm
      · exact k2 c hm
      rcases List.mem_cons.mp hm with hm | hm
      · omega
      rcases List.mem_append.mp hm with hm | hm
      · exact k3 c hm
      rcases List.mem_cons.mp hm with hm | hm
      · omega
      rcases List.mem_append.mp hm with hm | hm
      · exact k4 c hm
      rcases List.mem_cons.mp hm with hm | hm
      · omega
      exact k5 c hm)
  obtain ⟨g1, g2, g3, g4, g5⟩ := get_formatted (encodeJSONB64 C.Env) (encodeJSONB64 C.With)
    (formatBool C.Verbose) C.Project C.POPScheme
  have hm : firstMissing [(lit "env", encodeJSONB64 C.Env), (lit "with", encodeJSONB64 C.With),
      (lit "verbose", formatBool C.Verbose), (lit "curr_project", C.Project),
      (lit "scheme", C.POPScheme)] [lit "env", lit "with", lit "curr_project"] = none := by
    simp only [firstMissing, g1, g2, g4, hne64, nP, if_false]
  rw [FormatDSN_eq, ParseDSN_eq_of hre hq hm
    (by rw [g1]; exact decodeJSONB64_encodeJSONB64 _ hEnv)
    (by rw [g2]; exact decodeJSONB64_encodeJSONB64 _ hWith)]
  have hverb : decide (formatBool C.Verbose = lit "true") = C.Verbose := by
    cases C.Verbose <;> decide
  have hscheme : (if C.POPScheme.length = 0 then lit "http" else C.POPScheme) = C.POPScheme := by
    have : C.POPScheme.length ≠ 0 := by
      intro e
      exact nS (List.length_eq_zero.mp e)
    simp [this]
  simp only [schemeOf, g3, g4, g5, hverb, hscheme]

/-! ## The Config of an accepted DSN -/

theorem GoMap.set_nodup (m : GoMap) (k v : GoString) (h : GoMap.NodupKeys m) :
    GoMap.NodupKeys (GoMap.set m k v) := by
  unfold GoMap.set
  split
  · unfold GoMap.NodupKeys at h ⊢
    have : (m.map (fun p => if p.1 = k then (k, v) else p)).map Prod.fst = m.map Prod.fst := by
      rw [List.map_map]
      apply List.map_congr_left
      intro p _
      simp only [Function.comp]
      split
      · rename_i e; exact e.symm
      · rfl
    rw [this]
    exact h
  · rename_i hany
    unfold GoMap.NodupKeys at h ⊢
    rw [List.map_append, List.nodup_append]
    refine ⟨h, by simp, ?_⟩
    intro a ha hb
    simp only [List.map_cons, List.map_nil, List.mem_singleton] at hb
    subst hb
    apply hany
    rw [List.any_eq_true]
    rw [List.mem_map] at ha
    obtain ⟨p, hp, e⟩ := ha
    exact ⟨p, hp, by simpa using e⟩

theorem jsonMembers_nodup : ∀ (fuel : Nat) (s : GoString) (m r : GoMap),
    GoMap.NodupKeys m → jsonMembers fuel s m = some r → GoMap.NodupKeys r := by
  intro fuel
  induction fuel with
  | zero => intro s m r _ h; simp [jsonMembers] at h
  | succ n ih =>
      intro s m r hm h
      rw [jsonMembers.eq_def] at h
      simp only [] at h
      repeat' split at h
      all_goals first
        | exact ih _ _ _ (GoMap.set_nodup _ _ _ hm) h
        | (simp only [Option.some.injEq] at h
           rw [← h]
           exact GoMap.set_nodup _ _ _ hm)
        | cases h

theorem jsonUnmarshalMap_nodup {buf : GoString} {m : GoMap} (h : jsonUnmarshalMap buf = some m) :
    GoMap.NodupKeys m := by
  have hnil : GoMap.NodupKeys [] := by simp [GoMap.NodupKeys]
  unfold jsonUnmarshalMap at h
  split at h
  · cases h
  · split at h
    · split at h
      · cases h
      · split at h
        · split at h
          · simp only [Option.some.injEq] at h
            rw [← h]; exact hnil
          · cases h
        · exact jsonMembers_nodup _ _ _ _ hnil h
    · split at h
      · split at h
        · simp only [Option.some.injEq] at h
          rw [← h]; exact hnil
        · cases h
      · cases h

theorem decodeJSONB64_nodup {v : GoString} {m : GoMap} (h : decodeJSONB64 v = .ok m) :
    GoMap.NodupKeys m := by
  unfold decodeJSONB64 at h
  split at h
  · cases h
  · split at h
    · cases h
    · rename_i hj
      simp only [Except.ok.injEq] at h
      rw [← h]
      exact jsonUnmarshalMap_nodup hj

theorem firstMissing_none {kvs : Values} {ks : List GoString} (h : firstMissing kvs ks = none) :
    ∀ k ∈ ks, Values.Get kvs k ≠ [] := by
  induction ks with
  | nil => intro k hk; simp at hk
  | cons a t ih =>
      intro k hk
      rw [firstMissing] at h
      split at h
      · cases h
      · rename_i ha
        rcases List.mem_cons.mp hk with e | hk
        · rw [e]; exact ha
        · exact ih h k hk

theorem firstMissing_of_ne {kvs : Values} {ks : List GoString}
    (h : ∀ k ∈ ks, Values.Get kvs k ≠ []) : firstMissing kvs ks = none := by
  induction ks with
  | nil => rfl
  | cons a t ih =>
      rw [firstMissing]
      simp only [h a (List.mem_cons_self _ _), if_false]
      exact ih (fun k hk => h k (List.mem_cons_of_mem _ hk))

theorem schemeOf_ne_nil (kvs : Values) : schemeOf kvs ≠ [] := by
  unfold schemeOf
  split
  · decide
  · rename_i h
    intro e
    exact h (by rw [e]; rfl)

/-! ## A scheme with separators -/

theorem mem_of_mem_splitOn (sep : Nat) : ∀ (s seg : GoString), seg ∈ splitOn sep s →
    ∀ c ∈ seg, c ∈ s := by
  intro s
  induction s with
  | nil =>
      intro seg hseg c hc
      simp only [splitOn, List.mem_singleton] at hseg
      rw [hseg] at hc
      exact hc
  | cons a t ih =>
      intro seg hseg c hc
      rw [splitOn_cons] at hseg
      by_cases ha : a = sep
      · simp only [ha, if_true, List.mem_cons] at hseg
        rcases hseg with e | hseg
        · rw [e] at hc; cases hc
        · exact List.mem_cons_of_mem _ (ih seg hseg c hc)
      · simp only [ha, if_false] at hseg
        cases hs : splitOn sep t with
        | nil => exact absurd hs (splitOn_ne_nil sep t)
        | cons x xs =>
            rw [hs] at hseg
            simp only [List.mem_cons] at hseg
            rcases hseg with e | hseg
            · rw [e] at hc
              rcases List.mem_cons.mp hc with e1 | hc
              · rw [e1]; exact List.mem_cons_self _ _
              · exact List.mem_cons_of_mem _ (ih x (by rw [hs]; exact List.mem_cons_self _ _) c hc)
            · exact List.mem_cons_of_mem _
                (ih seg (by rw [hs]; exact List.mem_cons_of_mem _ hseg) c hc)

theorem queryUnescape_isSome (s : GoString) (h : ∀ c ∈ s, c ≠ 37) :
    ∃ t, queryUnescape s = some t := by
  induction s with
  | nil => exact ⟨[], by simp [queryUnescape]⟩
  | cons c t ih =>
      obtain ⟨u, hu⟩ := ih (fun d hd => h d (List.mem_cons_of_mem _ hd))
      rw [queryUnescape_cons c t (h c (List.mem_cons_self _ _)), hu]
      exact ⟨_, rfl⟩

theorem parseSegments_isSome (segs : List GoString)
    (h : ∀ seg ∈ segs, ∀ c ∈ seg, c ≠ 59 ∧ c ≠ 37) : ∃ kvs, parseSegments segs = some kvs := by
  induction segs with
  | nil => exact ⟨[], by simp [parseSegments]⟩
  | cons seg t ih =>
      obtain ⟨kvs, hk⟩ := ih (fun s hs => h s (List.mem_cons_of_mem _ hs))
      have hseg := h seg (List.mem_cons_self _ _)
      have h59 : seg.contains 59 = false := by
        rw [Bool.eq_false_iff]
        intro hm
        have hm : (59 : Nat) ∈ seg := by simpa using hm
        exact (hseg 59 hm).1 rfl
      obtain ⟨a, ha⟩ := queryUnescape_isSome (seg.takeWhile (fun c => c != 61))
        (fun c hc => (hseg c (List.takeWhile_subset _ hc)).2)
      obtain ⟨b, hb⟩ := queryUnescape_isSome ((seg.dropWhile (fun c => c != 61)).drop 1)
        (fun c hc => (hseg c (List.dropWhile_subset _ (List.mem_of_mem_drop hc))).2)
      rw [parseSegments_cons]
      simp only [h59, Bool.false_eq_true, if_false, ha, hb, hk]
      split
      · exact ⟨_, rfl⟩
      · exact ⟨_, rfl⟩


/-- The query `FormatDSN` writes, up to what follows `curr_project`. -/
theorem parseQuery_formatted4 (E W V P R : GoString)
    (hE : ∀ c ∈ E, c ≠ 37 ∧ c ≠ 38 ∧ c ≠ 43 ∧ c ≠ 47 ∧ c ≠ 59)
    (hW : ∀ c ∈ W, c ≠ 37 ∧ c ≠ 38 ∧ c ≠ 43 ∧ c ≠ 47 ∧ c ≠ 59)
    (hV : ∀ c ∈ V, c ≠ 37 ∧ c ≠ 38 ∧ c ≠ 43 ∧ c ≠ 47 ∧ c ≠ 59)
    (hP : ∀ c ∈ P, c ≠ 37 ∧ c ≠ 38 ∧ c ≠ 43 ∧ c ≠ 47 ∧ c ≠ 59)
    (hR : R.count 38 + 5 ≤ defaultMaxParams) :
    parseQuery ((lit "env" ++ 61 :: E) ++ 38 :: ((lit "with" ++ 61 :: W) ++ 38 ::
        ((lit "verbose" ++ 61 :: V) ++ 38 :: ((lit "curr_project" ++ 61 :: P) ++ 38 :: R)))) =
      match parseSegments (splitOn 38 R) with
      | some t =>
          some ((lit "env", E) :: (lit "with", W) :: (lit "verbose", V) ::
            (lit "curr_project", P) :: t)
      | none => none := by
  have seg : ∀ (k v : GoString), (∀ c ∈ k, isAlnum c = true ∨ c = 95) →
      (∀ c ∈ v, c ≠ 37 ∧ c ≠ 38 ∧ c ≠ 43 ∧ c ≠ 47 ∧ c ≠ 59) →
      (38 : Nat) ∉ k ++ 61 :: v ∧ (∀ c ∈ k, c ≠ 37 ∧ c ≠ 43 ∧ c ≠ 59 ∧ c ≠ 61) ∧
        (∀ c ∈ v, c ≠ 37 ∧ c ≠ 43 ∧ c ≠ 59) := by
    intro k v hk hv
    have hk' : ∀ c ∈ k, c ≠ 37 ∧ c ≠ 38 ∧ c ≠ 43 ∧ c ≠ 47 ∧ c ≠ 59 ∧ c ≠ 61 := by
      intro c hc
      rcases hk c hc with h | h
      · exact isAlnum_ne h
      · omega
    refine ⟨?_, fun c hc => ?_, fun c hc => ?_⟩
    · intro hm
      rcases List.mem_append.mp hm with hm | hm
      · exact (hk' 38 hm).2.1 rfl
      · rcases List.mem_cons.mp hm with hm | hm
        · cases hm
        · exact (hv 38 hm).2.1 rfl
    · have := hk' c hc
      exact ⟨this.1, this.2.2.1, this.2.2.2.2.1, this.2.2.2.2.2⟩
    · have := hv c hc
      exact ⟨this.1, this.2.2.1, this.2.2.2.2⟩
  have s1 := seg (lit "env") E (by decide) hE
  have s2 := seg (lit "with") W (by decide) hW
  have s3 := seg (lit "verbose") V (by decide) hV
  have s4 := seg (lit "curr_project") P (by decide) hP
  rw [parseQuery_of_le (by
    rw [count_append_sep _ _ s1.1, count_append_sep _ _ s2.1, count_append_sep _ _ s3.1,
      count_append_sep _ _ s4.1]
    omega)]
  rw [splitOn_append_sep, splitOn_append_sep, splitOn_append_sep, splitOn_append_sep,
    splitOn_of_not_mem 38 _ s1.1, splitOn_of_not_mem 38 _ s2.1, splitOn_of_not_mem 38 _ s3.1,
    splitOn_of_not_mem 38 _ s4.1]
  simp only [List.singleton_append]
  rw [parseSegments_pair _ _ _ s1.2.1 s1.2.2, parseSegments_pair _ _ _ s2.2.1 s2.2.2,
    parseSegments_pair _ _ _ s3.2.1 s3.2.2, parseSegments_pair _ _ _ s4.2.1 s4.2.2]
  cases parseSegments (splitOn 38 R) <;> rfl

/-- The DSN `FormatDSN` writes matches `reDSN` when access id, secret and url
fit their classes and project and scheme hold no `/`. -/
theorem reDSN_formatted (C : Config)
    (n1 : C.POPAccessID ≠ []) (c1 : ∀ c ∈ C.POPAccessID, isIDChar c = true)
    (n2 : C.POPAccessSecret ≠ []) (c2 : ∀ c ∈ C.POPAccessSecret, isSecretChar c = true)
    (n3 : C.POPURL ≠ []) (c3 : ∀ c ∈ C.POPURL, isURLChar c = true)
    (cP : ∀ c ∈ C.Project, querySafe c = true)
    (cS : ∀ c ∈ C.POPScheme, c ≠ 59 ∧ c ≠ 37 ∧ c ≠ 47) :
    reDSN (C.POPAccessID ++ 58 :: (C.POPAccessSecret ++ 64 :: (C.POPURL ++ 63 ::
      ((lit "env" ++ 61 :: encodeJSONB64 C.Env) ++ 38 ::
        ((lit "with" ++ 61 :: encodeJSONB64 C.With) ++ 38 ::
        ((lit "verbose" ++ 61 :: formatBool C.Verbose) ++ 38 ::
        ((lit "curr_project" ++ 61 :: C.Project) ++ 38 ::
        (lit "scheme" ++ 61 :: C.POPScheme)))))))) =
      some (C.POPAccessID, C.POPAccessSecret, C.POPURL,
        ((lit "env" ++ 61 :: encodeJSONB64 C.Env) ++ 38 ::
        ((lit "with" ++ 61 :: encodeJSONB64 C.With) ++ 38 ::
        ((lit "verbose" ++ 61 :: formatBool C.Verbose) ++ 38 ::
        ((lit "curr_project" ++ 61 :: C.Project) ++ 38 ::
        (lit "scheme" ++ 61 :: C.POPScheme)))))) := by
  have hb64 : ∀ m : GoMap, ∀ c ∈ encodeJSONB64 m, c ≠ 37 ∧ c ≠ 38 ∧ c ≠ 43 ∧ c ≠ 47 ∧ c ≠ 59 := by
    intro m c hc
    rw [encodeJSONB64_eq] at hc
    have := isIDChar_ne (b64Encode_isIDChar _ c hc)
    exact ⟨this.1, this.2.1, this.2.2.1, this.2.2.2.1, this.2.2.2.2.1⟩
  have hne64 : ∀ m : GoMap, encodeJSONB64 m ≠ [] := by
    intro m
    rw [encodeJSONB64_eq]
    exact b64Encode_ne_nil (renderObject_ne_nil _)
  have hV : ∀ c ∈ formatBool C.Verbose, c ≠ 37 ∧ c ≠ 38 ∧ c ≠ 43 ∧ c ≠ 47 ∧ c ≠ 59 := by
    cases C.Verbose <;> decide
  have hP : ∀ c ∈ C.Project, c ≠ 37 ∧ c ≠ 38 ∧ c ≠ 43 ∧ c ≠ 47 ∧ c ≠ 59 :=
    fun c hc => querySafe_ne (cP c hc)
  have hR : ∀ c ∈ lit "scheme" ++ 61 :: C.POPScheme, c ≠ 59 ∧ c ≠ 37 ∧ c ≠ 47 := by
    have hk : ∀ c ∈ lit "scheme", c ≠ 59 ∧ c ≠ 37 ∧ c ≠ 47 := by decide
    intro c hc
    rcases List.mem_append.mp hc with hm | hm
    · exact hk c hm
    · rcases List.mem_cons.mp hm with hm | hm
      · omega
      · exact cS c hm
  exact reDSN_complete C.POPAccessID C.POPAccessSecret C.POPURL
    ((lit "env" ++ 61 :: encodeJSONB64 C.Env) ++ 38 ::
        ((lit "with" ++ 61 :: encodeJSONB64 C.With) ++ 38 ::
        ((lit "verbose" ++ 61 :: formatBool C.Verbose) ++ 38 ::
        ((lit "curr_project" ++ 61 :: C.Project) ++ 38 ::
        (lit "scheme" ++ 61 :: C.POPScheme))))) n1 c1 n2 c2 n3 c3 (by simp [lit])
    (by
      have hk : ∀ k : GoString, (∀ c ∈ k, c ≠ 47) → ∀ v : GoString,
          (∀ c ∈ v, c ≠ 37 ∧ c ≠ 38 ∧ c ≠ 43 ∧ c ≠ 47 ∧ c ≠ 59) →
          ∀ c ∈ k ++ 61 :: v, c ≠ 47 := by
        intro k hk v hv c hc
        rcases List.mem_append.mp hc with hm | hm
        · exact hk c hm
        · rcases List.mem_cons.mp hm with hm | hm
          · omega
          · exact (hv c hm).2.2.2.1
      have k1 := hk (lit "env") (by decide) _ (hb64 C.Env)
      have k2 := hk (lit "with") (by decide) _ (hb64 C.With)
      have k3 := hk (lit "verbose") (by decide) _ hV
      have k4 := hk (lit "curr_project") (by decide) _ hP
      intro c hc
      rcases List.mem_append.mp hc with hm | hm
      · exact k1 c hm
      rcases List.mem_cons.mp hm with hm | hm
      · omega
      rcases List.mem_append.mp hm with hm | hm
      · exact k2 c hm
      rcases List.mem_cons.mp hm with hm | hm
      · omega
      rcases List.mem_append.mp hm with hm | hm
      · exact k3 c hm
      rcases List.mem_cons.mp hm with hm | hm
      · omega
      rcases List.mem_append.mp hm with hm | hm
      · exact k4 c hm
      rcases List.mem_cons.mp hm with hm | hm
      · omega
      exact (hR c hm).2.2)

/-- The number of `&` in the query `FormatDSN` writes, for a project without
`&`: four more than in the scheme. -/
theorem count_amp_formatted (C : Config) (cP : ∀ c ∈ C.Project, querySafe c = true) :
    List.count 38 ((lit "env" ++ 61 :: encodeJSONB64 C.Env) ++ 38 ::
        ((lit "with" ++ 61 :: encodeJSONB64 C.With) ++ 38 ::
        ((lit "verbose" ++ 61 :: formatBool C.Verbose) ++ 38 ::
        ((lit "curr_project" ++ 61 :: C.Project) ++ 38 ::
        (lit "scheme" ++ 61 :: C.POPScheme))))) = C.POPScheme.count 38 + 4 := by
  have hb64 : ∀ m : GoMap, (38 : Nat) ∉ lit "env" ++ 61 :: encodeJSONB64 m ∧
      (38 : Nat) ∉ lit "with" ++ 61 :: encodeJSONB64 m := by
    intro m
    have h0 : (38 : Nat) ∉ encodeJSONB64 m := by
      intro hc
      rw [encodeJSONB64_eq] at hc
      exact (isIDChar_ne (b64Encode_isIDChar _ 38 hc)).2.1 rfl
    constructor <;>
    · intro hm
      rcases List.mem_append.mp hm with hm | hm
      · revert hm; decide
      · rcases List.mem_cons.mp hm with hm | hm
        · cases hm
        · exact h0 hm
  have hV : (38 : Nat) ∉ lit "verbose" ++ 61 :: formatBool C.Verbose := by
    cases C.Verbose <;> decide
  have hP : (38 : Nat) ∉ lit "curr_project" ++ 61 :: C.Project := by
    intro hm
    rcases List.mem_append.mp hm with hm | hm
    · revert hm; decide
    · rcases List.mem_cons.mp hm with hm | hm
      · cases hm
      · exact (querySafe_ne (cP 38 hm)).2.1 rfl
  have hS : (lit "scheme" ++ 61 :: C.POPScheme).count 38 = C.POPScheme.count 38 := by
    rw [List.count_append, List.count_cons_of_ne (by decide)]
    have : (lit "scheme").count 38 = 0 := by decide
    omega
  rw [count_append_sep _ _ (hb64 C.Env).1, count_append_sep _ _ (hb64 C.With).2,
    count_append_sep _ _ hV, count_append_sep _ _ hP, hS]

/-- Parsing the DSN of a Config whose strings, the scheme apart, need no
escaping, and whose scheme holds none of `;`, `%`, `/` and so few `&` that the
query stays within `defaultMaxParams` parameters: everything but the scheme
comes back. -/
theorem ParseDSN_FormatDSN_scheme (C : Config)
    (n1 : C.POPAccessID ≠ []) (c1 : ∀ c ∈ C.POPAccessID, isIDChar c = true)
    (n2 : C.POPAccessSecret ≠ []) (c2 : ∀ c ∈ C.POPAccessSecret, isSecretChar c = true)
    (n3 : C.POPURL ≠ []) (c3 : ∀ c ∈ C.POPURL, isURLChar c = true)
    (nP : C.Project ≠ []) (cP : ∀ c ∈ C.Project, querySafe c = true)
    (cS : ∀ c ∈ C.POPScheme, c ≠ 59 ∧ c ≠ 37 ∧ c ≠ 47)
    (hN : C.POPScheme.count 38 + 5 ≤ defaultMaxParams)
    (hEnv : plainMap C.Env) (hWith : plainMap C.With) :
    ∃ scheme, ParseDSN C.FormatDSN = .ok
      { POPAccessID := C.POPAccessID, POPAccessSecret := C.POPAccessSecret, POPURL := C.POPURL,
        POPScheme := scheme, Env := sortedPairs C.Env, With := sortedPairs C.With,
        Verbose := C.Verbose, Project := C.Project } := by
  have hb64 : ∀ m : GoMap, ∀ c ∈ encodeJSONB64 m, c ≠ 37 ∧ c ≠ 38 ∧ c ≠ 43 ∧ c ≠ 47 ∧ c ≠ 59 := by
    intro m c hc
    rw [encodeJSONB64_eq] at hc
    have := isIDChar_ne (b64Encode_isIDChar _ c hc)
    exact ⟨this.1, this.2.1, this.2.2.1, this.2.2.2.1, this.2.2.2.2.1⟩
  have hne64 : ∀ m : GoMap, encodeJSONB64 m ≠ [] := by
    intro m
    rw [encodeJSONB64_eq]
    exact b64Encode_ne_nil (renderObject_ne_nil _)
  have hV : ∀ c ∈ formatBool C.Verbose, c ≠ 37 ∧ c ≠ 38 ∧ c ≠ 43 ∧ c ≠ 47 ∧ c ≠ 59 := by
    cases C.Verbose <;> decide
  have hP : ∀ c ∈ C.Project, c ≠ 37 ∧ c ≠ 38 ∧ c ≠ 43 ∧ c ≠ 47 ∧ c ≠ 59 :=
    fun c hc => querySafe_ne (cP c hc)
  have hR : ∀ c ∈ lit "scheme" ++ 61 :: C.POPScheme, c ≠ 59 ∧ c ≠ 37 ∧ c ≠ 47 := by
    have hk : ∀ c ∈ lit "scheme", c ≠ 59 ∧ c ≠ 37 ∧ c ≠ 47 := by decide
    intro c hc
    rcases List.mem_append.mp hc with hm | hm
    · exact hk c hm
    · rcases List.mem_cons.mp hm with hm | hm
      · omega
      · exact cS c hm
  obtain ⟨t, ht⟩ := parseSegments_isSome (splitOn 38 (lit "scheme" ++ 61 :: C.POPScheme))
    (fun seg hseg c hc =>
      ⟨(hR c (mem_of_mem_splitOn 38 _ seg hseg c hc)).1,
        (hR c (mem_of_mem_splitOn 38 _ seg hseg c hc)).2.1⟩)
  have hq := parseQuery_formatted4 (encodeJSONB64 C.Env) (encodeJSONB64 C.With)
    (formatBool C.Verbose) C.Project (lit "scheme" ++ 61 :: C.POPScheme) (hb64 _) (hb64 _) hV hP
    (by
      rw [List.count_append, List.count_cons_of_ne (by decide)]
      have : (lit "scheme").count 38 = 0 := by decide
      omega)
  rw [ht] at hq
  simp only [] at hq
  have hre := reDSN_complete C.POPAccessID C.POPAccessSecret C.POPURL
    ((lit "env" ++ 61 :: encodeJSONB64 C.Env) ++ 38 ::
        ((lit "with" ++ 61 :: encodeJSONB64 C.With) ++ 38 ::
        ((lit "verbose" ++ 61 :: formatBool C.Verbose) ++ 38 ::
        ((lit "curr_project" ++ 61 :: C.Project) ++ 38 ::
        (lit "scheme" ++ 61 :: C.POPScheme))))) n1 c1 n2 c2 n3 c3 (by simp [lit])
    (by
      have hk : ∀ k : GoString, (∀ c ∈ k, c ≠ 47) → ∀ v : GoString,
          (∀ c ∈ v, c ≠ 37 ∧ c ≠ 38 ∧ c ≠ 43 ∧ c ≠ 47 ∧ c ≠ 59) →
          ∀ c ∈ k ++ 61 :: v, c ≠ 47 := by
        intro k hk v hv c hc
        rcases List.mem_append.mp hc with hm | hm
        · exact hk c hm
        · rcases List.mem_cons.mp hm with hm | hm
          · omega
          · exact (hv c hm).2.2.2.1
      have k1 := hk (lit "env") (by decide) _ (hb64 C.Env)
      have k2 := hk (lit "with") (by decide) _ (hb64 C.With)
      have k3 := hk (lit "verbose") (by decide) _ hV
      have k4 := hk (lit "curr_project") (by decide) _ hP
      intro c hc
      rcases List.mem_append.mp hc with hm | hm
      · exact k1 c hm
      rcases List.mem_cons.mp hm with hm | hm
      · omega
      rcases List.mem_append.mp hm with hm | hm
      · exact k2 c hm
      rcases List.mem_cons.mp hm with hm | hm
      · omega
      rcases List.mem_append.mp hm with hm | hm
      · exact k3 c hm
      rcases List.mem_cons.mp hm with hm | hm
      · omega
      rcases List.mem_append.mp hm with hm | hm
      · exact k4 c hm
      rcases List.mem_cons.mp hm with hm | hm
      · omega
      exact (hR c hm).2.2)
  have g1 : Values.Get ((lit "env", encodeJSONB64 C.Env) :: (lit "with", encodeJSONB64 C.With) ::
      (lit "verbose", formatBool C.Verbose) :: (lit "curr_project", C.Project) :: t) (lit "env") =
      encodeJSONB64 C.Env := rfl
  have g2 : Values.Get ((lit "env", encodeJSONB64 C.Env) :: (lit "with", encodeJSONB64 C.With) ::
      (lit "verbose", formatBool C.Verbose) :: (lit "curr_project", C.Project) :: t) (lit "with") =
      encodeJSONB64 C.With := rfl
  have g3 : Values.Get ((lit "env", encodeJSONB64 C.Env) :: (lit "with", encodeJSONB64 C.With) ::
      (lit "verbose", formatBool C.Verbose) :: (lit "curr_project", C.Project) :: t)
      (lit "verbose") = formatBool C.Verbose := rfl
  have g4 : Values.Get ((lit "env", encodeJSONB64 C.Env) :: (lit "with", encodeJSONB64 C.With) ::
      (lit "verbose", formatBool C.Verbose) :: (lit "curr_project", C.Project) :: t)
      (lit "curr_project") = C.Project := rfl
  have hm : firstMissing ((lit "env", encodeJSONB64 C.Env) :: (lit "with", encodeJSONB64 C.With) ::
      (lit "verbose", formatBool C.Verbose) :: (lit "curr_project", C.Project) :: t)
      [lit "env", lit "with", lit "curr_project"] = none := by
    simp only [firstMissing, g1, g2, g4, hne64, nP, if_false]
  have he : decodeJSONB64 (Values.Get ((lit "env", encodeJSONB64 C.Env) ::
      (lit "with", encodeJSONB64 C.With) :: (lit "verbose", formatBool C.Verbose) ::
      (lit "curr_project", C.Project) :: t) (lit "env")) = .ok (sortedPairs C.Env) := by
    rw [g1]; exact decodeJSONB64_encodeJSONB64 _ hEnv
  have hw : decodeJSONB64 (Values.Get ((lit "env", encodeJSONB64 C.Env) ::
      (lit "with", encodeJSONB64 C.With) :: (lit "verbose", formatBool C.Verbose) ::
      (lit "curr_project", C.Project) :: t) (lit "with")) = .ok (sortedPairs C.With) := by
    rw [g2]; exact decodeJSONB64_encodeJSONB64 _ hWith
  have hverb : decide (formatBool C.Verbose = lit "true") = C.Verbose := by
    cases C.Verbose <;> decide
  refine ⟨schemeOf ((lit "env", encodeJSONB64 C.Env) :: (lit "with", encodeJSONB64 C.With) ::
    (lit "verbose", formatBool C.Verbose) :: (lit "curr_project", C.Project) :: t), ?_⟩
  rw [FormatDSN_eq, ParseDSN_eq_of hre hq hm he hw]
  simp only [g3, g4, hverb]

/-! ## Round trips -/

/-- C1, the claim as stated fails: the Config that `ParseDSN` returns for
`a:b@c?env=eyJrIjoiXCIifQ&with=e30&curr_project=p` has the `Env` value `"`
for the key `k`; `FormatDSN` writes it without escaping, and `ParseDSN`
rejects the DSN so written. -/
theorem ParseDSN_FormatDSN_quote :
    ParseDSN (lit "a:b@c?env=eyJrIjoiXCIifQ&with=e30&curr_project=p") =
        .ok ⟨lit "a", lit "b", lit "c", lit "http", [(lit "k", lit "\"")], [], false, lit "p"⟩ ∧
      Config.FormatDSN
          ⟨lit "a", lit "b", lit "c", lit "http", [(lit "k", lit "\"")], [], false, lit "p"⟩ =
        lit "a:b@c?env=eyJrIjoiIiJ9&with=e30&verbose=false&curr_project=p&scheme=http" ∧
      ParseDSN (Config.FormatDSN
          ⟨lit "a", lit "b", lit "c", lit "http", [(lit "k", lit "\"")], [], false, lit "p"⟩) =
        .error .invalidJSON := by
  decide

/-- C1, amended: for every plain Config (access id, secret and url non-empty
over the classes of the DSN grammar; project and scheme non-empty without
`&`, `;`, `%`, `+`, `/`; maps with pairwise different keys whose keys and
values are well-formed UTF-8 without control characters, `"` and `\`),
`ParseDSN` accepts the output of `FormatDSN` and returns a Config with the
same `Env` and `With` pairs and the same `Verbose`, `Project`, `POPScheme`,
`POPAccessID`, `POPAccessSecret` and `POPURL`. -/
theorem ParseDSN_FormatDSN_roundtrip (C : Config) (h : C.Plain) :
    ∃ C1, ParseDSN C.FormatDSN = .ok C1 ∧ C1.Env.Perm C.Env ∧ C1.With.Perm C.With ∧
      C1.Verbose = C.Verbose ∧ C1.Project = C.Project ∧ C1.POPScheme = C.POPScheme ∧
      C1.POPAccessID = C.POPAccessID ∧ C1.POPAccessSecret = C.POPAccessSecret ∧
      C1.POPURL = C.POPURL :=
  ⟨_, ParseDSN_FormatDSN_plain C h, sortedPairs_perm h.2.2.2.2.2.2.2.2.2.2.1.1,
    sortedPairs_perm h.2.2.2.2.2.2.2.2.2.2.2.1, rfl, rfl, rfl, rfl, rfl, rfl⟩

theorem ParseDSN_FormatDSN_roundtrip_witness :
    ∃ C1, ParseDSN (Config.FormatDSN ⟨lit "id-1", lit "s=cr3t", lit "host:80/x.y", lit "https",
          [(lit "b", lit "2 3"), (lit "a", [195, 169])], [(lit "w", [])], true, lit "p?q=1"⟩) =
        .ok C1 ∧
      C1.Env.Perm [(lit "b", lit "2 3"), (lit "a", [195, 169])] ∧ C1.With.Perm [(lit "w", [])] ∧
      C1.Verbose = true ∧ C1.Project = lit "p?q=1" ∧ C1.POPScheme = lit "https" ∧
      C1.POPAccessID = lit "id-1" ∧ C1.POPAccessSecret = lit "s=cr3t" ∧
      C1.POPURL = lit "host:80/x.y" :=
  ParseDSN_FormatDSN_roundtrip ⟨lit "id-1", lit "s=cr3t", lit "host:80/x.y", lit "https",
    [(lit "b", lit "2 3"), (lit "a", [195, 169])], [(lit "w", [])], true, lit "p?q=1"⟩ (by decide)

/-- C3, the claim as stated fails: `ParseDSN` accepts
`a:b@c?env=e30&with=e30&curr_project=a%2Bb` with the project `a+b`;
`FormatDSN` writes the project without escaping, and `ParseDSN` reads the
project `a b` from the DSN so written. -/
theorem FormatDSN_ParseDSN_plus :
    ParseDSN (lit "a:b@c?env=e30&with=e30&curr_project=a%2Bb") =
        .ok ⟨lit "a", lit "b", lit "c", lit "http", [], [], false, lit "a+b"⟩ ∧
      Config.FormatDSN ⟨lit "a", lit "b", lit "c", lit "http", [], [], false, lit "a+b"⟩ =
        lit "a:b@c?env=e30&with=e30&verbose=false&curr_project=a+b&scheme=http" ∧
      ParseDSN (Config.FormatDSN
          ⟨lit "a", lit "b", lit "c", lit "http", [], [], false, lit "a+b"⟩) =
        .ok ⟨lit "a", lit "b", lit "c", lit "http", [], [], false, lit "a b"⟩ := by
  decide

/-- C3, amended: for every string `s` that `ParseDSN` accepts with a result
`C` whose project holds none of `&`, `;`, `%`, `+`, `/`, whose scheme holds
none of `;`, `%`, `/`, and whose `Env` and `With` keys and values are
well-formed UTF-8 without control characters, `"` and `\`: when the scheme
holds at most 9995 characters `&` (so that the query `FormatDSN` writes has at
most `defaultMaxParams` parameters), `ParseDSN` accepts `C.FormatDSN()` too,
and returns the same `Env` pairs, the same `With` pairs and the same
`Project`; when the scheme holds more, `ParseDSN` rejects `C.FormatDSN()` with
the error of `url.ParseQuery`. -/
theorem FormatDSN_ParseDSN_roundtrip (s : GoString) (C : Config) (h : ParseDSN s = .ok C)
    (hP : ∀ c ∈ C.Project, querySafe c = true)
    (hS : ∀ c ∈ C.POPScheme, c ≠ 59 ∧ c ≠ 37 ∧ c ≠ 47)
    (hEnv : ∀ p ∈ C.Env, jsonPlain 0 p.1 = true ∧ jsonPlain 0 p.2 = true)
    (hWith : ∀ p ∈ C.With, jsonPlain 0 p.1 = true ∧ jsonPlain 0 p.2 = true) :
    (C.POPScheme.count 38 ≤ 9995 →
        ∃ C1, ParseDSN C.FormatDSN = .ok C1 ∧ C1.Env.Perm C.Env ∧ C1.With.Perm C.With ∧
          C1.Project = C.Project) ∧
      (9995 < C.POPScheme.count 38 → ParseDSN C.FormatDSN = .error .query) := by
  obtain ⟨pid, ps, purl, q, kvs, env, w, hre, hq, hm, he, hw, hC⟩ := ParseDSN_ok_inv h
  obtain ⟨-, n1, c1, n2, c2, n3, c3, -, -⟩ := reDSN_sound hre
  subst hC
  have nEnv := decodeJSONB64_nodup he
  have nWith := decodeJSONB64_nodup hw
  constructor
  · intro hN
    obtain ⟨scheme, hparse⟩ := ParseDSN_FormatDSN_scheme _ n1 c1 n2 c2 n3 c3
      (firstMissing_none hm _ (by simp)) hP hS (by unfold defaultMaxParams; omega)
      ⟨nEnv, hEnv⟩ ⟨nWith, hWith⟩
    exact ⟨_, hparse, sortedPairs_perm nEnv, sortedPairs_perm nWith, rfl⟩
  · intro hN
    rw [FormatDSN_eq]
    refine ParseDSN_over (reDSN_formatted _ n1 c1 n2 c2 n3 c3 hP hS) ?_
    rw [count_amp_formatted _ hP]
    unfold defaultMaxParams
    omega

theorem FormatDSN_ParseDSN_roundtrip_witness :
    ∃ C1, ParseDSN (Config.FormatDSN ⟨lit "a", lit "b", lit "c", lit "x+y",
          [(lit "y", lit "2"), (lit "x", lit "1")], [], false, lit "p"⟩) = .ok C1 ∧
      C1.Env.Perm [(lit "y", lit "2"), (lit "x", lit "1")] ∧ C1.With.Perm [] ∧
      C1.Project = lit "p" :=
  (FormatDSN_ParseDSN_roundtrip
    (lit "a:b@c?scheme=x%2By&curr_project=p&with=e30&env=eyJ5IjoiMiIsIngiOiIxIn0")
    ⟨lit "a", lit "b", lit "c", lit "x+y", [(lit "y", lit "2"), (lit "x", lit "1")], [], false,
      lit "p"⟩
    (by decide) (by decide) (by decide) (by decide) (by decide)).1 (by decide)

/-! ## The fuel of `jsonMembers` -/

theorem skipWS_length (s : GoString) : (skipWS s).length ≤ s.length := by
  induction s with
  | nil => simp [skipWS]
  | cons c t ih =>
      rw [skipWS]
      split
      · simp only [List.length_cons]; omega
      · exact Nat.le_refl _

theorem jsonString_length : ∀ (s : GoString) (cp sk : Nat) (t r : GoString),
    jsonString cp sk s = some (t, r) → r.length < s.length := by
  intro s
  induction s with
  | nil => intro cp sk t r h; simp [jsonString] at h
  | cons c rest ih =>
      intro cp sk t r h
      cases cp with
      | succ k =>
          rw [jsonString.eq_2] at h
          cases hr : jsonString k 0 rest with
          | none => rw [hr] at h; cases h
          | some p =>
              obtain ⟨t1, r1⟩ := p
              rw [hr] at h
              simp only [Option.some.injEq, Prod.mk.injEq] at h
              have := ih k 0 t1 r1 hr
              rw [← h.2]
              simp only [List.length_cons]; omega
      | zero =>
          cases sk with
          | succ k =>
              rw [jsonString.eq_3] at h
              have := ih 0 k t r h
              simp only [List.length_cons]; omega
          | zero =>
              rw [jsonString.eq_4] at h
              have key : ∀ (cp sk : Nat) (out : GoString),
                  (match jsonString cp sk rest with
                    | some (t, r) => some (out ++ t, r)
                    | none => none) = some (t, r) → r.length < (c :: rest).length := by
                intro cp sk out hm
                cases hr : jsonString cp sk rest with
                | none => rw [hr] at hm; cases hm
                | some p =>
                    obtain ⟨t1, r1⟩ := p
                    rw [hr] at hm
                    simp only [Option.some.injEq, Prod.mk.injEq] at hm
                    have := ih cp sk t1 r1 hr
                    rw [← hm.2]
                    simp only [List.length_cons]; omega
              split at h
              · simp only [Option.some.injEq, Prod.mk.injEq] at h
                rw [← h.2]; simp
              · split at h
                · split at h
                  · exact key _ _ _ h
                  · cases h
                · split at h
                  · cases h
                  · split at h
                    · exact key 0 0 [c] h
                    · split at h
                      · exact key _ 0 [c] h
                      · exact key 0 0 runeError h

theorem jsonStringValue_length {s v r : GoString} (h : jsonStringValue s = some (v, r)) :
    r.length < s.length := by
  unfold jsonStringValue at h
  split at h
  · cases h
  · rename_i c rest
    split at h
    · have := jsonString_length rest 0 0 v r h
      simp only [List.length_cons]; omega
    · split at h
      · rename_i n u l1 l2 rest2 heq
        split at h
        · simp only [Option.some.injEq, Prod.mk.injEq] at h
          rw [heq, ← h.2]
          simp only [List.length_cons]; omega
        · cases h
      · cases h


/-- More fuel than the length of the input changes nothing: `jsonMembers`
never runs out of the fuel `jsonUnmarshalMap` gives it. -/
theorem jsonMembers_fuel : ∀ (fuel : Nat) (s : GoString) (m : GoMap) (k : Nat),
    s.length < fuel → jsonMembers (fuel + k) s m = jsonMembers fuel s m := by
  intro fuel
  induction fuel with
  | zero => intro s m k h; simp at h
  | succ n ih =>
      intro s m k hlen
      have e : n + 1 + k = (n + k) + 1 := by omega
      rw [e, jsonMembers.eq_def (n + k + 1), jsonMembers.eq_def (n + 1)]
      simp only []
      cases s with
      | nil => rfl
      | cons q s1 =>
          simp only []
          by_cases hq : q = 34
          · simp only [hq, if_true]
            cases h1 : jsonString 0 0 s1 with
            | none => rfl
            | some p1 =>
                obtain ⟨key, s2⟩ := p1
                simp only []
                have l1 := jsonString_length s1 0 0 key s2 h1
                have l2 := skipWS_length s2
                cases h2 : skipWS s2 with
                | nil => rfl
                | cons colon s3 =>
                    simp only []
                    rw [h2] at l2
                    by_cases hc : colon = 58
                    · simp only [hc, if_true]
                      have l3 := skipWS_length s3
                      cases h3 : jsonStringValue (skipWS s3) with
                      | none => rfl
                      | some p3 =>
                          obtain ⟨v, s4⟩ := p3
                          simp only []
                          have l4 := jsonStringValue_length h3
                          have l5 := skipWS_length s4
                          cases h5 : skipWS s4 with
                          | nil => rfl
                          | cons d s5 =>
                              simp only []
                              rw [h5] at l5
                              by_cases hd : d = 44
                              · simp only [hd, if_true]
                                have l6 := skipWS_length s5
                                apply ih
                                simp only [List.length_cons] at hlen l2 l5
                                omega
                              · simp only [hd, if_false]
                    · simp only [hc, if_false]
          · simp only [hq, if_false]


theorem jsonUnmarshalMap_fuel (buf rest rest2 : GoString) (c d k : Nat)
    (h1 : skipWS buf = c :: rest) (h2 : skipWS rest = d :: rest2) :
    jsonMembers (buf.length + k) (d :: rest2) [] = jsonMembers buf.length (d :: rest2) [] := by
  apply jsonMembers_fuel
  have l1 := skipWS_length buf
  have l2 := skipWS_length rest
  rw [h1] at l1
  rw [h2] at l2
  simp only [List.length_cons] at l1 l2 ⊢
  omega

/-! ## Valid base64 -/

theorem b64Val_isSome (c : Nat) : (b64Val c).isSome = isBase64URLChar c := by
  unfold b64Val isBase64URLChar
  split_ifs with h1 h2 h3 h4 h5 <;> simp <;> omega

theorem b64Vals_isSome : ∀ (cs : GoString), (b64Vals cs).isSome = cs.all isBase64URLChar
  | [] => rfl
  | c :: cs => by
      rw [b64Vals_cons, List.all_cons, ← b64Val_isSome, ← b64Vals_isSome cs]
      cases b64Val c <;> cases b64Vals cs <;> rfl

theorem b64Vals_length : ∀ (cs : GoString) (vs : List Nat), b64Vals cs = some vs →
    vs.length = cs.length
  | [], vs, h => by
      simp only [b64Vals, Option.some.injEq] at h
      rw [← h]
  | c :: cs, vs, h => by
      rw [b64Vals_cons] at h
      cases hv : b64Val c with
      | none => rw [hv] at h; cases h
      | some v =>
          cases hr : b64Vals cs with
          | none => rw [hv, hr] at h; cases h
          | some r =>
              rw [hv, hr] at h
              simp only [Option.some.injEq] at h
              rw [← h, List.length_cons, List.length_cons, b64Vals_length cs r hr]

theorem b64DecodeVals_isSome : ∀ (n : Nat) (vs : List Nat), vs.length = n →
    (b64DecodeVals vs).isSome = (vs.length % 4 != 1) := by
  intro n
  induction n using Nat.strong_induction_on with
  | _ n ih =>
      intro vs hlen
      match vs, hlen with
      | [], _ => rfl
      | [_], _ => rfl
      | [_, _], _ => rfl
      | [_, _, _], _ => rfl
      | a :: b :: c :: d :: rest, hlen =>
          have := ih rest.length (by simp at hlen; omega) rest rfl
          rw [b64DecodeVals]
          simp only [List.length_cons]
          have e : (rest.length + 1 + 1 + 1 + 1) % 4 = rest.length % 4 := by omega
          rw [e, ← this]
          cases b64DecodeVals rest <;> rfl

/-- The base64 decoder accepts exactly the texts that are, once `\r` and `\n`
are taken out, valid unpadded URL-safe base64. -/
theorem b64Decode_isSome (v : GoString) :
    (b64Decode v).isSome = validRawURLBase64 (v.filter (fun c => c != 10 && c != 13)) := by
  unfold b64Decode validRawURLBase64
  rw [← b64Vals_isSome]
  cases h1 : b64Vals (v.filter (fun c => c != 10 && c != 13)) with
  | none => rfl
  | some vs =>
      simp only [Option.isSome_some, Bool.true_and]
      rw [b64DecodeVals_isSome vs.length vs rfl, b64Vals_length _ _ h1]

/-! ## JSON string literals -/

/-- Where a string literal ends: one step of the scan of `jsonString`. -/
theorem jsonString_rest_step (c : Nat) (rest : GoString) :
    (jsonString 0 0 (c :: rest)).map Prod.snd =
      if c = 34 then some rest
      else if c = 92 then
        match jsonEscape rest with
        | some (_, n) => (jsonString 0 n rest).map Prod.snd
        | none => none
      else if c < 32 then none
      else if c < 128 then (jsonString 0 0 rest).map Prod.snd
      else
        match utf8SeqLen (c :: rest) with
        | some n => (jsonString (n - 1) 0 rest).map Prod.snd
        | none => (jsonString 0 0 rest).map Prod.snd := by
  rw [jsonString.eq_4]
  split
  · rfl
  · split
    · cases jsonEscape rest with
      | none => rfl
      | some p =>
          obtain ⟨out, n⟩ := p
          simp only []
          cases jsonString 0 n rest with
          | none => rfl
          | some q => rfl
    · split
      · rfl
      · split
        · cases jsonString 0 0 rest with
          | none => rfl
          | some q => rfl
        · cases utf8SeqLen (c :: rest) with
          | none =>
              simp only []
              cases jsonString 0 0 rest with
              | none => rfl
              | some q => rfl
          | some n =>
              simp only []
              cases jsonString (n - 1) 0 rest with
              | none => rfl
              | some q => rfl

theorem jsonString_rest_skip : ∀ (n : Nat) (s : GoString),
    (jsonString 0 n s).map Prod.snd =
      if n ≤ s.length then (jsonString 0 0 (s.drop n)).map Prod.snd else none
  | 0, s => by simp
  | n + 1, [] => by simp [jsonString]
  | n + 1, c :: rest => by
      rw [jsonString.eq_3, jsonString_rest_skip n rest]
      simp

theorem jsonString_rest_copy : ∀ (cp : Nat) (s : GoString),
    (jsonString cp 0 s).map Prod.snd =
      if cp ≤ s.length then (jsonString 0 0 (s.drop cp)).map Prod.snd else none
  | 0, s => by simp
  | cp + 1, [] => by simp [jsonString]
  | cp + 1, c :: rest => by
      rw [jsonString.eq_2]
      have := jsonString_rest_copy cp rest
      cases h : jsonString cp 0 rest with
      | none =>
          rw [h] at this
          simp only [List.length_cons, Nat.add_le_add_iff_right, List.drop_succ_cons]
          rw [← this]
      | some q =>
          rw [h] at this
          simp only [List.length_cons, Nat.add_le_add_iff_right, List.drop_succ_cons]
          rw [← this]
          rfl

theorem StringBody_append {pre : GoString} (h : ∀ b ∈ pre, 32 ≤ b ∧ b ≠ 34 ∧ b ≠ 92)
    {t : GoString} (ht : StringBody t) : StringBody (pre ++ t) := by
  induction pre with
  | nil => exact ht
  | cons b p ih =>
      have hb := h b (List.mem_cons_self _ _)
      exact StringBody.char b _ hb.1 hb.2.1 hb.2.2 (ih (fun x hx => h x (List.mem_cons_of_mem _ hx)))

theorem StringBody_drop : ∀ (k : Nat) (t : GoString), StringBody t →
    (∀ b ∈ t.take k, 128 ≤ b) → StringBody (t.drop k)
  | 0, t, h, _ => by simpa using h
  | k + 1, [], h, _ => by simpa using h
  | k + 1, b :: t, h, hb => by
      have h128 : 128 ≤ b := hb b (by simp)
      rw [List.drop_succ_cons]
      apply StringBody_drop k t
      · cases h with
        | char _ _ _ _ _ ht => exact ht
        | esc _ _ _ _ => omega
        | uni _ _ _ _ _ _ _ _ _ _ => omega
      · intro x hx
        exact hb x (by simp [hx])

/-- The bytes after the first one of a well-formed multi-byte encoding are
continuation bytes. -/
theorem utf8SeqLen_tail {c : Nat} {rest : GoString} {n : Nat}
    (h : utf8SeqLen (c :: rest) = some n) :
    1 ≤ n ∧ n - 1 ≤ rest.length ∧ ∀ b ∈ rest.take (n - 1), 128 ≤ b := by
  rcases rest with _ | ⟨b1, _ | ⟨b2, _ | ⟨b3, tl⟩⟩⟩ <;> rw [utf8SeqLen.eq_def] at h <;>
    simp only [] at h
  · cases h
  · split_ifs at h with h1 h2 h3 h4
    all_goals simp only [Option.some.injEq, reduceCtorEq] at h
    subst h
    simp only [isCont, Bool.and_eq_true, decide_eq_true_eq] at h2
    simp
    omega
  · split_ifs at h with h1 h2 h3 h4 h5 h6 <;>
      simp only [Option.some.injEq, reduceCtorEq] at h <;> subst h <;>
      simp only [isCont, Bool.and_eq_true, decide_eq_true_eq] at * <;> simp <;> omega
  · split_ifs at h with h1 h2 h3 h4 h5 h6 <;>
      simp only [Option.some.injEq, reduceCtorEq] at h <;> subst h <;>
      simp only [isCont, Bool.and_eq_true, decide_eq_true_eq] at * <;> simp <;> omega

theorem jsonEscape_sound {rest out : GoString} {n : Nat} (h : jsonEscape rest = some (out, n)) :
    n ≤ rest.length ∧ ∀ t, StringBody t → StringBody (92 :: (rest.take n ++ t)) := by
  unfold jsonEscape at h
  rcases rest with _ | ⟨e, rest1⟩
  · cases h
  · simp only [] at h
    by_cases he : e = 117
    · subst he
      simp only [if_true] at h
      rcases rest1 with _ | ⟨h1, _ | ⟨h2, _ | ⟨h3, _ | ⟨h4, rest2⟩⟩⟩⟩
      · cases h
      · cases h
      · cases h
      · cases h
      · simp only [] at h
        split at h
        · rename_i hx
          simp only [Bool.and_eq_true] at hx
          obtain ⟨⟨⟨x1, x2⟩, x3⟩, x4⟩ := hx
          have five : ∀ t, StringBody t →
              StringBody (92 :: ((117 :: h1 :: h2 :: h3 :: h4 :: rest2).take 5 ++ t)) := by
            intro t ht
            exact StringBody.uni h1 h2 h3 h4 _ x1 x2 x3 x4 (by simpa using ht)
          split at h
          · rcases rest2 with _ | ⟨b, _ | ⟨u, _ | ⟨g1, _ | ⟨g2, _ | ⟨g3, _ | ⟨g4, rest3⟩⟩⟩⟩⟩⟩
            all_goals simp only [] at h
            all_goals try
              (simp only [Option.some.injEq, Prod.mk.injEq] at h
               obtain ⟨-, hn⟩ := h
               subst hn
               exact ⟨by simp, five⟩)
            split at h
            · rename_i hy
              obtain ⟨y1, y2, y3, -⟩ := hy
              simp only [Bool.and_eq_true] at y3
              obtain ⟨⟨⟨z1, z2⟩, z3⟩, z4⟩ := y3
              simp only [Option.some.injEq, Prod.mk.injEq] at h
              obtain ⟨-, hn⟩ := h
              subst hn y1 y2
              refine ⟨by simp, fun t ht => ?_⟩
              exact StringBody.uni h1 h2 h3 h4 _ x1 x2 x3 x4
                (StringBody.uni g1 g2 g3 g4 _ z1 z2 z3 z4 (by simpa using ht))
            · simp only [Option.some.injEq, Prod.mk.injEq] at h
              obtain ⟨-, hn⟩ := h
              subst hn
              exact ⟨by simp, five⟩
          · simp only [Option.some.injEq, Prod.mk.injEq] at h
            obtain ⟨-, hn⟩ := h
            subst hn
            exact ⟨by simp, five⟩
        · cases h
    · simp only [he, if_false] at h
      have one : ∀ x : GoString, some (x, 1) = some (out, n) →
          e ∈ [34, 92, 47, 98, 102, 110, 114, 116] →
          n ≤ (e :: rest1).length ∧
            ∀ t, StringBody t → StringBody (92 :: ((e :: rest1).take n ++ t)) := by
        intro x hx hm
        simp only [Option.some.injEq, Prod.mk.injEq] at hx
        obtain ⟨-, hn⟩ := hx
        subst hn
        exact ⟨by simp, fun t ht => StringBody.esc e _ hm (by simpa using ht)⟩
      split_ifs at h with a1 a2 a3 a4 a5 a6
      · exact one _ h (by rcases a1 with a | a | a <;> simp [a])
      · exact one _ h (by simp [a2])
      · exact one _ h (by simp [a3])
      · exact one _ h (by simp [a4])
      · exact one _ h (by simp [a5])
      · exact one _ h (by simp [a6])

theorem jsonEscape_simple {e : Nat} (rest : GoString)
    (h : e ∈ [34, 92, 47, 98, 102, 110, 114, 116]) :
    ∃ out, jsonEscape (e :: rest) = some (out, 1) := by
  simp only [List.mem_cons, List.mem_singleton, List.not_mem_nil, or_false] at h
  unfold jsonEscape
  rcases h with h | h | h | h | h | h | h | h <;> subst h <;> simp

theorem jsonEscape_uni (h1 h2 h3 h4 : Nat) (rest2 : GoString) (x1 : isHex h1 = true)
    (x2 : isHex h2 = true) (x3 : isHex h3 = true) (x4 : isHex h4 = true) :
    (∃ out, jsonEscape (117 :: h1 :: h2 :: h3 :: h4 :: rest2) = some (out, 5)) ∨
      ∃ out g1 g2 g3 g4 rest3, jsonEscape (117 :: h1 :: h2 :: h3 :: h4 :: rest2) = some (out, 11) ∧
        rest2 = 92 :: 117 :: g1 :: g2 :: g3 :: g4 :: rest3 := by
  unfold jsonEscape
  simp only [if_true, x1, x2, x3, x4, Bool.and_self]
  split
  · rcases rest2 with _ | ⟨b, _ | ⟨u, _ | ⟨g1, _ | ⟨g2, _ | ⟨g3, _ | ⟨g4, rest3⟩⟩⟩⟩⟩⟩
    all_goals simp only []
    all_goals try exact Or.inl ⟨_, rfl⟩
    split
    · rename_i hy
      obtain ⟨y1, y2, -⟩ := hy
      subst y1 y2
      exact Or.inr ⟨_, g1, g2, g3, g4, rest3, rfl, rfl⟩
    · exact Or.inl ⟨_, rfl⟩
  · exact Or.inl ⟨_, rfl⟩

/-- What `jsonString` reads as a string literal is the text of one. -/
theorem jsonString_rest_sound : ∀ (k : Nat) (s r : GoString), s.length ≤ k →
    (jsonString 0 0 s).map Prod.snd = some r → ∃ body, StringBody body ∧ s = body ++ 34 :: r := by
  intro k
  induction k with
  | zero =>
      intro s r hk h
      have : s = [] := List.length_eq_zero.mp (by omega)
      subst this
      simp [jsonString] at h
  | succ k ih =>
      intro s r hk h
      rcases s with _ | ⟨c, rest⟩
      · simp [jsonString] at h
      · have hlen : rest.length ≤ k := by simp only [List.length_cons] at hk; omega
        rw [jsonString_rest_step] at h
        split at h
        · rename_i hc
          simp only [Option.some.injEq] at h
          subst hc h
          exact ⟨[], StringBody.nil, rfl⟩
        · rename_i hc34
          split at h
          · rename_i hc
            subst hc
            cases he : jsonEscape rest with
            | none => rw [he] at h; cases h
            | some p =>
                obtain ⟨out, n⟩ := p
                rw [he] at h
                simp only [] at h
                rw [jsonString_rest_skip] at h
                obtain ⟨hn, hbody⟩ := jsonEscape_sound he
                rw [if_pos hn] at h
                obtain ⟨body, hb, e⟩ := ih (rest.drop n) r (by simp; omega) h
                refine ⟨92 :: (rest.take n ++ body), hbody body hb, ?_⟩
                rw [List.cons_append, List.append_assoc, ← e, List.take_append_drop]
          · rename_i hc92
            split at h
            · cases h
            · rename_i hc32
              split at h
              · obtain ⟨body, hb, e⟩ := ih rest r hlen h
                exact ⟨c :: body, StringBody.char c body (by omega) hc34 hc92 hb, by rw [e]; rfl⟩
              · rename_i hc128
                cases hu : utf8SeqLen (c :: rest) with
                | none =>
                    rw [hu] at h
                    obtain ⟨body, hb, e⟩ := ih rest r hlen h
                    exact ⟨c :: body, StringBody.char c body (by omega) hc34 hc92 hb,
                      by rw [e]; rfl⟩
                | some n =>
                    rw [hu] at h
                    simp only [] at h
                    obtain ⟨-, hn, hhigh⟩ := utf8SeqLen_tail hu
                    rw [jsonString_rest_copy, if_pos hn] at h
                    obtain ⟨body, hb, e⟩ := ih (rest.drop (n - 1)) r (by simp; omega) h
                    refine ⟨c :: (rest.take (n - 1) ++ body),
                      StringBody.char c _ (by omega) hc34 hc92
                        (StringBody_append (fun b hb => ?_) hb), ?_⟩
                    · have := hhigh b hb
                      omega
                    · rw [List.cons_append, List.append_assoc, ← e, List.take_append_drop]

/-- The text of a string literal followed by a quote is read by `jsonString`
up to that quote. -/
theorem jsonString_rest_complete : ∀ (k : Nat) (body r : GoString), body.length ≤ k →
    StringBody body → (jsonString 0 0 (body ++ 34 :: r)).map Prod.snd = some r := by
  intro k
  induction k with
  | zero =>
      intro body r hk _
      have : body = [] := List.length_eq_zero.mp (by omega)
      subst this
      rw [List.nil_append, jsonString_rest_step, if_pos rfl]
  | succ k ih =>
      intro body r hk hb
      cases hb with
      | nil => rw [List.nil_append, jsonString_rest_step, if_pos rfl]
      | char c t h32 h34 h92 ht =>
          have hlen : t.length ≤ k := by simp only [List.length_cons] at hk; omega
          rw [List.cons_append, jsonString_rest_step, if_neg h34, if_neg h92,
            if_neg (by omega)]
          split
          · exact ih t r hlen ht
          · cases hu : utf8SeqLen (c :: (t ++ 34 :: r)) with
            | none => exact ih t r hlen ht
            | some n =>
                simp only []
                obtain ⟨-, hn, hhigh⟩ := utf8SeqLen_tail hu
                rw [jsonString_rest_copy, if_pos hn]
                have hnt : n - 1 ≤ t.length := by
                  by_contra hcon
                  have hmem : (34 : Nat) ∈ (t ++ 34 :: r).take (n - 1) := by
                    rw [List.take_append_eq_append_take]
                    apply List.mem_append_right
                    obtain ⟨m, hm⟩ : ∃ m, n - 1 - t.length = m + 1 := ⟨n - 1 - t.length - 1, by omega⟩
                    rw [hm, List.take_succ_cons]
                    exact List.mem_cons_self _ _
                  have := hhigh 34 hmem
                  omega
                rw [List.drop_append_of_le_length hnt]
                apply ih _ r (by simp; omega)
                apply StringBody_drop _ _ ht
                intro b hb
                apply hhigh
                rw [List.take_append_of_le_length hnt]
                exact hb
      | esc e t he ht =>
          have hlen : t.length ≤ k := by simp only [List.length_cons] at hk; omega
          obtain ⟨out, ho⟩ := jsonEscape_simple (t ++ 34 :: r) he
          rw [List.cons_append, List.cons_append, jsonString_rest_step, if_neg (by decide),
            if_pos rfl, ho]
          simp only []
          rw [jsonString_rest_skip, if_pos (by simp)]
          exact ih t r hlen ht
      | uni h1 h2 h3 h4 t x1 x2 x3 x4 ht =>
          have hlen : t.length ≤ k := by simp only [List.length_cons] at hk; omega
          rw [List.cons_append, jsonString_rest_step, if_neg (by decide), if_pos rfl]
          rcases jsonEscape_uni h1 h2 h3 h4 (t ++ 34 :: r) x1 x2 x3 x4 with
            ⟨out, ho⟩ | ⟨out, g1, g2, g3, g4, rest3, ho, hr⟩
          · simp only [List.cons_append]
            rw [ho]
            simp only []
            rw [jsonString_rest_skip, if_pos (by simp)]
            exact ih t r hlen ht
          · simp only [List.cons_append]
            rw [ho]
            simp only []
            rw [jsonString_rest_skip, if_pos (by rw [hr]; simp)]
            cases ht with
            | nil => simp at hr
            | char c t1 _ _ c92 _ =>
                simp only [List.cons_append, List.cons.injEq] at hr
                exact absurd hr.1 c92
            | esc e t1 he _ =>
                simp only [List.cons_append, List.cons.injEq] at hr
                rw [hr.2.1] at he
                simp at he
            | uni k1 k2 k3 k4 t1 _ _ _ _ ht1 =>
                simp only [List.cons_append, List.drop_succ_cons, List.drop_zero]
                exact ih t1 r (by simp only [List.length_cons] at hlen; omega) ht1

theorem jsonString_of_rest {s r : GoString} (h : (jsonString 0 0 s).map Prod.snd = some r) :
    ∃ v, jsonString 0 0 s = some (v, r) := by
  cases hj : jsonString 0 0 s with
  | none => rw [hj] at h; cases h
  | some p =>
      obtain ⟨v, r1⟩ := p
      rw [hj] at h
      simp only [Option.map_some', Option.some.injEq] at h
      subst h
      exact ⟨v, rfl⟩

/-! ## JSON objects of strings -/

theorem skipWS_ws : ∀ (w s : GoString), isWS w = true → skipWS (w ++ s) = skipWS s
  | [], _, _ => rfl
  | c :: w, s, h => by
      simp only [isWS, List.all_cons, Bool.and_eq_true] at h
      rw [List.cons_append, skipWS, if_pos h.1]
      exact skipWS_ws w s h.2

theorem skipWS_split : ∀ (s : GoString), ∃ w, isWS w = true ∧ s = w ++ skipWS s
  | [] => ⟨[], rfl, rfl⟩
  | c :: s => by
      by_cases hc : isJSONSpace c = true
      · obtain ⟨w, h1, h2⟩ := skipWS_split s
        refine ⟨c :: w, by simp [isWS, hc, h1] at *; exact h1, ?_⟩
        rw [skipWS, if_pos hc, List.cons_append, ← h2]
      · refine ⟨[], rfl, ?_⟩
        rw [skipWS, if_neg hc]
        rfl

theorem skipWS_eq_nil : ∀ (s : GoString), skipWS s = [] ↔ isWS s = true
  | [] => by simp [skipWS, isWS]
  | c :: s => by
      by_cases hc : isJSONSpace c = true
      · rw [skipWS, if_pos hc, skipWS_eq_nil s]
        simp [isWS, hc]
      · rw [skipWS, if_neg hc]
        simp [isWS, hc]

theorem skipWS_token (w : GoString) (c : Nat) (s : GoString) (hw : isWS w = true)
    (hc : isJSONSpace c = false) : skipWS (w ++ c :: s) = c :: s := by
  rw [skipWS_ws w _ hw, skipWS_cons c s hc]

theorem jsonStringValue_sound {s v r : GoString} (h : jsonStringValue s = some (v, r)) :
    ∃ vt, ValueText vt ∧ s = vt ++ r := by
  unfold jsonStringValue at h
  split at h
  · cases h
  · rename_i c rest
    split at h
    · rename_i hc
      subst hc
      obtain ⟨body, hb, e⟩ := jsonString_rest_sound rest.length rest r (Nat.le_refl _)
        (by rw [h]; rfl)
      exact ⟨34 :: (body ++ [34]), ValueText.string body hb, by rw [e]; simp⟩
    · split at h
      · rename_i n u l1 l2 rest2 heq
        split at h
        · rename_i hn
          obtain ⟨e1, e2, e3, e4⟩ := hn
          simp only [Option.some.injEq, Prod.mk.injEq] at h
          rw [heq, e1, e2, e3, e4, ← h.2]
          exact ⟨_, ValueText.null, rfl⟩
        · cases h
      · cases h

theorem jsonStringValue_complete {vt : GoString} (h : ValueText vt) (r : GoString) :
    ∃ v, jsonStringValue (vt ++ r) = some (v, r) := by
  cases h with
  | string b hb =>
      have := jsonString_rest_complete b.length b r (Nat.le_refl _) hb
      obtain ⟨v, hv⟩ := jsonString_of_rest this
      refine ⟨v, ?_⟩
      rw [List.cons_append, List.append_assoc, List.singleton_append, jsonStringValue]
      simp only [if_true]
      exact hv
  | null => exact ⟨[], by simp [jsonStringValue]⟩

theorem ValueText_head {vt : GoString} (h : ValueText vt) :
    ∃ c t, vt = c :: t ∧ isJSONSpace c = false := by
  cases h with
  | string b _ => exact ⟨34, _, rfl, by decide⟩
  | null => exact ⟨110, _, rfl, by decide⟩

theorem MembersText_head {s : GoString} (h : MembersText s) : ∃ t, s = 34 :: t := by
  cases h with
  | last => exact ⟨_, rfl⟩
  | more => exact ⟨_, rfl⟩

/-- What `jsonMembers` accepts is the text of the members of an object. -/
theorem jsonMembers_sound : ∀ (fuel : Nat) (s : GoString) (m m1 : GoMap),
    jsonMembers fuel s m = some m1 → MembersText s := by
  intro fuel
  induction fuel with
  | zero => intro s m m1 h; simp [jsonMembers] at h
  | succ n ih =>
      intro s m m1 h
      rw [jsonMembers.eq_def] at h
      simp only [] at h
      split at h
      · cases h
      · rename_i q s1
        split at h
        · rename_i hq
          subst hq
          split at h
          · rename_i k s2 hk
            obtain ⟨kb, hkb, e1⟩ := jsonString_rest_sound s1.length s1 s2 (Nat.le_refl _)
              (by rw [hk]; rfl)
            obtain ⟨w1, hw1, e2⟩ := skipWS_split s2
            split at h
            · rename_i colon s3 hs2
              split at h
              · rename_i hcolon
                subst hcolon
                obtain ⟨w2, hw2, e3⟩ := skipWS_split s3
                split at h
                · rename_i v s4 hv
                  obtain ⟨vt, hvt, e4⟩ := jsonStringValue_sound hv
                  obtain ⟨w3, hw3, e5⟩ := skipWS_split s4
                  split at h
                  · rename_i d s5 hs4
                    obtain ⟨w4, hw4, e6⟩ := skipWS_split s5
                    have etext : ∀ tail : GoString, s5 = tail →
                        34 :: s1 = 34 :: (kb ++ 34 :: (w1 ++ 58 :: (w2 ++ (vt ++
                          (w3 ++ d :: tail))))) := by
                      intro tail ht
                      rw [e1, e2, hs2, e3, e4, e5, hs4, ht]
                    split at h
                    · rename_i hd
                      subst hd
                      have := ih _ _ _ h
                      rw [etext _ e6]
                      exact MembersText.more kb w1 w2 vt w3 w4 _ hkb hw1 hw2 hvt hw3 hw4 this
                    · split at h
                      · rename_i hd
                        obtain ⟨hd1, hd2⟩ := hd
                        subst hd1
                        rw [etext _ rfl]
                        exact MembersText.last kb w1 w2 vt w3 s5 hkb hw1 hw2 hvt hw3
                          ((skipWS_eq_nil s5).mp hd2)
                      · cases h
                  · cases h
                · cases h
              · cases h
            · cases h
          · cases h
        · cases h

/-- The text of the members of an object is accepted by `jsonMembers`, with
a fuel above its length. -/
theorem jsonMembers_complete {s : GoString} (h : MembersText s) :
    ∀ (fuel : Nat) (m : GoMap), s.length < fuel → ∃ m1, jsonMembers fuel s m = some m1 := by
  induction h with
  | last k w1 w2 vt w3 w4 hk hw1 hw2 hvt hw3 hw4 =>
      intro fuel m hf
      obtain ⟨n, rfl⟩ : ∃ n, fuel = n + 1 := ⟨fuel - 1, by omega⟩
      obtain ⟨kv, hkv⟩ := jsonString_of_rest
        (jsonString_rest_complete k.length k (w1 ++ 58 :: (w2 ++ (vt ++ (w3 ++ 125 :: w4))))
          (Nat.le_refl _) hk)
      obtain ⟨c, t, hct, hcs⟩ := ValueText_head hvt
      obtain ⟨v, hv⟩ := jsonStringValue_complete hvt (w3 ++ 125 :: w4)
      rw [jsonMembers]
      simp only [if_true]
      rw [hkv]
      simp only []
      rw [skipWS_token w1 58 _ hw1 (by decide)]
      simp only [if_true]
      have e : skipWS (w2 ++ (vt ++ (w3 ++ 125 :: w4))) = vt ++ (w3 ++ 125 :: w4) := by
        rw [hct, List.cons_append, skipWS_token w2 c _ hw2 hcs]
      rw [e, hv]
      simp only []
      rw [skipWS_token w3 125 _ hw3 (by decide)]
      simp only [(skipWS_eq_nil w4).mpr hw4]
      exact ⟨m.set kv v, by simp⟩
  | more k w1 w2 vt w3 w4 rest hk hw1 hw2 hvt hw3 hw4 hrest ih =>
      intro fuel m hf
      obtain ⟨n, rfl⟩ : ∃ n, fuel = n + 1 := ⟨fuel - 1, by omega⟩
      obtain ⟨kv, hkv⟩ := jsonString_of_rest
        (jsonString_rest_complete k.length k
          (w1 ++ 58 :: (w2 ++ (vt ++ (w3 ++ 44 :: (w4 ++ rest))))) (Nat.le_refl _) hk)
      obtain ⟨c, t, hct, hcs⟩ := ValueText_head hvt
      obtain ⟨v, hv⟩ := jsonStringValue_complete hvt (w3 ++ 44 :: (w4 ++ rest))
      obtain ⟨t2, ht2⟩ := MembersText_head hrest
      rw [jsonMembers]
      simp only [if_true]
      rw [hkv]
      simp only []
      rw [skipWS_token w1 58 _ hw1 (by decide)]
      simp only [if_true]
      have e : skipWS (w2 ++ (vt ++ (w3 ++ 44 :: (w4 ++ rest)))) =
          vt ++ (w3 ++ 44 :: (w4 ++ rest)) := by
        rw [hct, List.cons_append, skipWS_token w2 c _ hw2 hcs]
      rw [e, hv]
      simp only []
      rw [skipWS_token w3 44 _ hw3 (by decide)]
      simp only [if_true]
      have e2 : skipWS (w4 ++ rest) = rest := by
        rw [ht2, skipWS_token w4 34 _ hw4 (by decide)]
      rw [e2]
      apply ih
      simp only [List.length_cons, List.length_append] at hf
      omega

/-- The JSON decoder accepts exactly the literal `null` and the objects whose
member values are strings or `null`. -/
theorem jsonUnmarshalMap_isSome (buf : GoString) :
    (jsonUnmarshalMap buf).isSome = true ↔ NullText buf ∨ ObjectText buf := by
  constructor
  · intro h
    obtain ⟨w0, hw0, e0⟩ := skipWS_split buf
    unfold jsonUnmarshalMap at h
    split at h
    · cases h
    · rename_i c rest hs
      split at h
      · rename_i hc
        subst hc
        right
        obtain ⟨w1, hw1, e1⟩ := skipWS_split rest
        split at h
        · cases h
        · rename_i d rest2 hs2
          refine ⟨w0, w1, d :: rest2, hw0, hw1, by rw [← hs2, ← e1, ← hs, ← e0], ?_⟩
          split at h
          · rename_i hd
            subst hd
            split at h
            · rename_i hw
              exact Or.inl ⟨rest2, (skipWS_eq_nil _).mp hw, rfl⟩
            · cases h
          · cases hm : jsonMembers buf.length (d :: rest2) [] with
            | none => rw [hm] at h; cases h
            | some m => exact Or.inr (jsonMembers_sound _ _ _ _ hm)
      · left
        split at h
        · rename_i n u l1 l2 rest2 heq
          split at h
          · rename_i hn
            obtain ⟨e1, e2, e3, e4, e5⟩ := hn
            subst e1 e2 e3 e4
            refine ⟨w0, rest2, hw0, (skipWS_eq_nil _).mp e5, ?_⟩
            rw [← heq, ← hs, ← e0]
          · cases h
        · cases h
  · rintro (⟨w0, w1, hw0, hw1, e⟩ | ⟨w0, w1, rest, hw0, hw1, e, hrest⟩)
    · subst e
      unfold jsonUnmarshalMap
      rw [skipWS_token w0 110 _ hw0 (by decide)]
      simp [(skipWS_eq_nil w1).mpr hw1]
    · unfold jsonUnmarshalMap
      rw [e, skipWS_token w0 123 _ hw0 (by decide)]
      simp only [if_true]
      rcases hrest with ⟨w2, hw2, e2⟩ | hm
      · rw [e2, skipWS_token w1 125 _ hw1 (by decide)]
        simp [(skipWS_eq_nil w2).mpr hw2]
      · obtain ⟨t, ht⟩ := MembersText_head hm
        subst ht
        rw [skipWS_token w1 34 _ hw1 (by decide)]
        simp only [show ¬ (34 : Nat) = 125 by decide, if_false]
        obtain ⟨m1, h1⟩ := jsonMembers_complete hm
          (w0 ++ 123 :: (w1 ++ 34 :: t)).length [] (by simp; omega)
        rw [h1]
        rfl

/-- The literal `null` gives the empty map. -/
theorem jsonUnmarshalMap_null {buf : GoString} (h : NullText buf) :
    jsonUnmarshalMap buf = some [] := by
  obtain ⟨w0, w1, hw0, hw1, e⟩ := h
  subst e
  unfold jsonUnmarshalMap
  rw [skipWS_token w0 110 _ hw0 (by decide)]
  simp [(skipWS_eq_nil w1).mpr hw1]

/-! ## The encoded parameters -/

/-- The values `decodeJSONB64` decodes are the values that stand for a
mapping. -/
theorem decodeJSONB64_ok_iff (v : GoString) :
    (∃ m, decodeJSONB64 v = .ok m) ↔ EncodedStringMap v := by
  unfold decodeJSONB64 EncodedStringMap
  rw [← b64Decode_isSome]
  cases hb : b64Decode v with
  | none => simp
  | some buf =>
      simp only [Option.isSome_some, true_and, Option.some.injEq, exists_eq_left']
      rw [← jsonUnmarshalMap_isSome]
      cases hj : jsonUnmarshalMap buf with
      | none => simp
      | some m => simp

theorem decodeJSONB64_error (v : GoString) (h : ¬ EncodedStringMap v) :
    decodeJSONB64 v = .error .corruptBase64 ∨ decodeJSONB64 v = .error .invalidJSON := by
  rw [← decodeJSONB64_ok_iff] at h
  unfold decodeJSONB64 at h ⊢
  cases hb : b64Decode v with
  | none => exact Or.inl rfl
  | some buf =>
      rw [hb] at h
      simp only [] at h ⊢
      cases hj : jsonUnmarshalMap buf with
      | none => exact Or.inr rfl
      | some m =>
          rw [hj] at h
          exact absurd ⟨m, rfl⟩ h

theorem decodeJSONB64_ok {v : GoString} {m : GoMap} (h : decodeJSONB64 v = .ok m) :
    ∃ buf, b64Decode v = some buf ∧ jsonUnmarshalMap buf = some m := by
  unfold decodeJSONB64 at h
  cases hb : b64Decode v with
  | none => rw [hb] at h; cases h
  | some buf =>
      rw [hb] at h
      simp only [] at h
      cases hj : jsonUnmarshalMap buf with
      | none => rw [hj] at h; cases h
      | some m1 =>
          rw [hj] at h
          simp only [Except.ok.injEq] at h
          subst h
          exact ⟨buf, rfl, hj⟩

/-- C6, the claim as stated fails, in three ways.  The `env` value `bnVsbA`
decodes to the bytes `null`, which are not a JSON object, and `ParseDSN`
accepts the DSN with an empty `Env`.  The `env` value `eyJhIjpudWxsfQ` decodes
to an object whose member `a` has the value `null`, which is not a string,
and `ParseDSN` accepts the DSN with the empty string for `a`.  The `env`
value written `e3%0A0` holds a line feed, which is no character of the
base64 alphabet, and `ParseDSN` accepts the DSN, decoding the value as `e30`. -/
theorem ParseDSN_env_null :
    (b64Decode (lit "bnVsbA") = some (lit "null") ∧ beginsObject (lit "null") = false ∧
      ParseDSN (lit "a:b@c?env=bnVsbA&with=e30&curr_project=p") =
        .ok ⟨lit "a", lit "b", lit "c", lit "http", [], [], false, lit "p"⟩) ∧
    (b64Decode (lit "eyJhIjpudWxsfQ") = some (lit "\x7b\"a\":null\x7d") ∧
      ParseDSN (lit "a:b@c?env=eyJhIjpudWxsfQ&with=e30&curr_project=p") =
        .ok ⟨lit "a", lit "b", lit "c", lit "http", [(lit "a", [])], [], false, lit "p"⟩) ∧
    (parseQuery (lit "env=e3%0A0&with=e30&curr_project=p") =
        some [(lit "env", [101, 51, 10, 48]), (lit "with", lit "e30"),
          (lit "curr_project", lit "p")] ∧
      validRawURLBase64 [101, 51, 10, 48] = false ∧
      ParseDSN (lit "a:b@c?env=e3%0A0&with=e30&curr_project=p") =
        .ok ⟨lit "a", lit "b", lit "c", lit "http", [], [], false, lit "p"⟩) := by
  decide

/-- C6, amended: for every DSN that matches `reDSN`, whose query parses and
holds the three required keys with non-empty values.  When the `env` or the
`with` value is not, once `\r` and `\n` are taken out, valid unpadded
URL-safe base64, or the bytes it decodes to are neither the JSON literal
`null` nor a JSON object whose member values are strings or `null`,
`ParseDSN` returns no Config but the error of the decoder.  When both values
are such encodings, `ParseDSN` returns a Config whose `Env` and `With` are
the maps decoded from their bytes.  There `null` gives the empty map, a
member with the value `null` the empty string, the text of an object of plain
pairs with pairwise different keys exactly these pairs, and what
`encodeJSONB64` writes for such a map is such an encoding and gives back the
pairs of the map.  A character outside the alphabet (`e*0`), a padding
character (`e30=`), a member value that is a number (`eyJhIjoxfQ`) and an array
(`W10`) are rejected. -/
theorem ParseDSN_encoded (dsn pid ps purl q : GoString) (kvs : Values)
    (hre : reDSN dsn = some (pid, ps, purl, q)) (hq : parseQuery q = some kvs)
    (hreq : ∀ k ∈ [lit "env", lit "with", lit "curr_project"], Values.Get kvs k ≠ []) :
    ((¬ EncodedStringMap (Values.Get kvs (lit "env")) ∨
        ¬ EncodedStringMap (Values.Get kvs (lit "with"))) →
        ParseDSN dsn = .error .corruptBase64 ∨ ParseDSN dsn = .error .invalidJSON) ∧
      (EncodedStringMap (Values.Get kvs (lit "env")) →
        EncodedStringMap (Values.Get kvs (lit "with")) →
        ∃ C b1 b2, ParseDSN dsn = .ok C ∧
          b64Decode (Values.Get kvs (lit "env")) = some b1 ∧ jsonUnmarshalMap b1 = some C.Env ∧
          b64Decode (Values.Get kvs (lit "with")) = some b2 ∧
          jsonUnmarshalMap b2 = some C.With) ∧
      (∀ buf, NullText buf → jsonUnmarshalMap buf = some []) ∧
      jsonUnmarshalMap (lit "\x7b\"a\":null\x7d") = some [(lit "a", [])] ∧
      (∀ m : GoMap, plainMap m → jsonUnmarshalMap (renderObject m) = some m) ∧
      (∀ m : GoMap, plainMap m → EncodedStringMap (encodeJSONB64 m) ∧
        decodeJSONB64 (encodeJSONB64 m) = .ok (sortedPairs m)) ∧
      decodeJSONB64 (lit "e*0") = .error .corruptBase64 ∧
      decodeJSONB64 (lit "e30=") = .error .corruptBase64 ∧
      (b64Decode (lit "eyJhIjoxfQ") = some (lit "\x7b\"a\":1\x7d") ∧
        decodeJSONB64 (lit "eyJhIjoxfQ") = .error .invalidJSON) ∧
      (b64Decode (lit "W10") = some (lit "[]") ∧
        decodeJSONB64 (lit "W10") = .error .invalidJSON) := by
  have hm := firstMissing_of_ne hreq
  have henv : ∀ e, decodeJSONB64 (Values.Get kvs (lit "env")) = .error e →
      ParseDSN dsn = .error e := by
    intro e he
    unfold ParseDSN
    simp only [hre, hq, hm, he]
  have hwith : ∀ m e, decodeJSONB64 (Values.Get kvs (lit "env")) = .ok m →
      decodeJSONB64 (Values.Get kvs (lit "with")) = .error e → ParseDSN dsn = .error e := by
    intro m e he hw
    unfold ParseDSN
    simp only [hre, hq, hm, he, hw]
  refine ⟨?_, ?_, fun buf h => jsonUnmarshalMap_null h, by decide,
    fun m hm => jsonUnmarshalMap_renderObject m hm.1 hm.2, ?_, by decide, by decide, by decide,
    by decide⟩
  · intro hfail
    by_cases h1 : EncodedStringMap (Values.Get kvs (lit "env"))
    · obtain ⟨m1, hm1⟩ := (decodeJSONB64_ok_iff _).mpr h1
      have h2 : ¬ EncodedStringMap (Values.Get kvs (lit "with")) := by
        rcases hfail with hf | hf
        · exact absurd h1 hf
        · exact hf
      rcases decodeJSONB64_error _ h2 with hw | hw
      · exact Or.inl (hwith _ _ hm1 hw)
      · exact Or.inr (hwith _ _ hm1 hw)
    · rcases decodeJSONB64_error _ h1 with he | he
      · exact Or.inl (henv _ he)
      · exact Or.inr (henv _ he)
  · intro h1 h2
    obtain ⟨m1, hm1⟩ := (decodeJSONB64_ok_iff _).mpr h1
    obtain ⟨m2, hm2⟩ := (decodeJSONB64_ok_iff _).mpr h2
    obtain ⟨b1, d1, j1⟩ := decodeJSONB64_ok hm1
    obtain ⟨b2, d2, j2⟩ := decodeJSONB64_ok hm2
    exact ⟨_, b1, b2, ParseDSN_eq_of hre hq hm hm1 hm2, d1, j1, d2, j2⟩
  · intro m hp
    have := decodeJSONB64_encodeJSONB64 m hp
    exact ⟨(decodeJSONB64_ok_iff _).mp ⟨_, this⟩, this⟩

theorem ParseDSN_encoded_witness :
    ParseDSN (lit "a:b@c?env=e30&with=e*0&curr_project=p") = .error .corruptBase64 ∨
      ParseDSN (lit "a:b@c?env=e30&with=e*0&curr_project=p") = .error .invalidJSON :=
  (ParseDSN_encoded (lit "a:b@c?env=e30&with=e*0&curr_project=p") (lit "a") (lit "b") (lit "c")
    (lit "env=e30&with=e*0&curr_project=p")
    [(lit "env", lit "e30"), (lit "with", lit "e*0"), (lit "curr_project", lit "p")]
    (by decide) (by decide) (by decide)).1
    (Or.inr (fun h => absurd h.1 (by decide)))

/-! ## The quiet tracker -/

theorem quiet_loop {σ ρ ε : Type} (ali : Alisa σ ρ ε) (taskID : GoString) (re : Bool) :
    ∀ (fetched pre : List TaskStatus) (st0 : TaskStatus) (s0 s1 : σ) (tr : List Event) (fuel : Nat),
      st0 :: fetched = pre ++ [TaskStatus.completed] →
      (∀ st ∈ pre, completed st = false) →
      Polls ali taskID s0 fetched s1 →
      fetched.length ≤ fuel →
      trackingTaskQuietly ali taskID re fuel st0 ⟨s0, tr⟩ =
        some (fetchResults ali taskID re ⟨s1, tr ++ quietRounds taskID fetched⟩) := by
  intro fetched
  induction fetched with
  | nil =>
      intro pre st0 s0 s1 tr fuel hseq _ hpoll _
      have hst : st0 = TaskStatus.completed := by
        cases pre with
        | nil => simpa using hseq
        | cons a t =>
            have := congrArg List.length hseq
            simp at this
      subst hst
      simp only [Polls] at hpoll
      subst hpoll
      unfold trackingTaskQuietly
      simp [completed, quietRounds]
  | cons st1 rest ih =>
      intro pre st0 s0 s1 tr fuel hseq hpre hpoll hfuel
      cases pre with
      | nil =>
          have := congrArg List.length hseq
          simp at this
      | cons a pre1 =>
          simp only [List.cons_append, List.cons.injEq] at hseq
          obtain ⟨ha, hrest⟩ := hseq
          subst ha
          have hst0 : completed st0 = false := hpre st0 (List.mem_cons_self _ _)
          cases fuel with
          | zero => simp at hfuel
          | succ n =>
              simp only [Polls] at hpoll
              obtain ⟨hget, hpoll1⟩ := hpoll
              have hn : rest.length ≤ n := by simpa using hfuel
              have hrec := ih pre1 st1 (ali.getStatus taskID s0).2 s1
                (tr ++ [Event.sleep waitInteveral, Event.getStatus taskID]) n hrest
                (fun st hst => hpre st (List.mem_cons_of_mem _ hst)) hpoll1 hn
              unfold trackingTaskQuietly
              simp only [hst0, Bool.false_eq_true, if_false]
              have hpair : ali.getStatus taskID s0 = (Except.ok st1, (ali.getStatus taskID s0).2) := by
                rw [← hget]
              rw [hpair]
              simp only []
              rw [hrec]
              simp [quietRounds]

/-- C10: in the quiet tracker, when the statuses seen (the initial one, then
the fetched ones) are non-finished statuses followed by Completed and no
fetch fails, then with `resultExpected = true` the run is the rounds of the
loop followed by exactly one `getResults` call with batch size 20, made in
the state the last `getStatus` call left, and the tracker returns that call's
result and error; with `resultExpected = false` the run ends after the loop
with no `getResults` call, no result and no error. -/
theorem trackingTaskQuietly_success {σ ρ ε : Type} (ali : Alisa σ ρ ε) (taskID : GoString)
    (fetched pre : List TaskStatus) (st0 : TaskStatus) (s0 s1 : σ) (tr : List Event) (fuel : Nat)
    (hseq : st0 :: fetched = pre ++ [TaskStatus.completed])
    (hpre : ∀ st ∈ pre, completed st = false)
    (hpoll : Polls ali taskID s0 fetched s1)
    (hfuel : fetched.length ≤ fuel) :
    trackingTaskQuietly ali taskID true fuel st0 ⟨s0, tr⟩ =
        some ((ali.getResults taskID 20 s1).1,
          ⟨(ali.getResults taskID 20 s1).2,
            tr ++ quietRounds taskID fetched ++ [Event.getResults taskID 20]⟩) ∧
      trackingTaskQuietly ali taskID false fuel st0 ⟨s0, tr⟩ =
        some ((none, none), ⟨s1, tr ++ quietRounds taskID fetched⟩) ∧
      (∀ e ∈ quietRounds taskID fetched, ∀ b, e ≠ Event.getResults taskID b) := by
  refine ⟨?_, ?_, ?_⟩
  · rw [quiet_loop ali taskID true fetched pre st0 s0 s1 tr fuel hseq hpre hpoll hfuel]
    simp [fetchResults, readResultsBatch]
  · rw [quiet_loop ali taskID false fetched pre st0 s0 s1 tr fuel hseq hpre hpoll hfuel]
    simp [fetchResults]
  · clear hseq hpoll hfuel
    induction fetched with
    | nil => simp [quietRounds]
    | cons a t ih => simpa [quietRounds] using ih

theorem trackingTaskQuietly_success_witness :
    trackingTaskQuietly scripted (lit "t") true 2 TaskStatus.waiting
        ⟨[TaskStatus.running, TaskStatus.completed], []⟩ =
      some ((some 7, none),
        ⟨[], [Event.sleep 2, Event.getStatus (lit "t"), Event.sleep 2, Event.getStatus (lit "t"),
              Event.getResults (lit "t") 20]⟩) :=
  (trackingTaskQuietly_success scripted (lit "t") [TaskStatus.running, TaskStatus.completed]
    [TaskStatus.waiting, TaskStatus.running] TaskStatus.waiting
    [TaskStatus.running, TaskStatus.completed] [] [] 2 rfl (by decide)
    ⟨rfl, rfl, rfl⟩ (by decide)).1

/-! ## The trackers, round by round -/

theorem trackingTaskWithLog_zero {σ ρ ε : Type} (ali : Alisa σ ρ ε) (taskID : GoString)
    (re : Bool) (st : TaskStatus) (off : Int) (w : World σ) (h : completed st = false) :
    trackingTaskWithLog ali taskID re 0 st off w = none := by
  show (if completed st = true then _ else none) = none
  simp only [h, Bool.false_eq_true, if_false]

theorem trackingTaskWithLog_finished {σ ρ ε : Type} (ali : Alisa σ ρ ε) (taskID : GoString)
    (re : Bool) (fuel : Nat) (st : TaskStatus) (off : Int) (w : World σ)
    (h : completed st = true) :
    trackingTaskWithLog ali taskID re fuel st off w = some (logFinish ali taskID re st off w) := by
  have key : ∀ x : Option (Outcome ρ ε × World σ),
      (if completed st = true then
        if st = .expired then
          some ((none, some (.invalidTaskStatus st)),
            ⟨w.remote, w.trace ++ [.println (lit "waiting for resources timeout")]⟩)
        else if off ≥ 0 then
          match ali.readLogs taskID off w.remote with
          | (.error err, s) => some ((none, some err), ⟨s, w.trace ++ [.readLogs taskID off]⟩)
          | (.ok _, s) =>
              if st = .completed then
                some (fetchResults ali taskID re ⟨s, w.trace ++ [.readLogs taskID off]⟩)
              else
                some ((none, some (.invalidTaskStatus st)),
                  ⟨s, w.trace ++ [.readLogs taskID off]⟩)
        else if st = .completed then some (fetchResults ali taskID re w)
        else some ((none, some (.invalidTaskStatus st)), w)
      else x) = some (logFinish ali taskID re st off w) := by
    intro x
    simp only [h, if_true]
    unfold logFinish
    split_ifs
    · rfl
    · cases hr : ali.readLogs taskID off w.remote with
      | mk a s => cases a <;> rfl
    · cases hr : ali.readLogs taskID off w.remote with
      | mk a s => cases a <;> rfl
    · rfl
    · rfl
  cases fuel with
  | zero => exact key _
  | succ n => exact key _


theorem trackingTaskWithLog_round {σ ρ ε : Type} (ali : Alisa σ ρ ε) (taskID : GoString)
    (re : Bool) (fuel : Nat) (st : TaskStatus) (off : Int) (w : World σ)
    (h : completed st = false) :
    trackingTaskWithLog ali taskID re (fuel + 1) st off w =
      match logRound ali taskID st off w with
      | .error r => some r
      | .ok (st1, off1, w1) => trackingTaskWithLog ali taskID re fuel st1 off1 w1 := by
  have key : ∀ x : Option (Outcome ρ ε × World σ),
      (if completed st = true then x
      else
        if st = .waiting ∨ st = .allocate then
          match ali.getStatus taskID w.remote with
          | (.error err, s) =>
              some ((none, some err),
                ⟨s, (w.trace ++ [.println (lit "waiting for resources")]) ++
                  [.sleep waitInteveral, .getStatus taskID]⟩)
          | (.ok status, s) =>
              trackingTaskWithLog ali taskID re fuel status off
                ⟨s, (w.trace ++ [.println (lit "waiting for resources")]) ++
                  [.sleep waitInteveral, .getStatus taskID]⟩
        else if st = .running ∧ off ≥ 0 then
          match ali.readLogs taskID off w.remote with
          | (.error err, s) =>
              some ((none, some err), ⟨s, w.trace ++ [.readLogs taskID off]⟩)
          | (.ok logOffset1, s) =>
              match ali.getStatus taskID s with
              | (.error err, s1) =>
                  some ((none, some err),
                    ⟨s1, (w.trace ++ [.readLogs taskID off]) ++
                      [.sleep waitInteveral, .getStatus taskID]⟩)
              | (.ok status, s1) =>
                  trackingTaskWithLog ali taskID re fuel status logOffset1
                    ⟨s1, (w.trace ++ [.readLogs taskID off]) ++
                      [.sleep waitInteveral, .getStatus taskID]⟩
        else
          match ali.getStatus taskID w.remote with
          | (.error err, s) =>
              some ((none, some err), ⟨s, w.trace ++ [.sleep waitInteveral, .getStatus taskID]⟩)
          | (.ok status, s) =>
              trackingTaskWithLog ali taskID re fuel status off
                ⟨s, w.trace ++ [.sleep waitInteveral, .getStatus taskID]⟩) =
      match logRound ali taskID st off w with
      | .error r => some r
      | .ok (st1, off1, w1) => trackingTaskWithLog ali taskID re fuel st1 off1 w1 := by
    intro x
    simp only [h, Bool.false_eq_true, if_false]
    unfold logRound
    simp only []
    split_ifs
    · cases hg : ali.getStatus taskID w.remote with
      | mk a s => cases a <;> rfl
    · cases hr : ali.readLogs taskID off w.remote with
      | mk a s =>
          cases a with
          | error e => rfl
          | ok o =>
              simp only []
              cases hg : ali.getStatus taskID s with
              | mk a1 s1 => cases a1 <;> rfl
    · cases hg : ali.getStatus taskID w.remote with
      | mk a s => cases a <;> rfl
  exact key _

theorem trackingTaskQuietly_finished {σ ρ ε : Type} (ali : Alisa σ ρ ε) (taskID : GoString)
    (re : Bool) (fuel : Nat) (st : TaskStatus) (w : World σ) (h : completed st = true) :
    trackingTaskQuietly ali taskID re fuel st w = some (quietFinish ali taskID re st w) := by
  rw [trackingTaskQuietly.eq_def]
  simp only [h, if_true]
  unfold quietFinish
  split_ifs <;> rfl

theorem trackingTaskQuietly_zero {σ ρ ε : Type} (ali : Alisa σ ρ ε) (taskID : GoString)
    (re : Bool) (st : TaskStatus) (w : World σ) (h : completed st = false) :
    trackingTaskQuietly ali taskID re 0 st w = none := by
  rw [trackingTaskQuietly.eq_def]
  simp only [h, Bool.false_eq_true, if_false]

theorem trackingTaskQuietly_round {σ ρ ε : Type} (ali : Alisa σ ρ ε) (taskID : GoString)
    (re : Bool) (fuel : Nat) (st : TaskStatus) (w : World σ) (h : completed st = false) :
    trackingTaskQuietly ali taskID re (fuel + 1) st w =
      match ali.getStatus taskID w.remote with
      | (.error err, s) =>
          some ((none, some err), ⟨s, w.trace ++ [.sleep waitInteveral, .getStatus taskID]⟩)
      | (.ok st1, s) =>
          trackingTaskQuietly ali taskID re fuel st1
            ⟨s, w.trace ++ [.sleep waitInteveral, .getStatus taskID]⟩ := by
  rw [trackingTaskQuietly.eq_def]
  simp only [h, Bool.false_eq_true, if_false]

/-! ## The rounds of the quiet tracker -/

theorem statusCalls_append (a b : List Event) :
    statusCalls (a ++ b) = statusCalls a + statusCalls b := by
  induction a with
  | nil => simp [statusCalls]
  | cons e t ih =>
      rw [List.cons_append]
      cases e <;> simp only [statusCalls, ih]
      omega

theorem sleeps_append (a b : List Event) : sleeps (a ++ b) = sleeps a ++ sleeps b := by
  induction a with
  | nil => simp [sleeps]
  | cons e t ih =>
      rw [List.cons_append]
      cases e <;> simp only [sleeps, ih, List.cons_append]

theorem resultCalls_append (a b : List Event) :
    resultCalls (a ++ b) = resultCalls a + resultCalls b := by
  induction a with
  | nil => simp [resultCalls]
  | cons e t ih =>
      rw [List.cons_append]
      cases e <;> simp only [resultCalls, ih]
      omega

theorem readOffsets_append (a b : List Event) :
    readOffsets (a ++ b) = readOffsets a ++ readOffsets b := by
  induction a with
  | nil => simp [readOffsets]
  | cons e t ih =>
      rw [List.cons_append]
      cases e <;> simp only [readOffsets, ih, List.cons_append]

theorem quietRounds_counts (taskID : GoString) (fetched : List TaskStatus) :
    statusCalls (quietRounds taskID fetched) = fetched.length ∧
      sleeps (quietRounds taskID fetched) = List.replicate fetched.length waitInteveral ∧
      resultCalls (quietRounds taskID fetched) = 0 ∧
      readOffsets (quietRounds taskID fetched) = [] := by
  induction fetched with
  | nil => simp [quietRounds, statusCalls, sleeps, resultCalls, readOffsets]
  | cons a t ih =>
      simp [quietRounds, statusCalls, sleeps, resultCalls, readOffsets, ih, List.replicate_succ]

theorem pair_eq_of_fst {α β : Type} {p : α × β} {a : α} (h : p.1 = a) : p = (a, p.2) := by
  cases p
  simp only at h
  rw [h]

/-- The quiet loop on statuses that are fetched without an error: after one
round per fetched status the tracker is at the last status. -/
theorem quiet_polls {σ ρ ε : Type} (ali : Alisa σ ρ ε) (taskID : GoString) (re : Bool) :
    ∀ (fetched pre : List TaskStatus) (st0 fin : TaskStatus) (s0 s1 : σ) (tr : List Event)
      (fuel : Nat),
      st0 :: fetched = pre ++ [fin] →
      (∀ st ∈ pre, completed st = false) →
      Polls ali taskID s0 fetched s1 →
      trackingTaskQuietly ali taskID re (fetched.length + fuel) st0 ⟨s0, tr⟩ =
        trackingTaskQuietly ali taskID re fuel fin ⟨s1, tr ++ quietRounds taskID fetched⟩ := by
  intro fetched
  induction fetched with
  | nil =>
      intro pre st0 fin s0 s1 tr fuel hseq _ hpoll
      have hst : st0 = fin := by
        cases pre with
        | nil => simpa using hseq
        | cons a t =>
            have := congrArg List.length hseq
            simp at this
      subst hst
      simp only [Polls] at hpoll
      subst hpoll
      simp [quietRounds]
  | cons st1 rest ih =>
      intro pre st0 fin s0 s1 tr fuel hseq hpre hpoll
      cases pre with
      | nil =>
          have := congrArg List.length hseq
          simp at this
      | cons a pre1 =>
          simp only [List.cons_append, List.cons.injEq] at hseq
          obtain ⟨ha, hrest⟩ := hseq
          subst ha
          have hst0 : completed st0 = false := hpre st0 (List.mem_cons_self _ _)
          simp only [Polls] at hpoll
          obtain ⟨hget, hpoll1⟩ := hpoll
          have e : (st1 :: rest).length + fuel = (rest.length + fuel) + 1 := by
            simp only [List.length_cons]; omega
          rw [e, trackingTaskQuietly_round ali taskID re _ st0 _ hst0]
          simp only []
          rw [pair_eq_of_fst hget]
          simp only []
          rw [ih pre1 st1 fin _ s1 _ fuel hrest
            (fun st hst => hpre st (List.mem_cons_of_mem _ hst)) hpoll1]
          simp [quietRounds]

/-- The quiet loop is still going when the rounds allowed are fewer than the
statuses to fetch before a finished one. -/
theorem quiet_polls_short {σ ρ ε : Type} (ali : Alisa σ ρ ε) (taskID : GoString) (re : Bool) :
    ∀ (fetched pre : List TaskStatus) (st0 fin : TaskStatus) (s0 s1 : σ) (tr : List Event)
      (fuel : Nat),
      st0 :: fetched = pre ++ [fin] →
      (∀ st ∈ pre, completed st = false) →
      Polls ali taskID s0 fetched s1 →
      fuel < fetched.length →
      trackingTaskQuietly ali taskID re fuel st0 ⟨s0, tr⟩ = none := by
  intro fetched
  induction fetched with
  | nil => intro pre st0 fin s0 s1 tr fuel _ _ _ hf; simp at hf
  | cons st1 rest ih =>
      intro pre st0 fin s0 s1 tr fuel hseq hpre hpoll hf
      cases pre with
      | nil =>
          have := congrArg List.length hseq
          simp at this
      | cons a pre1 =>
          simp only [List.cons_append, List.cons.injEq] at hseq
          obtain ⟨ha, hrest⟩ := hseq
          subst ha
          have hst0 : completed st0 = false := hpre st0 (List.mem_cons_self _ _)
          simp only [Polls] at hpoll
          obtain ⟨hget, hpoll1⟩ := hpoll
          cases fuel with
          | zero => exact trackingTaskQuietly_zero ali taskID re st0 _ hst0
          | succ n =>
              rw [trackingTaskQuietly_round ali taskID re _ st0 _ hst0]
              simp only []
              rw [pair_eq_of_fst hget]
              simp only []
              exact ih pre1 st1 fin _ s1 _ n hrest
                (fun st hst => hpre st (List.mem_cons_of_mem _ hst)) hpoll1
                (by simp only [List.length_cons] at hf; omega)

/-! ## The rounds of the logging tracker -/

theorem logRound_notice {σ ρ ε : Type} (ali : Alisa σ ρ ε) (taskID : GoString)
    (st st1 : TaskStatus) (off : Int) (w : World σ) (h : st = .waiting ∨ st = .allocate)
    (hg : (ali.getStatus taskID w.remote).1 = .ok st1) :
    logRound ali taskID st off w = .ok (st1, off, ⟨(ali.getStatus taskID w.remote).2,
      w.trace ++ [.println (lit "waiting for resources"), .sleep waitInteveral,
        .getStatus taskID]⟩) := by
  unfold logRound
  simp only [h, if_true]
  rw [pair_eq_of_fst hg]
  simp

theorem logRound_read {σ ρ ε : Type} (ali : Alisa σ ρ ε) (taskID : GoString)
    (st1 : TaskStatus) (off o : Int) (w : World σ) (hoff : off ≥ 0)
    (hr : (ali.readLogs taskID off w.remote).1 = .ok o)
    (hg : (ali.getStatus taskID (ali.readLogs taskID off w.remote).2).1 = .ok st1) :
    logRound ali taskID .running off w =
      .ok (st1, o, ⟨(ali.getStatus taskID (ali.readLogs taskID off w.remote).2).2,
        w.trace ++ [.readLogs taskID off, .sleep waitInteveral, .getStatus taskID]⟩) := by
  unfold logRound
  simp only [hoff, reduceCtorEq, or_self, if_false, and_self, if_true]
  rw [pair_eq_of_fst hr]
  simp only []
  rw [pair_eq_of_fst hg]
  simp

theorem logRound_skip {σ ρ ε : Type} (ali : Alisa σ ρ ε) (taskID : GoString)
    (st st1 : TaskStatus) (off : Int) (w : World σ) (h1 : ¬ (st = .waiting ∨ st = .allocate))
    (h2 : ¬ (st = .running ∧ off ≥ 0))
    (hg : (ali.getStatus taskID w.remote).1 = .ok st1) :
    logRound ali taskID st off w = .ok (st1, off, ⟨(ali.getStatus taskID w.remote).2,
      w.trace ++ [.sleep waitInteveral, .getStatus taskID]⟩) := by
  unfold logRound
  simp only [h1, h2, if_false]
  rw [pair_eq_of_fst hg]

theorem logRound_readError {σ ρ ε : Type} (ali : Alisa σ ρ ε) (taskID : GoString)
    (off : Int) (err : GoError ε) (w : World σ) (hoff : off ≥ 0)
    (hr : (ali.readLogs taskID off w.remote).1 = .error err) :
    logRound ali taskID .running off w =
      .error ((none, some err), ⟨(ali.readLogs taskID off w.remote).2,
        w.trace ++ [.readLogs taskID off]⟩) := by
  unfold logRound
  simp only [hoff, reduceCtorEq, or_self, if_false, and_self, if_true]
  rw [pair_eq_of_fst hr]

theorem logRound_statusError {σ ρ ε : Type} (ali : Alisa σ ρ ε) (taskID : GoString)
    (st : TaskStatus) (off : Int) (err : GoError ε) (w : World σ)
    (h2 : ¬ (st = .running ∧ off ≥ 0))
    (hg : (ali.getStatus taskID w.remote).1 = .error err) :
    logRound ali taskID st off w =
      .error ((none, some err), ⟨(ali.getStatus taskID w.remote).2,
        w.trace ++ ((if st = .waiting ∨ st = .allocate then
          [.println (lit "waiting for resources")] else []) ++
          [.sleep waitInteveral, .getStatus taskID])⟩) := by
  unfold logRound
  by_cases h1 : st = .waiting ∨ st = .allocate
  · simp only [h1, if_true]
    rw [pair_eq_of_fst hg]
    simp
  · simp only [h1, h2, if_false]
    rw [pair_eq_of_fst hg]
    simp

theorem logRound_readStatusError {σ ρ ε : Type} (ali : Alisa σ ρ ε) (taskID : GoString)
    (off o : Int) (err : GoError ε) (w : World σ) (hoff : off ≥ 0)
    (hr : (ali.readLogs taskID off w.remote).1 = .ok o)
    (hg : (ali.getStatus taskID (ali.readLogs taskID off w.remote).2).1 = .error err) :
    logRound ali taskID .running off w =
      .error ((none, some err), ⟨(ali.getStatus taskID (ali.readLogs taskID off w.remote).2).2,
        w.trace ++ [.readLogs taskID off, .sleep waitInteveral, .getStatus taskID]⟩) := by
  unfold logRound
  simp only [hoff, reduceCtorEq, or_self, if_false, and_self, if_true]
  rw [pair_eq_of_fst hr]
  simp only []
  rw [pair_eq_of_fst hg]
  simp


/-- The logging loop on rounds that the service answers without an error:
after one round per fetched status the tracker is at the last status, with
the log offset the rounds leave. -/
theorem log_polls {σ ρ ε : Type} (ali : Alisa σ ρ ε) (taskID : GoString) (re : Bool) :
    ∀ (fetched pre : List TaskStatus) (st0 fin : TaskStatus) (s0 s1 : σ) (off0 off1 : Int)
      (las : List Int) (tr : List Event) (fuel : Nat),
      st0 :: fetched = pre ++ [fin] →
      (∀ st ∈ pre, completed st = false) →
      LogPolls ali taskID s0 off0 st0 fetched las s1 off1 →
      trackingTaskWithLog ali taskID re (fetched.length + fuel) st0 off0 ⟨s0, tr⟩ =
        trackingTaskWithLog ali taskID re fuel fin off1
          ⟨s1, tr ++ logRounds taskID off0 st0 fetched las⟩ := by
  intro fetched
  induction fetched with
  | nil =>
      intro pre st0 fin s0 s1 off0 off1 las tr fuel hseq _ hpoll
      have hst : st0 = fin := by
        cases pre with
        | nil => simpa using hseq
        | cons a t =>
            have := congrArg List.length hseq
            simp at this
      subst hst
      simp only [LogPolls] at hpoll
      obtain ⟨-, h1, h2⟩ := hpoll
      subst h1 h2
      simp [logRounds]
  | cons st1 rest ih =>
      intro pre st0 fin s0 s1 off0 off1 las tr fuel hseq hpre hpoll
      cases pre with
      | nil =>
          have := congrArg List.length hseq
          simp at this
      | cons a pre1 =>
          simp only [List.cons_append, List.cons.injEq] at hseq
          obtain ⟨ha, hrest⟩ := hseq
          subst ha
          have hst0 : completed st0 = false := hpre st0 (List.mem_cons_self _ _)
          have hpre1 : ∀ st ∈ pre1, completed st = false :=
            fun st hst => hpre st (List.mem_cons_of_mem _ hst)
          have e : (st1 :: rest).length + fuel = (rest.length + fuel) + 1 := by
            simp only [List.length_cons]; omega
          rw [e, trackingTaskWithLog_round ali taskID re _ st0 _ _ hst0]
          simp only [LogPolls] at hpoll
          by_cases hrun : st0 = .running ∧ off0 ≥ 0
          · simp only [hrun, and_self, if_true] at hpoll
            cases las with
            | nil => exact absurd hpoll (by simp)
            | cons o las1 =>
                simp only [] at hpoll
                obtain ⟨hr, hg, hpoll1⟩ := hpoll
                obtain ⟨hrun1, hoff⟩ := hrun
                subst hrun1
                rw [logRound_read ali taskID st1 off0 o _ hoff hr hg]
                simp only []
                rw [ih pre1 st1 fin _ s1 o off1 las1 _ fuel hrest hpre1 hpoll1]
                simp [logRounds, hoff]
          · simp only [hrun, if_false] at hpoll
            obtain ⟨hg, hpoll1⟩ := hpoll
            by_cases hn : st0 = .waiting ∨ st0 = .allocate
            · rw [logRound_notice ali taskID st0 st1 off0 _ hn hg]
              simp only []
              rw [ih pre1 st1 fin _ s1 off0 off1 las _ fuel hrest hpre1 hpoll1]
              simp [logRounds, hn]
            · rw [logRound_skip ali taskID st0 st1 off0 _ hn hrun hg]
              simp only []
              rw [ih pre1 st1 fin _ s1 off0 off1 las _ fuel hrest hpre1 hpoll1]
              simp [logRounds, hn, hrun]

/-- The logging loop is still going when the rounds allowed are fewer than
the statuses to fetch before a finished one. -/
theorem log_polls_short {σ ρ ε : Type} (ali : Alisa σ ρ ε) (taskID : GoString) (re : Bool) :
    ∀ (fetched pre : List TaskStatus) (st0 fin : TaskStatus) (s0 s1 : σ) (off0 off1 : Int)
      (las : List Int) (tr : List Event) (fuel : Nat),
      st0 :: fetched = pre ++ [fin] →
      (∀ st ∈ pre, completed st = false) →
      LogPolls ali taskID s0 off0 st0 fetched las s1 off1 →
      fuel < fetched.length →
      trackingTaskWithLog ali taskID re fuel st0 off0 ⟨s0, tr⟩ = none := by
  intro fetched
  induction fetched with
  | nil => intro pre st0 fin s0 s1 off0 off1 las tr fuel _ _ _ hf; simp at hf
  | cons st1 rest ih =>
      intro pre st0 fin s0 s1 off0 off1 las tr fuel hseq hpre hpoll hf
      cases pre with
      | nil =>
          have := congrArg List.length hseq
          simp at this
      | cons a pre1 =>
          simp only [List.cons_append, List.cons.injEq] at hseq
          obtain ⟨ha, hrest⟩ := hseq
          subst ha
          have hst0 : completed st0 = false := hpre st0 (List.mem_cons_self _ _)
          have hpre1 : ∀ st ∈ pre1, completed st = false :=
            fun st hst => hpre st (List.mem_cons_of_mem _ hst)
          cases fuel with
          | zero => exact trackingTaskWithLog_zero ali taskID re st0 _ _ hst0
          | succ n =>
              have hn' : n < rest.length := by simp only [List.length_cons] at hf; omega
              rw [trackingTaskWithLog_round ali taskID re _ st0 _ _ hst0]
              simp only [LogPolls] at hpoll
              by_cases hrun : st0 = .running ∧ off0 ≥ 0
              · simp only [hrun, and_self, if_true] at hpoll
                cases las with
                | nil => exact absurd hpoll (by simp)
                | cons o las1 =>
                    simp only [] at hpoll
                    obtain ⟨hr, hg, hpoll1⟩ := hpoll
                    obtain ⟨hrun1, hoff⟩ := hrun
                    subst hrun1
                    rw [logRound_read ali taskID st1 off0 o _ hoff hr hg]
                    simp only []
                    exact ih pre1 st1 fin _ s1 o off1 las1 _ n hrest hpre1 hpoll1 hn'
              · simp only [hrun, if_false] at hpoll
                obtain ⟨hg, hpoll1⟩ := hpoll
                by_cases hn : st0 = .waiting ∨ st0 = .allocate
                · rw [logRound_notice ali taskID st0 st1 off0 _ hn hg]
                  simp only []
                  exact ih pre1 st1 fin _ s1 off0 off1 las _ n hrest hpre1 hpoll1 hn'
                · rw [logRound_skip ali taskID st0 st1 off0 _ hn hrun hg]
                  simp only []
                  exact ih pre1 st1 fin _ s1 off0 off1 las _ n hrest hpre1 hpoll1 hn'

/-- What the events of the rounds of the logging loop hold. -/
theorem logRounds_counts {σ ρ ε : Type} (ali : Alisa σ ρ ε) (taskID : GoString) :
    ∀ (fetched : List TaskStatus) (st0 : TaskStatus) (s0 s1 : σ) (off0 off1 : Int)
      (las : List Int),
      LogPolls ali taskID s0 off0 st0 fetched las s1 off1 →
      statusCalls (logRounds taskID off0 st0 fetched las) = fetched.length ∧
        sleeps (logRounds taskID off0 st0 fetched las) =
          List.replicate fetched.length waitInteveral ∧
        resultCalls (logRounds taskID off0 st0 fetched las) = 0 ∧
        readOffsets (logRounds taskID off0 st0 fetched las) ++ [off1] = off0 :: las ∧
        (logRounds taskID off0 st0 fetched las).count
          (.println (lit "waiting for resources timeout")) = 0 := by
  intro fetched
  induction fetched with
  | nil =>
      intro st0 s0 s1 off0 off1 las hpoll
      simp only [LogPolls] at hpoll
      obtain ⟨h0, -, h2⟩ := hpoll
      subst h0 h2
      simp [logRounds, statusCalls, sleeps, resultCalls, readOffsets]
  | cons st1 rest ih =>
      intro st0 s0 s1 off0 off1 las hpoll
      simp only [LogPolls] at hpoll
      have hne : Event.println (lit "waiting for resources") ≠
          Event.println (lit "waiting for resources timeout") := by decide
      by_cases hrun : st0 = .running ∧ off0 ≥ 0
      · simp only [hrun, and_self, if_true] at hpoll
        cases las with
        | nil => exact absurd hpoll (by simp)
        | cons o las1 =>
            simp only [] at hpoll
            obtain ⟨-, -, hpoll1⟩ := hpoll
            obtain ⟨c1, c2, c3, c4, c5⟩ := ih st1 _ s1 o off1 las1 hpoll1
            obtain ⟨hrun1, hoff⟩ := hrun
            subst hrun1
            rw [logRounds]
            simp only [reduceCtorEq, or_self, if_false, hoff, and_self, if_true]
            simp only [statusCalls, sleeps, resultCalls, readOffsets, c1, c2, c3,
              List.length_cons, List.replicate_succ, List.cons_append, c4]
            refine ⟨trivial, trivial, trivial, trivial, ?_⟩
            simp [List.count_cons, c5]
      · simp only [hrun, if_false] at hpoll
        obtain ⟨-, hpoll1⟩ := hpoll
        obtain ⟨c1, c2, c3, c4, c5⟩ := ih st1 _ s1 off0 off1 las hpoll1
        rw [logRounds.eq_def]
        simp only []
        by_cases hn : st0 = .waiting ∨ st0 = .allocate
        · simp only [hn, if_true]
          simp only [statusCalls, sleeps, resultCalls, readOffsets, c1, c2, c3,
            List.length_cons, List.replicate_succ, c4]
          refine ⟨trivial, trivial, trivial, trivial, ?_⟩
          simp [List.count_cons, c5, hne]
        · simp only [hn, hrun, if_false]
          simp only [statusCalls, sleeps, resultCalls, readOffsets, c1, c2, c3,
            List.length_cons, List.replicate_succ, c4]
          refine ⟨trivial, trivial, trivial, trivial, ?_⟩
          simp [List.count_cons, c5]

/-- With log offsets that are never negative, the rounds of the logging loop
read the logs once per status Running. -/
theorem LogPolls_length {σ ρ ε : Type} (ali : Alisa σ ρ ε) (taskID : GoString) :
    ∀ (fetched pre : List TaskStatus) (st0 fin : TaskStatus) (s0 s1 : σ) (off0 off1 : Int)
      (las : List Int),
      st0 :: fetched = pre ++ [fin] →
      LogPolls ali taskID s0 off0 st0 fetched las s1 off1 →
      0 ≤ off0 → (∀ o ∈ las, 0 ≤ o) →
      las.length = pre.count .running ∧ 0 ≤ off1 := by
  intro fetched
  induction fetched with
  | nil =>
      intro pre st0 fin s0 s1 off0 off1 las hseq hpoll h0 _
      have hpre : pre = [] := by
        cases pre with
        | nil => rfl
        | cons a t =>
            have := congrArg List.length hseq
            simp at this
      simp only [LogPolls] at hpoll
      obtain ⟨hl, -, h2⟩ := hpoll
      subst hl h2 hpre
      exact ⟨rfl, h0⟩
  | cons st1 rest ih =>
      intro pre st0 fin s0 s1 off0 off1 las hseq hpoll h0 hlas
      cases pre with
      | nil =>
          have := congrArg List.length hseq
          simp at this
      | cons a pre1 =>
          simp only [List.cons_append, List.cons.injEq] at hseq
          obtain ⟨ha, hrest⟩ := hseq
          subst ha
          simp only [LogPolls] at hpoll
          by_cases hrun : st0 = .running
          · subst hrun
            simp only [h0, ge_iff_le, and_self, if_true] at hpoll
            cases las with
            | nil => exact absurd hpoll (by simp)
            | cons o las1 =>
                simp only [] at hpoll
                obtain ⟨-, -, hpoll1⟩ := hpoll
                have := ih pre1 st1 fin _ s1 o off1 las1 hrest hpoll1
                  (hlas o (List.mem_cons_self _ _))
                  (fun x hx => hlas x (List.mem_cons_of_mem _ hx))
                refine ⟨?_, this.2⟩
                simp only [List.length_cons, this.1, List.count_cons_self]
          · simp only [hrun, false_and, if_false] at hpoll
            obtain ⟨-, hpoll1⟩ := hpoll
            have := ih pre1 st1 fin _ s1 off0 off1 las hrest hpoll1 h0 hlas
            refine ⟨?_, this.2⟩
            rw [this.1, List.count_cons_of_ne (Ne.symm hrun)]

/-! ## The end of a run -/

theorem fetchResults_false {σ ρ ε : Type} (ali : Alisa σ ρ ε) (taskID : GoString) (w : World σ) :
    fetchResults ali taskID false w = ((none, none), w) := by
  simp [fetchResults]

theorem fetchResults_true {σ ρ ε : Type} (ali : Alisa σ ρ ε) (taskID : GoString) (w : World σ) :
    fetchResults ali taskID true w =
      ((ali.getResults taskID 20 w.remote).1,
        ⟨(ali.getResults taskID 20 w.remote).2, w.trace ++ [.getResults taskID 20]⟩) := by
  simp [fetchResults, readResultsBatch]

theorem add_sub_of_le {n m : Nat} (h : n ≤ m) : m = n + (m - n) := by omega

/-- C11: in the quiet tracker, when the statuses seen (the initial one, then
the fetched ones) are non-finished statuses followed by a finished status
other than Completed (so Failed or Expired) and no fetch fails, the run is
the rounds of the loop and nothing more: for either value of
`resultExpected` the tracker returns no result and the invalid-task-status
error that carries the last status, and the run holds no `getResults` call. -/
theorem trackingTaskQuietly_failure {σ ρ ε : Type} (ali : Alisa σ ρ ε) (taskID : GoString)
    (re : Bool) (fetched pre : List TaskStatus) (st0 fin : TaskStatus) (s0 s1 : σ)
    (tr : List Event) (fuel : Nat)
    (hseq : st0 :: fetched = pre ++ [fin])
    (hpre : ∀ st ∈ pre, completed st = false)
    (hfin : completed fin = true) (hne : fin ≠ TaskStatus.completed)
    (hpoll : Polls ali taskID s0 fetched s1)
    (hfuel : fetched.length ≤ fuel) :
    trackingTaskQuietly ali taskID re fuel st0 ⟨s0, tr⟩ =
        some ((none, some (GoError.invalidTaskStatus fin)),
          ⟨s1, tr ++ quietRounds taskID fetched⟩) ∧
      resultCalls (quietRounds taskID fetched) = 0 ∧
      (fin = TaskStatus.failed ∨ fin = TaskStatus.expired) := by
  refine ⟨?_, (quietRounds_counts taskID fetched).2.2.1, ?_⟩
  · rw [add_sub_of_le hfuel, quiet_polls ali taskID re fetched pre st0 fin s0 s1 tr _ hseq hpre
      hpoll, trackingTaskQuietly_finished ali taskID re _ fin _ hfin]
    simp [quietFinish, hne]
  · cases fin <;> simp_all [completed]

theorem trackingTaskQuietly_failure_witness :
    trackingTaskQuietly scripted (lit "t") true 5 TaskStatus.waiting
        ⟨[TaskStatus.running, TaskStatus.failed], []⟩ =
      some ((none, some (GoError.invalidTaskStatus TaskStatus.failed)),
        ⟨[], [Event.sleep 2, Event.getStatus (lit "t"), Event.sleep 2,
          Event.getStatus (lit "t")]⟩) :=
  (trackingTaskQuietly_failure scripted (lit "t") true [TaskStatus.running, TaskStatus.failed]
    [TaskStatus.waiting, TaskStatus.running] TaskStatus.waiting TaskStatus.failed
    [TaskStatus.running, TaskStatus.failed] [] [] 5 rfl (by decide) rfl (by decide)
    ⟨rfl, rfl, rfl⟩ (by decide)).1

/-- C13: in the logging tracker, when the statuses seen are non-finished
statuses followed by Expired and the rounds of the loop meet no error, the
run is the rounds of the loop followed by the line `waiting for resources
timeout` and nothing more: the notice is printed exactly once, no `readLogs`
call follows the loop, the run holds no `getResults` call, and for either
value of `resultExpected` the tracker returns no result and the
invalid-task-status error. -/
theorem trackingTaskWithLog_expired {σ ρ ε : Type} (ali : Alisa σ ρ ε) (taskID : GoString)
    (re : Bool) (fetched pre : List TaskStatus) (st0 : TaskStatus) (s0 s1 : σ)
    (off0 off1 : Int) (las : List Int) (tr : List Event) (fuel : Nat)
    (hseq : st0 :: fetched = pre ++ [TaskStatus.expired])
    (hpre : ∀ st ∈ pre, completed st = false)
    (hpoll : LogPolls ali taskID s0 off0 st0 fetched las s1 off1)
    (hfuel : fetched.length ≤ fuel) :
    trackingTaskWithLog ali taskID re fuel st0 off0 ⟨s0, tr⟩ =
        some ((none, some (GoError.invalidTaskStatus TaskStatus.expired)),
          ⟨s1, tr ++ (logRounds taskID off0 st0 fetched las ++
            [Event.println (lit "waiting for resources timeout")])⟩) ∧
      (logRounds taskID off0 st0 fetched las ++
        [Event.println (lit "waiting for resources timeout")]).count
          (Event.println (lit "waiting for resources timeout")) = 1 ∧
      resultCalls (logRounds taskID off0 st0 fetched las ++
        [Event.println (lit "waiting for resources timeout")]) = 0 ∧
      readOffsets (logRounds taskID off0 st0 fetched las ++
        [Event.println (lit "waiting for resources timeout")]) =
        readOffsets (logRounds taskID off0 st0 fetched las) := by
  obtain ⟨-, -, c3, -, c5⟩ := logRounds_counts ali taskID fetched st0 s0 s1 off0 off1 las hpoll
  refine ⟨?_, ?_, ?_, ?_⟩
  · rw [add_sub_of_le hfuel, log_polls ali taskID re fetched pre st0 TaskStatus.expired s0 s1
      off0 off1 las tr _ hseq hpre hpoll,
      trackingTaskWithLog_finished ali taskID re _ TaskStatus.expired _ _ rfl]
    simp [logFinish]
  · rw [List.count_append, c5]
    simp
  · rw [resultCalls_append, c3]
    simp [resultCalls]
  · rw [readOffsets_append]
    simp [readOffsets]

theorem trackingTaskWithLog_expired_witness :
    trackingTaskWithLog scriptedLogs (lit "t") true 5 TaskStatus.waiting 0
        ⟨([TaskStatus.running, TaskStatus.expired], [4]), []⟩ =
      some ((none, some (GoError.invalidTaskStatus TaskStatus.expired)),
        ⟨([], []), [Event.println (lit "waiting for resources"), Event.sleep 2,
          Event.getStatus (lit "t"), Event.readLogs (lit "t") 0, Event.sleep 2,
          Event.getStatus (lit "t"), Event.println (lit "waiting for resources timeout")]⟩) :=
  (trackingTaskWithLog_expired scriptedLogs (lit "t") true
    [TaskStatus.running, TaskStatus.expired] [TaskStatus.waiting, TaskStatus.running]
    TaskStatus.waiting ([TaskStatus.running, TaskStatus.expired], [4]) ([], []) 0 4 [4] [] 5
    rfl (by decide) (by simp [LogPolls, scriptedLogs]) (by decide)).1

/-- C15: after a `createTask` call that returns a task id and a status
without an error, `run` is the run of one tracker for that task id, status
and `resultExpected`, started with the log offset 0: `trackingTaskWithLog`
when `Verbose` is true and `trackingTaskQuietly` when it is false, and `run`
returns what the tracker returns; `exec` returns the error of `run` with
`resultExpected = false`, and `query` is `run` with `resultExpected = true`. -/
theorem run_strategy {σ ρ ε : Type} (ali : Alisa σ ρ ε) (fuel : Nat) (cmd taskID : GoString)
    (re : Bool) (status : TaskStatus) (w : World σ) (s : σ)
    (hcreate : ali.createTask cmd w.remote = (Except.ok (taskID, status), s)) :
    (ali.Verbose = true →
        run ali fuel cmd re w =
          trackingTaskWithLog ali taskID re fuel status 0
            ⟨s, w.trace ++ [Event.createTask cmd]⟩) ∧
      (ali.Verbose = false →
        run ali fuel cmd re w =
          trackingTaskQuietly ali taskID re fuel status ⟨s, w.trace ++ [Event.createTask cmd]⟩) ∧
      exec ali fuel cmd w = (run ali fuel cmd false w).map (fun r => (r.1.2, r.2)) ∧
      query ali fuel cmd w = run ali fuel cmd true w := by
  refine ⟨?_, ?_, ?_, rfl⟩
  · intro hv
    simp [run, hcreate, hv]
  · intro hv
    simp [run, hcreate, hv]
  · unfold exec
    cases run ali fuel cmd false w with
    | none => rfl
    | some r => rfl

theorem run_strategy_witness :
    run scripted 5 (lit "select 1") true ⟨[TaskStatus.completed], []⟩ =
      trackingTaskQuietly scripted (lit "task") true 5 TaskStatus.waiting
        ⟨[TaskStatus.completed], [Event.createTask (lit "select 1")]⟩ :=
  (run_strategy scripted 5 (lit "select 1") (lit "task") true TaskStatus.waiting
    ⟨[TaskStatus.completed], []⟩ [TaskStatus.completed] rfl).2.1 rfl

/-! ## Counting the calls of a run -/

theorem fetchResults_trace {σ ρ ε : Type} (ali : Alisa σ ρ ε) (taskID : GoString) (re : Bool)
    (w : World σ) :
    ∃ evs, (fetchResults ali taskID re w).2.trace = w.trace ++ evs ∧ statusCalls evs = 0 ∧
      sleeps evs = [] ∧ readOffsets evs = [] := by
  cases re with
  | false => exact ⟨[], by simp [fetchResults], rfl, rfl, rfl⟩
  | true => exact ⟨[.getResults taskID readResultsBatch], by simp [fetchResults], rfl, rfl, rfl⟩

theorem quietFinish_trace {σ ρ ε : Type} (ali : Alisa σ ρ ε) (taskID : GoString) (re : Bool)
    (st : TaskStatus) (w : World σ) :
    ∃ evs, (quietFinish ali taskID re st w).2.trace = w.trace ++ evs ∧ statusCalls evs = 0 ∧
      sleeps evs = [] ∧ readOffsets evs = [] := by
  unfold quietFinish
  split
  · exact fetchResults_trace ali taskID re w
  · exact ⟨[], by simp, rfl, rfl, rfl⟩

theorem logFinish_trace {σ ρ ε : Type} (ali : Alisa σ ρ ε) (taskID : GoString) (re : Bool)
    (st : TaskStatus) (off : Int) (w : World σ) :
    ∃ evs, (logFinish ali taskID re st off w).2.trace = w.trace ++ evs ∧ statusCalls evs = 0 ∧
      sleeps evs = [] ∧ (readOffsets evs = [] ∨ (readOffsets evs = [off] ∧ 0 ≤ off)) := by
  unfold logFinish
  split
  · exact ⟨[.println (lit "waiting for resources timeout")], rfl, rfl, rfl, Or.inl rfl⟩
  · split
    · rename_i hoff
      cases hr : ali.readLogs taskID off w.remote with
      | mk a s =>
          cases a with
          | error e => exact ⟨[.readLogs taskID off], rfl, rfl, rfl, Or.inr ⟨rfl, hoff⟩⟩
          | ok o =>
              simp only []
              split
              · obtain ⟨evs, h1, h2, h3, h4⟩ := fetchResults_trace ali taskID re
                  ⟨s, w.trace ++ [.readLogs taskID off]⟩
                refine ⟨.readLogs taskID off :: evs, ?_, ?_, ?_, Or.inr ⟨?_, hoff⟩⟩
                · rw [h1]; simp
                · simpa [statusCalls] using h2
                · simpa [sleeps] using h3
                · simp [readOffsets, h4]
              · exact ⟨[.readLogs taskID off], rfl, rfl, rfl, Or.inr ⟨rfl, hoff⟩⟩
    · split
      · obtain ⟨evs, h1, h2, h3, h4⟩ := fetchResults_trace ali taskID re w
        exact ⟨evs, h1, h2, h3, Or.inl h4⟩
      · exact ⟨[], by simp, rfl, rfl, Or.inl rfl⟩

/-- C19: when the statuses seen are non-finished statuses followed by a
finished one, so that the first finished status is the `k`-th fetched one
(`k = 0`: the initial status is finished), and no fetch fails, each tracker
returns as soon as it may run `k` rounds; its run then holds exactly `k`
`getStatus` calls and exactly `k` sleeps, each of 2 seconds, and with fewer
than `k` rounds it has not returned.  With `k = 0` the run holds no
`getStatus` call and no sleep. -/
theorem polling_count {σ ρ ε : Type} (ali : Alisa σ ρ ε) (taskID : GoString) (re : Bool)
    (fetched pre : List TaskStatus) (st0 fin : TaskStatus) (tr : List Event)
    (hseq : st0 :: fetched = pre ++ [fin])
    (hpre : ∀ st ∈ pre, completed st = false)
    (hfin : completed fin = true) :
    (∀ s0 s1, Polls ali taskID s0 fetched s1 →
        (∀ fuel, fetched.length ≤ fuel →
          ∃ out w1 evs, trackingTaskQuietly ali taskID re fuel st0 ⟨s0, tr⟩ = some (out, w1) ∧
            w1.trace = tr ++ evs ∧ statusCalls evs = fetched.length ∧
            sleeps evs = List.replicate fetched.length 2) ∧
        (∀ fuel, fuel < fetched.length →
          trackingTaskQuietly ali taskID re fuel st0 ⟨s0, tr⟩ = none)) ∧
      (∀ s0 s1 off0 off1 las, LogPolls ali taskID s0 off0 st0 fetched las s1 off1 →
        (∀ fuel, fetched.length ≤ fuel →
          ∃ out w1 evs,
            trackingTaskWithLog ali taskID re fuel st0 off0 ⟨s0, tr⟩ = some (out, w1) ∧
            w1.trace = tr ++ evs ∧ statusCalls evs = fetched.length ∧
            sleeps evs = List.replicate fetched.length 2) ∧
        (∀ fuel, fuel < fetched.length →
          trackingTaskWithLog ali taskID re fuel st0 off0 ⟨s0, tr⟩ = none)) := by
  refine ⟨?_, ?_⟩
  · intro s0 s1 hpoll
    refine ⟨?_, fun fuel hf =>
      quiet_polls_short ali taskID re fetched pre st0 fin s0 s1 tr fuel hseq hpre hpoll hf⟩
    intro fuel hfuel
    obtain ⟨evs, h1, h2, h3, -⟩ := quietFinish_trace ali taskID re fin
      ⟨s1, tr ++ quietRounds taskID fetched⟩
    obtain ⟨c1, c2, -, -⟩ := quietRounds_counts taskID fetched
    refine ⟨(quietFinish ali taskID re fin ⟨s1, tr ++ quietRounds taskID fetched⟩).1,
      (quietFinish ali taskID re fin ⟨s1, tr ++ quietRounds taskID fetched⟩).2,
      quietRounds taskID fetched ++ evs, ?_, ?_, ?_, ?_⟩
    · rw [add_sub_of_le hfuel, quiet_polls ali taskID re fetched pre st0 fin s0 s1 tr _ hseq hpre
        hpoll, trackingTaskQuietly_finished ali taskID re _ fin _ hfin]
    · rw [h1]; simp
    · rw [statusCalls_append, c1, h2]; rfl
    · rw [sleeps_append, c2, h3]; simp [waitInteveral]
  · intro s0 s1 off0 off1 las hpoll
    refine ⟨?_, fun fuel hf =>
      log_polls_short ali taskID re fetched pre st0 fin s0 s1 off0 off1 las tr fuel hseq hpre
        hpoll hf⟩
    intro fuel hfuel
    obtain ⟨evs, h1, h2, h3, -⟩ := logFinish_trace ali taskID re fin off1
      ⟨s1, tr ++ logRounds taskID off0 st0 fetched las⟩
    obtain ⟨c1, c2, -, -, -⟩ := logRounds_counts ali taskID fetched st0 s0 s1 off0 off1 las hpoll
    refine ⟨(logFinish ali taskID re fin off1
        ⟨s1, tr ++ logRounds taskID off0 st0 fetched las⟩).1,
      (logFinish ali taskID re fin off1 ⟨s1, tr ++ logRounds taskID off0 st0 fetched las⟩).2,
      logRounds taskID off0 st0 fetched las ++ evs, ?_, ?_, ?_, ?_⟩
    · rw [add_sub_of_le hfuel, log_polls ali taskID re fetched pre st0 fin s0 s1 off0 off1 las tr
        _ hseq hpre hpoll, trackingTaskWithLog_finished ali taskID re _ fin _ _ hfin]
    · rw [h1]; simp
    · rw [statusCalls_append, c1, h2]; rfl
    · rw [sleeps_append, c2, h3]; simp [waitInteveral]

theorem polling_count_witness :
    ∃ out w1 evs,
      trackingTaskQuietly scripted (lit "t") true 2 TaskStatus.waiting
          ⟨[TaskStatus.running, TaskStatus.failed], []⟩ = some (out, w1) ∧
        w1.trace = [] ++ evs ∧ statusCalls evs = 2 ∧ sleeps evs = [2, 2] :=
  ((polling_count scripted (lit "t") true [TaskStatus.running, TaskStatus.failed]
    [TaskStatus.waiting, TaskStatus.running] TaskStatus.waiting TaskStatus.failed []
    rfl (by decide) rfl).1 [TaskStatus.running, TaskStatus.failed] [] ⟨rfl, rfl, rfl⟩).1 2
    (by decide)

/-! ## Errors and log reads -/

/-- C14: an error ends a run at once.  In the quiet tracker and in the
logging tracker, after any number of rounds without an error, still at a
status that is not finished: when the next `getStatus` call returns an error
(in the logging tracker with or without a log read before it in that round),
or the next `readLogs` call of the loop does, the tracker returns no result
and exactly that error, and the failing call is the last event of the run;
the same holds for the `readLogs` call after the loop; and `run` returns the
error of `createTask` with that call as its only event. -/
theorem errors_abort {σ ρ ε : Type} (ali : Alisa σ ρ ε) (taskID : GoString) (re : Bool)
    (fetched pre : List TaskStatus) (st0 last : TaskStatus) (tr : List Event) (fuel : Nat)
    (err : GoError ε)
    (hseq : st0 :: fetched = pre ++ [last])
    (hpre : ∀ st ∈ pre, completed st = false)
    (hfuel : fetched.length < fuel) :
    (∀ s0 s1, completed last = false → Polls ali taskID s0 fetched s1 →
        (ali.getStatus taskID s1).1 = .error err →
        trackingTaskQuietly ali taskID re fuel st0 ⟨s0, tr⟩ =
          some ((none, some err), ⟨(ali.getStatus taskID s1).2,
            tr ++ (quietRounds taskID fetched ++
              [Event.sleep waitInteveral, Event.getStatus taskID])⟩)) ∧
      (∀ s0 s1 off0 off1 las, completed last = false →
        LogPolls ali taskID s0 off0 st0 fetched las s1 off1 →
        ¬ (last = TaskStatus.running ∧ off1 ≥ 0) →
        (ali.getStatus taskID s1).1 = .error err →
        trackingTaskWithLog ali taskID re fuel st0 off0 ⟨s0, tr⟩ =
          some ((none, some err), ⟨(ali.getStatus taskID s1).2,
            tr ++ (logRounds taskID off0 st0 fetched las ++
              ((if last = TaskStatus.waiting ∨ last = TaskStatus.allocate then
                [Event.println (lit "waiting for resources")] else []) ++
              [Event.sleep waitInteveral, Event.getStatus taskID]))⟩)) ∧
      (∀ s0 s1 off0 off1 las, last = TaskStatus.running →
        LogPolls ali taskID s0 off0 st0 fetched las s1 off1 → off1 ≥ 0 →
        (ali.readLogs taskID off1 s1).1 = .error err →
        trackingTaskWithLog ali taskID re fuel st0 off0 ⟨s0, tr⟩ =
          some ((none, some err), ⟨(ali.readLogs taskID off1 s1).2,
            tr ++ (logRounds taskID off0 st0 fetched las ++
              [Event.readLogs taskID off1])⟩)) ∧
      (∀ s0 s1 off0 off1 las o, last = TaskStatus.running →
        LogPolls ali taskID s0 off0 st0 fetched las s1 off1 → off1 ≥ 0 →
        (ali.readLogs taskID off1 s1).1 = .ok o →
        (ali.getStatus taskID (ali.readLogs taskID off1 s1).2).1 = .error err →
        trackingTaskWithLog ali taskID re fuel st0 off0 ⟨s0, tr⟩ =
          some ((none, some err), ⟨(ali.getStatus taskID (ali.readLogs taskID off1 s1).2).2,
            tr ++ (logRounds taskID off0 st0 fetched las ++
              [Event.readLogs taskID off1, Event.sleep waitInteveral,
                Event.getStatus taskID])⟩)) ∧
      (∀ s0 s1 off0 off1 las, completed last = true → last ≠ TaskStatus.expired →
        LogPolls ali taskID s0 off0 st0 fetched las s1 off1 → off1 ≥ 0 →
        (ali.readLogs taskID off1 s1).1 = .error err →
        trackingTaskWithLog ali taskID re fuel st0 off0 ⟨s0, tr⟩ =
          some ((none, some err), ⟨(ali.readLogs taskID off1 s1).2,
            tr ++ (logRounds taskID off0 st0 fetched las ++
              [Event.readLogs taskID off1])⟩)) ∧
      (∀ cmd (w : World σ), (ali.createTask cmd w.remote).1 = .error err →
        run ali fuel cmd re w =
          some ((none, some err), ⟨(ali.createTask cmd w.remote).2,
            w.trace ++ [Event.createTask cmd]⟩)) := by
  have hf : fuel = fetched.length + ((fuel - fetched.length - 1) + 1) := by omega
  refine ⟨?_, ?_, ?_, ?_, ?_, ?_⟩
  · intro s0 s1 hlast hpoll hg
    rw [hf, quiet_polls ali taskID re fetched pre st0 last s0 s1 tr _ hseq hpre hpoll,
      trackingTaskQuietly_round ali taskID re _ last _ hlast]
    simp only []
    rw [pair_eq_of_fst hg]
    simp
  · intro s0 s1 off0 off1 las hlast hpoll hnr hg
    rw [hf, log_polls ali taskID re fetched pre st0 last s0 s1 off0 off1 las tr _ hseq hpre hpoll,
      trackingTaskWithLog_round ali taskID re _ last _ _ hlast,
      logRound_statusError ali taskID last off1 err _ hnr hg]
    simp
  · intro s0 s1 off0 off1 las hlast hpoll hoff hr
    subst hlast
    rw [hf, log_polls ali taskID re fetched pre st0 _ s0 s1 off0 off1 las tr _ hseq hpre hpoll,
      trackingTaskWithLog_round ali taskID re _ TaskStatus.running _ _ rfl,
      logRound_readError ali taskID off1 err _ hoff hr]
    simp
  · intro s0 s1 off0 off1 las o hlast hpoll hoff hr hg
    subst hlast
    rw [hf, log_polls ali taskID re fetched pre st0 _ s0 s1 off0 off1 las tr _ hseq hpre hpoll,
      trackingTaskWithLog_round ali taskID re _ TaskStatus.running _ _ rfl,
      logRound_readStatusError ali taskID off1 o err _ hoff hr hg]
    simp
  · intro s0 s1 off0 off1 las hlast hne hpoll hoff hr
    rw [hf, log_polls ali taskID re fetched pre st0 last s0 s1 off0 off1 las tr _ hseq hpre hpoll,
      trackingTaskWithLog_finished ali taskID re _ last _ _ hlast]
    unfold logFinish
    simp only [hne, if_false, hoff, if_true]
    rw [pair_eq_of_fst hr]
    simp
  · intro cmd w hc
    unfold run
    rw [pair_eq_of_fst hc]

theorem errors_abort_witness :
    trackingTaskWithLog failing (lit "t") true 1 TaskStatus.running 0 ⟨(), []⟩ =
      some ((none, some (GoError.remote 9)), ⟨(), [] ++ ([] ++ [Event.readLogs (lit "t") 0])⟩) :=
  (errors_abort failing (lit "t") true [] [] TaskStatus.running TaskStatus.running [] 1
    (GoError.remote 9) rfl (by decide) (by decide)).2.2.1 () () 0 0 [] rfl ⟨rfl, rfl, rfl⟩
    (by decide) rfl

/-- C12, the claim as stated fails: with the statuses Running, Running,
Completed and no fetch error, when the first `readLogs` call returns the
offset -1, the run holds one `readLogs` call, not one per round in the
status Running and one more after the loop. -/
theorem trackingTaskWithLog_negative_first :
    trackingTaskWithLog scriptedLogs (lit "t") true 5 TaskStatus.running 0
        ⟨([TaskStatus.running, TaskStatus.completed], [-1]), []⟩ =
      some ((some 7, none), ⟨([], []), [Event.readLogs (lit "t") 0, Event.sleep 2,
        Event.getStatus (lit "t"), Event.sleep 2, Event.getStatus (lit "t"),
        Event.getResults (lit "t") 20]⟩) ∧
      readOffsets [Event.readLogs (lit "t") 0, Event.sleep 2, Event.getStatus (lit "t"),
        Event.sleep 2, Event.getStatus (lit "t"), Event.getResults (lit "t") 20] = [0] :=
  ⟨rfl, rfl⟩

/-- C12, amended: in the logging tracker started with the log offset 0, when
the statuses seen are non-finished statuses followed by a finished status
other than Expired, no call of the run fails and no `readLogs` call of the
loop returns a negative offset, the run holds one `readLogs` call per round
in the status Running and one more after the loop; the first call asks for
the offset 0 and each later call for the offset the call before it returned. -/
theorem trackingTaskWithLog_logReads {σ ρ ε : Type} (ali : Alisa σ ρ ε) (taskID : GoString)
    (re : Bool) (fetched pre : List TaskStatus) (st0 fin : TaskStatus) (s0 s1 : σ) (off1 o : Int)
    (las : List Int) (tr : List Event) (fuel : Nat)
    (hseq : st0 :: fetched = pre ++ [fin])
    (hpre : ∀ st ∈ pre, completed st = false)
    (hfin : completed fin = true) (hne : fin ≠ TaskStatus.expired)
    (hpoll : LogPolls ali taskID s0 0 st0 fetched las s1 off1)
    (hlas : ∀ x ∈ las, 0 ≤ x)
    (hdrain : (ali.readLogs taskID off1 s1).1 = .ok o)
    (hfuel : fetched.length ≤ fuel) :
    ∃ out w1 evs, trackingTaskWithLog ali taskID re fuel st0 0 ⟨s0, tr⟩ = some (out, w1) ∧
      w1.trace = tr ++ evs ∧ readOffsets evs = 0 :: las ∧
      las.length = pre.count TaskStatus.running ∧
      (readOffsets evs).length = pre.count TaskStatus.running + 1 := by
  obtain ⟨hlen, hoff1⟩ := LogPolls_length ali taskID fetched pre st0 fin s0 s1 0 off1 las hseq
    hpoll (le_refl 0) hlas
  obtain ⟨-, -, -, c4, -⟩ := logRounds_counts ali taskID fetched st0 s0 s1 0 off1 las hpoll
  obtain ⟨evs, h1, -, -, h4⟩ := logFinish_trace ali taskID re fin off1
    ⟨s1, tr ++ logRounds taskID 0 st0 fetched las⟩
  have hread : readOffsets evs = [off1] := by
    unfold logFinish at h1
    simp only [hne, if_false, ge_iff_le, hoff1, if_true] at h1
    rw [pair_eq_of_fst hdrain] at h1
    simp only [] at h1
    rcases h4 with h4 | h4
    · exfalso
      split at h1
      · obtain ⟨evs2, g1, -, -, g4⟩ := fetchResults_trace ali taskID re
          ⟨(ali.readLogs taskID off1 s1).2,
            tr ++ logRounds taskID 0 st0 fetched las ++ [.readLogs taskID off1]⟩
        rw [g1] at h1
        simp only [List.append_assoc, List.append_cancel_left_eq] at h1
        rw [← h1] at h4
        simp [readOffsets] at h4
      · simp only [List.append_assoc, List.append_cancel_left_eq] at h1
        rw [← h1] at h4
        simp [readOffsets] at h4
    · exact h4.1
  have hall : readOffsets (logRounds taskID 0 st0 fetched las ++ evs) = 0 :: las := by
    rw [readOffsets_append, hread, c4]
  refine ⟨(logFinish ali taskID re fin off1 ⟨s1, tr ++ logRounds taskID 0 st0 fetched las⟩).1,
    (logFinish ali taskID re fin off1 ⟨s1, tr ++ logRounds taskID 0 st0 fetched las⟩).2,
    logRounds taskID 0 st0 fetched las ++ evs, ?_, ?_, hall, hlen, ?_⟩
  · rw [add_sub_of_le hfuel, log_polls ali taskID re fetched pre st0 fin s0 s1 0 off1 las tr
      _ hseq hpre hpoll, trackingTaskWithLog_finished ali taskID re _ fin _ _ hfin]
  · rw [h1]; simp
  · rw [hall, List.length_cons, hlen]

theorem trackingTaskWithLog_logReads_witness :
    ∃ out w1 evs,
      trackingTaskWithLog scriptedLogs (lit "t") true 3 TaskStatus.allocate 0
          ⟨([TaskStatus.running, TaskStatus.running, TaskStatus.completed], [3, 8, 9]), []⟩ =
        some (out, w1) ∧
      w1.trace = [] ++ evs ∧ readOffsets evs = 0 :: [3, 8] ∧
      [(3 : Int), 8].length =
        [TaskStatus.allocate, TaskStatus.running, TaskStatus.running].count TaskStatus.running ∧
      (readOffsets evs).length =
        [TaskStatus.allocate, TaskStatus.running, TaskStatus.running].count
          TaskStatus.running + 1 :=
  trackingTaskWithLog_logReads scriptedLogs (lit "t") true
    [TaskStatus.running, TaskStatus.running, TaskStatus.completed]
    [TaskStatus.allocate, TaskStatus.running, TaskStatus.running] TaskStatus.allocate
    TaskStatus.completed
    ([TaskStatus.running, TaskStatus.running, TaskStatus.completed], [3, 8, 9]) ([], [9]) 8 9
    [3, 8] [] 3 rfl (by decide) rfl (by decide) (by simp [LogPolls, scriptedLogs]) (by decide)
    rfl (by decide)

/-! ## The offsets of the log reads -/

theorem logRound_offsets {σ ρ ε : Type} (ali : Alisa σ ρ ε) (taskID : GoString)
    (st : TaskStatus) (off : Int) (w : World σ) :
    (∀ r, logRound ali taskID st off w = .error r →
        ∃ evs, r.2.trace = w.trace ++ evs ∧
          (readOffsets evs = [] ∨ (readOffsets evs = [off] ∧ 0 ≤ off))) ∧
      (∀ st1 off1 w1, logRound ali taskID st off w = .ok (st1, off1, w1) →
        ∃ evs, w1.trace = w.trace ++ evs ∧
          ((readOffsets evs = [] ∧ off1 = off) ∨
            (readOffsets evs = [off] ∧ 0 ≤ off ∧
              (ali.readLogs taskID off w.remote).1 = .ok off1))) := by
  unfold logRound
  by_cases h1 : st = .waiting ∨ st = .allocate
  · simp only [h1, if_true]
    rcases hg : ali.getStatus taskID w.remote with ⟨_ | _, s⟩
    · constructor
      · intro r hr
        simp only [Except.error.injEq] at hr
        subst hr
        exact ⟨[.println (lit "waiting for resources"), .sleep waitInteveral,
          .getStatus taskID], by simp, Or.inl rfl⟩
      · intro st1 off1 w1 hr
        simp at hr
    · constructor
      · intro r hr
        simp at hr
      · intro st1 off1 w1 hr
        simp only [Except.ok.injEq, Prod.mk.injEq] at hr
        obtain ⟨-, h2, h3⟩ := hr
        subst h2 h3
        exact ⟨[.println (lit "waiting for resources"), .sleep waitInteveral,
          .getStatus taskID], by simp, Or.inl ⟨rfl, rfl⟩⟩
  · simp only [h1, if_false]
    by_cases h2 : st = .running ∧ off ≥ 0
    · rw [if_pos h2]
      rcases hl : ali.readLogs taskID off w.remote with ⟨_ | o, s⟩
      · constructor
        · intro r hr
          simp only [Except.error.injEq] at hr
          subst hr
          exact ⟨[.readLogs taskID off], rfl, Or.inr ⟨rfl, h2.2⟩⟩
        · intro st1 off1 w1 hr
          simp at hr
      · simp only []
        rcases hg : ali.getStatus taskID s with ⟨_ | _, s2⟩
        · constructor
          · intro r hr
            simp only [Except.error.injEq] at hr
            subst hr
            exact ⟨[.readLogs taskID off, .sleep waitInteveral, .getStatus taskID], by simp,
              Or.inr ⟨rfl, h2.2⟩⟩
          · intro st1 off1 w1 hr
            simp at hr
        · constructor
          · intro r hr
            simp at hr
          · intro st1 off1 w1 hr
            simp only [Except.ok.injEq, Prod.mk.injEq] at hr
            obtain ⟨-, h3, h4⟩ := hr
            subst h3 h4
            exact ⟨[.readLogs taskID off, .sleep waitInteveral, .getStatus taskID], by simp,
              Or.inr ⟨rfl, h2.2, rfl⟩⟩
    · simp only [h2, if_false]
      rcases hg : ali.getStatus taskID w.remote with ⟨_ | _, s⟩
      · constructor
        · intro r hr
          simp only [Except.error.injEq] at hr
          subst hr
          exact ⟨[.sleep waitInteveral, .getStatus taskID], by simp, Or.inl rfl⟩
        · intro st1 off1 w1 hr
          simp at hr
      · constructor
        · intro r hr
          simp at hr
        · intro st1 off1 w1 hr
          simp only [Except.ok.injEq, Prod.mk.injEq] at hr
          obtain ⟨-, h3, h4⟩ := hr
          subst h3 h4
          exact ⟨[.sleep waitInteveral, .getStatus taskID], by simp, Or.inl ⟨rfl, rfl⟩⟩

/-- The offsets of the log reads of a run of the logging tracker that starts
with the log offset `off`: none is negative, and when the service never
returns an offset below the one asked for, none is below `off` and they
never decrease. -/
theorem log_run_offsets {σ ρ ε : Type} (ali : Alisa σ ρ ε) (taskID : GoString) (re : Bool) :
    ∀ (fuel : Nat) (st : TaskStatus) (off : Int) (w : World σ) (out : Outcome ρ ε) (w1 : World σ),
      trackingTaskWithLog ali taskID re fuel st off w = some (out, w1) →
      ∃ evs, w1.trace = w.trace ++ evs ∧ (∀ o ∈ readOffsets evs, 0 ≤ o) ∧
        ((∀ s (a o : Int), 0 ≤ a → (ali.readLogs taskID a s).1 = .ok o → a ≤ o) →
          (∀ o ∈ readOffsets evs, off ≤ o) ∧ (readOffsets evs).Sorted (· ≤ ·)) := by
  intro fuel
  induction fuel with
  | zero =>
      intro st off w out w1 h
      by_cases hc : completed st = true
      · rw [trackingTaskWithLog_finished ali taskID re _ st off w hc] at h
        obtain ⟨evs, h1, -, -, h4⟩ := logFinish_trace ali taskID re st off w
        simp only [Option.some.injEq] at h
        rw [h] at h1
        refine ⟨evs, h1, ?_, ?_⟩
        · rcases h4 with h4 | ⟨h4, h5⟩ <;> rw [h4] <;> simp
          exact h5
        · intro _
          rcases h4 with h4 | ⟨h4, h5⟩ <;> rw [h4] <;> simp
      · rw [trackingTaskWithLog_zero ali taskID re st off w (by simpa using hc)] at h
        exact absurd h (by simp)
  | succ n ih =>
      intro st off w out w1 h
      by_cases hc : completed st = true
      · rw [trackingTaskWithLog_finished ali taskID re _ st off w hc] at h
        obtain ⟨evs, h1, -, -, h4⟩ := logFinish_trace ali taskID re st off w
        simp only [Option.some.injEq] at h
        rw [h] at h1
        refine ⟨evs, h1, ?_, ?_⟩
        · rcases h4 with h4 | ⟨h4, h5⟩ <;> rw [h4] <;> simp
          exact h5
        · intro _
          rcases h4 with h4 | ⟨h4, h5⟩ <;> rw [h4] <;> simp
      · rw [trackingTaskWithLog_round ali taskID re n st off w (by simpa using hc)] at h
        obtain ⟨he, ho⟩ := logRound_offsets ali taskID st off w
        rcases hr : logRound ali taskID st off w with r | ⟨st1, off1, w2⟩
        · rw [hr] at h
          simp only [Option.some.injEq] at h
          obtain ⟨evs, h1, h4⟩ := he r hr
          rw [h] at h1
          refine ⟨evs, h1, ?_, ?_⟩
          · rcases h4 with h4 | ⟨h4, h5⟩ <;> rw [h4] <;> simp
            exact h5
          · intro _
            rcases h4 with h4 | ⟨h4, h5⟩ <;> rw [h4] <;> simp
        · rw [hr] at h
          simp only [] at h
          obtain ⟨evs, h1, h4⟩ := ho st1 off1 w2 hr
          obtain ⟨evs2, g1, g2, g3⟩ := ih st1 off1 w2 out w1 h
          refine ⟨evs ++ evs2, by rw [g1, h1, List.append_assoc], ?_, ?_⟩
          · rw [readOffsets_append]
            intro o ho
            rcases List.mem_append.1 ho with ho | ho
            · rcases h4 with ⟨h4, -⟩ | ⟨h4, h5, -⟩
              · rw [h4] at ho; simp at ho
              · rw [h4] at ho
                simp only [List.mem_singleton] at ho
                rw [ho]; exact h5
            · exact g2 o ho
          · intro hm
            obtain ⟨g4, g5⟩ := g3 hm
            rw [readOffsets_append]
            rcases h4 with ⟨h4, h5⟩ | ⟨h4, h5, h6⟩
            · rw [h4, List.nil_append]
              subst h5
              exact ⟨g4, g5⟩
            · have hle : off ≤ off1 := hm _ _ _ h5 h6
              rw [h4]
              constructor
              · intro o ho
                simp only [List.singleton_append, List.mem_cons] at ho
                rcases ho with ho | ho
                · rw [ho]
                · exact le_trans hle (g4 o ho)
              · simp only [List.singleton_append, List.sorted_cons]
                exact ⟨fun o ho => le_trans hle (g4 o ho), g5⟩

/-- C16, the claim as stated fails: with the statuses Running, Running,
Completed, when the `readLogs` calls return the offsets 5, 3 and 4, the
offsets passed to the three `readLogs` calls of the run are 0, 5 and 3, which
is not a non-decreasing sequence. -/
theorem readLogs_offsets_decrease :
    trackingTaskWithLog scriptedLogs (lit "t") true 5 TaskStatus.running 0
        ⟨([TaskStatus.running, TaskStatus.completed], [5, 3, 4]), []⟩ =
      some ((some 7, none), ⟨([], []), [Event.readLogs (lit "t") 0, Event.sleep 2,
        Event.getStatus (lit "t"), Event.readLogs (lit "t") 5, Event.sleep 2,
        Event.getStatus (lit "t"), Event.readLogs (lit "t") 3,
        Event.getResults (lit "t") 20]⟩) ∧
      readOffsets [Event.readLogs (lit "t") 0, Event.sleep 2,
        Event.getStatus (lit "t"), Event.readLogs (lit "t") 5, Event.sleep 2,
        Event.getStatus (lit "t"), Event.readLogs (lit "t") 3,
        Event.getResults (lit "t") 20] = [0, 5, 3] ∧
      ¬ ([0, 5, 3] : List Int).Sorted (· ≤ ·) :=
  ⟨rfl, rfl, by decide⟩

/-- C16, amended: in every run of the logging tracker that returns, started
with the log offset 0, no offset passed to a `readLogs` call is negative; and
when the service never returns, for an offset that is not negative, an
offset below the one asked for, the offsets passed to the successive
`readLogs` calls never decrease. -/
theorem readLogs_offsets {σ ρ ε : Type} (ali : Alisa σ ρ ε) (taskID : GoString) (re : Bool)
    (fuel : Nat) (st : TaskStatus) (w : World σ) (out : Outcome ρ ε) (w1 : World σ)
    (h : trackingTaskWithLog ali taskID re fuel st 0 w = some (out, w1)) :
    ∃ evs, w1.trace = w.trace ++ evs ∧ (∀ o ∈ readOffsets evs, 0 ≤ o) ∧
      ((∀ s (a o : Int), 0 ≤ a → (ali.readLogs taskID a s).1 = .ok o → a ≤ o) →
        (readOffsets evs).Sorted (· ≤ ·)) := by
  obtain ⟨evs, h1, h2, h3⟩ := log_run_offsets ali taskID re fuel st 0 w out w1 h
  exact ⟨evs, h1, h2, fun hm => (h3 hm).2⟩

theorem readLogs_offsets_witness :
    ∃ evs, (⟨[], [Event.readLogs (lit "t") 0, Event.sleep 2,
        Event.getStatus (lit "t"), Event.readLogs (lit "t") 1, Event.sleep 2,
        Event.getStatus (lit "t"), Event.readLogs (lit "t") 2,
        Event.getResults (lit "t") 20]⟩ : World (List TaskStatus)).trace =
          ([] : List Event) ++ evs ∧
      (∀ o ∈ readOffsets evs, 0 ≤ o) ∧
      ((∀ s (a o : Int), 0 ≤ a → (scripted.readLogs (lit "t") a s).1 = .ok o → a ≤ o) →
        (readOffsets evs).Sorted (· ≤ ·)) :=
  readLogs_offsets scripted (lit "t") true 5 TaskStatus.running
    ⟨[TaskStatus.running, TaskStatus.completed], []⟩ (some 7, none) _ rfl

/-! ## The logging tracker against the quiet tracker -/

theorem dropLogging_append (a b : List Event) :
    dropLogging (a ++ b) = dropLogging a ++ dropLogging b := by
  unfold dropLogging
  exact List.filter_append _ _

theorem sim_extend {σ ρ ε : Type} (R : σ → σ → Prop)
    (Q Lg : Option (Outcome ρ ε × World σ)) (tq tl pre : List Event) (off off1 : Int)
    (h : (Q = none ∧ Lg = none) ∨ ∃ out a1 b1 evs,
      Q = some (out, ⟨a1, (tq ++ dropLogging pre) ++ dropLogging evs⟩) ∧
      Lg = some (out, ⟨b1, (tl ++ pre) ++ evs⟩) ∧ R a1 b1 ∧
      (off1 < 0 → readOffsets evs = []))
    (hpre : off < 0 → readOffsets pre = [] ∧ off1 = off) :
    (Q = none ∧ Lg = none) ∨ ∃ out a1 b1 evs,
      Q = some (out, ⟨a1, tq ++ dropLogging evs⟩) ∧
      Lg = some (out, ⟨b1, tl ++ evs⟩) ∧ R a1 b1 ∧ (off < 0 → readOffsets evs = []) := by
  rcases h with h | ⟨out, a1, b1, evs, h1, h2, h3, h4⟩
  · exact Or.inl h
  · refine Or.inr ⟨out, a1, b1, pre ++ evs, ?_, ?_, h3, ?_⟩
    · rw [h1, dropLogging_append, List.append_assoc]
    · rw [h2, List.append_assoc]
    · intro ho
      obtain ⟨p1, p2⟩ := hpre ho
      rw [readOffsets_append, p1, h4 (by rw [p2]; exact ho)]
      rfl

theorem fetch_sim {σ ρ ε : Type} (ali : Alisa σ ρ ε) (taskID : GoString) (re : Bool)
    (R : σ → σ → Prop)
    (hG : ∀ x y, R x y →
      (ali.getResults taskID readResultsBatch x).1 = (ali.getResults taskID readResultsBatch y).1 ∧
      R (ali.getResults taskID readResultsBatch x).2 (ali.getResults taskID readResultsBatch y).2)
    (a b : σ) (tq tl : List Event) (hR : R a b) :
    ∃ out a1 b1 evs,
      fetchResults ali taskID re ⟨a, tq⟩ = (out, ⟨a1, tq ++ dropLogging evs⟩) ∧
      fetchResults ali taskID re ⟨b, tl⟩ = (out, ⟨b1, tl ++ evs⟩) ∧ R a1 b1 ∧
      readOffsets evs = [] := by
  cases re with
  | false =>
      exact ⟨(none, none), a, b, [], by simp [fetchResults, dropLogging],
        by simp [fetchResults], hR, rfl⟩
  | true =>
      obtain ⟨g1, g2⟩ := hG a b hR
      refine ⟨(ali.getResults taskID readResultsBatch a).1, _, _,
        [.getResults taskID readResultsBatch], ?_, ?_, g2, rfl⟩
      · simp [fetchResults, dropLogging]
      · simp [fetchResults, g1]

theorem finish_sim {σ ρ ε : Type} (ali : Alisa σ ρ ε) (taskID : GoString) (re : Bool)
    (R : σ → σ → Prop)
    (hG : ∀ x y, R x y →
      (ali.getResults taskID readResultsBatch x).1 = (ali.getResults taskID readResultsBatch y).1 ∧
      R (ali.getResults taskID readResultsBatch x).2 (ali.getResults taskID readResultsBatch y).2)
    (st : TaskStatus) (off : Int) (a b : σ) (tq tl : List Event) (hR : R a b)
    (hL : 0 ≤ off → ∀ x y (o : Int), R x y → 0 ≤ o →
      (∃ o1, (ali.readLogs taskID o y).1 = .ok o1) ∧ R x (ali.readLogs taskID o y).2) :
    ∃ out a1 b1 evs,
      quietFinish ali taskID re st ⟨a, tq⟩ = (out, ⟨a1, tq ++ dropLogging evs⟩) ∧
      logFinish ali taskID re st off ⟨b, tl⟩ = (out, ⟨b1, tl ++ evs⟩) ∧ R a1 b1 ∧
      (off < 0 → readOffsets evs = []) := by
  unfold quietFinish logFinish
  by_cases he : st = .expired
  · subst he
    exact ⟨(none, some (.invalidTaskStatus .expired)), a, b,
      [.println (lit "waiting for resources timeout")], by simp [dropLogging], by simp, hR,
      fun _ => rfl⟩
  · simp only [he, if_false]
    by_cases hoff : off ≥ 0
    · obtain ⟨⟨o1, l1⟩, l2⟩ := hL hoff a b off hR hoff
      simp only [hoff, if_true]
      rw [pair_eq_of_fst l1]
      simp only []
      by_cases hc : st = .completed
      · simp only [hc, if_true]
        obtain ⟨out, a1, b1, evs, f1, f2, f3, -⟩ := fetch_sim ali taskID re R hG a
          (ali.readLogs taskID off b).2 tq (tl ++ [.readLogs taskID off]) l2
        refine ⟨out, a1, b1, .readLogs taskID off :: evs, ?_, ?_, f3, fun h => ?_⟩
        · rw [f1]; rfl
        · rw [f2]; simp
        · omega
      · simp only [hc, if_false]
        exact ⟨(none, some (.invalidTaskStatus st)), a, _, [.readLogs taskID off],
          by simp [dropLogging], rfl, l2, fun h => by omega⟩
    · simp only [hoff, if_false]
      by_cases hc : st = .completed
      · simp only [hc, if_true]
        obtain ⟨out, a1, b1, evs, f1, f2, f3, f4⟩ := fetch_sim ali taskID re R hG a b tq tl hR
        exact ⟨out, a1, b1, evs, f1, f2, f3, fun _ => f4⟩
      · simp only [hc, if_false]
        exact ⟨(none, some (.invalidTaskStatus st)), a, b, [], by simp [dropLogging], by simp,
          hR, fun _ => rfl⟩

/-- The logging tracker and the quiet tracker side by side, on states of the
service that `getStatus` and `getResults` cannot tell apart and that
`readLogs` keeps so: both are still looping, or both return the same
outcome, and the events of the quiet run are those of the logging run
without the log reads and the printed lines. -/
theorem log_quiet_sim {σ ρ ε : Type} (ali : Alisa σ ρ ε) (taskID : GoString) (re : Bool)
    (R : σ → σ → Prop)
    (hS : ∀ x y, R x y → (ali.getStatus taskID x).1 = (ali.getStatus taskID y).1 ∧
      R (ali.getStatus taskID x).2 (ali.getStatus taskID y).2)
    (hG : ∀ x y, R x y →
      (ali.getResults taskID readResultsBatch x).1 = (ali.getResults taskID readResultsBatch y).1 ∧
      R (ali.getResults taskID readResultsBatch x).2
        (ali.getResults taskID readResultsBatch y).2) :
    ∀ (fuel : Nat) (st : TaskStatus) (off : Int) (a b : σ) (tq tl : List Event), R a b →
      (0 ≤ off → ∀ x y (o : Int), R x y → 0 ≤ o →
        (∃ o1, (ali.readLogs taskID o y).1 = .ok o1) ∧ R x (ali.readLogs taskID o y).2) →
      (trackingTaskQuietly ali taskID re fuel st ⟨a, tq⟩ = none ∧
        trackingTaskWithLog ali taskID re fuel st off ⟨b, tl⟩ = none) ∨
      ∃ out a1 b1 evs,
        trackingTaskQuietly ali taskID re fuel st ⟨a, tq⟩ =
          some (out, ⟨a1, tq ++ dropLogging evs⟩) ∧
        trackingTaskWithLog ali taskID re fuel st off ⟨b, tl⟩ = some (out, ⟨b1, tl ++ evs⟩) ∧
        R a1 b1 ∧ (off < 0 → readOffsets evs = []) := by
  intro fuel
  induction fuel with
  | zero =>
      intro st off a b tq tl hR hL
      by_cases hc : completed st = true
      · rw [trackingTaskQuietly_finished ali taskID re _ st _ hc,
          trackingTaskWithLog_finished ali taskID re _ st off _ hc]
        obtain ⟨out, a1, b1, evs, f1, f2, f3, f4⟩ :=
          finish_sim ali taskID re R hG st off a b tq tl hR hL
        exact Or.inr ⟨out, a1, b1, evs, by rw [f1], by rw [f2], f3, f4⟩
      · have hc1 : completed st = false := by simpa using hc
        exact Or.inl ⟨trackingTaskQuietly_zero ali taskID re st _ hc1,
          trackingTaskWithLog_zero ali taskID re st off _ hc1⟩
  | succ n ih =>
      intro st off a b tq tl hR hL
      by_cases hc : completed st = true
      · rw [trackingTaskQuietly_finished ali taskID re _ st _ hc,
          trackingTaskWithLog_finished ali taskID re _ st off _ hc]
        obtain ⟨out, a1, b1, evs, f1, f2, f3, f4⟩ :=
          finish_sim ali taskID re R hG st off a b tq tl hR hL
        exact Or.inr ⟨out, a1, b1, evs, by rw [f1], by rw [f2], f3, f4⟩
      · have hc1 : completed st = false := by simpa using hc
        rw [trackingTaskQuietly_round ali taskID re n st _ hc1,
          trackingTaskWithLog_round ali taskID re n st off _ hc1]
        dsimp only
        by_cases h1 : st = .waiting ∨ st = .allocate
        · have hnr : ¬ (st = .running ∧ off ≥ 0) := by
            rcases h1 with h1 | h1 <;> simp [h1]
          obtain ⟨s1, s2⟩ := hS a b hR
          cases hgb : (ali.getStatus taskID b).1 with
          | error err =>
              rw [pair_eq_of_fst (s1.trans hgb),
                logRound_statusError ali taskID st off err ⟨b, tl⟩ hnr hgb]
              simp only [h1, if_true]
              exact Or.inr ⟨_, _, _, [.println (lit "waiting for resources"),
                .sleep waitInteveral, .getStatus taskID], rfl, rfl, s2, fun _ => rfl⟩
          | ok st1 =>
              rw [pair_eq_of_fst (s1.trans hgb),
                logRound_notice ali taskID st st1 off ⟨b, tl⟩ h1 hgb]
              dsimp only
              refine sim_extend R _ _ tq tl [.println (lit "waiting for resources"),
                .sleep waitInteveral, .getStatus taskID] off off ?_ (fun _ => ⟨rfl, rfl⟩)
              exact ih st1 off _ _ _ _ s2 hL
        · by_cases h2 : st = .running ∧ off ≥ 0
          · obtain ⟨hst, hoff⟩ := h2
            subst hst
            obtain ⟨⟨o1, l1⟩, l2⟩ := hL hoff a b off hR hoff
            obtain ⟨s1, s2⟩ := hS a _ l2
            have hL1 : 0 ≤ o1 → ∀ x y (o : Int), R x y → 0 ≤ o →
                (∃ o1, (ali.readLogs taskID o y).1 = .ok o1) ∧
                  R x (ali.readLogs taskID o y).2 := fun _ => hL hoff
            cases hgb : (ali.getStatus taskID (ali.readLogs taskID off b).2).1 with
            | error err =>
                rw [pair_eq_of_fst (s1.trans hgb),
                  logRound_readStatusError ali taskID off o1 err ⟨b, tl⟩ hoff l1 hgb]
                exact Or.inr ⟨_, _, _, [.readLogs taskID off,
                  .sleep waitInteveral, .getStatus taskID], rfl, rfl, s2, fun h => by omega⟩
            | ok st1 =>
                rw [pair_eq_of_fst (s1.trans hgb),
                  logRound_read ali taskID st1 off o1 ⟨b, tl⟩ hoff l1 hgb]
                dsimp only
                refine sim_extend R _ _ tq tl [.readLogs taskID off,
                  .sleep waitInteveral, .getStatus taskID] off o1 ?_ (fun h => by omega)
                exact ih st1 o1 _ _ _ _ s2 hL1
          · obtain ⟨s1, s2⟩ := hS a b hR
            cases hgb : (ali.getStatus taskID b).1 with
            | error err =>
                rw [pair_eq_of_fst (s1.trans hgb),
                  logRound_statusError ali taskID st off err ⟨b, tl⟩ h2 hgb]
                simp only [h1, if_false]
                exact Or.inr ⟨_, _, _, [.sleep waitInteveral, .getStatus taskID], rfl, rfl, s2,
                  fun _ => rfl⟩
            | ok st1 =>
                rw [pair_eq_of_fst (s1.trans hgb),
                  logRound_skip ali taskID st st1 off ⟨b, tl⟩ h1 h2 hgb]
                dsimp only
                refine sim_extend R _ _ tq tl [.sleep waitInteveral, .getStatus taskID]
                  off off ?_ (fun _ => ⟨rfl, rfl⟩)
                exact ih st1 off _ _ _ _ s2 hL

/-! ## The negative log offset -/

/-- C17: in the logging tracker, when a `readLogs` call of the loop (status
Running, a log offset that is not negative) returns a negative offset, the
rest of the run holds no `readLogs` call, neither in a later round nor after
the loop, and it goes as the quiet tracker goes from the state that call
left: both are still looping, or both return the same outcome and leave the
service in the same state, and the events of the quiet run are those of the
rest of the logging run without the printed lines. -/
theorem negative_offset_stops_reads {σ ρ ε : Type} (ali : Alisa σ ρ ε) (taskID : GoString)
    (re : Bool) (fuel : Nat) (off o : Int) (s : σ) (tq tl : List Event)
    (hoff : 0 ≤ off) (hr : (ali.readLogs taskID off s).1 = .ok o) (hneg : o < 0) :
    (trackingTaskQuietly ali taskID re fuel .running ⟨(ali.readLogs taskID off s).2, tq⟩ = none ∧
      trackingTaskWithLog ali taskID re fuel .running off ⟨s, tl⟩ = none) ∨
    ∃ out s1 evs,
      trackingTaskWithLog ali taskID re fuel .running off ⟨s, tl⟩ =
        some (out, ⟨s1, tl ++ .readLogs taskID off :: evs⟩) ∧
      readOffsets evs = [] ∧
      trackingTaskQuietly ali taskID re fuel .running ⟨(ali.readLogs taskID off s).2, tq⟩ =
        some (out, ⟨s1, tq ++ dropLogging evs⟩) := by
  cases fuel with
  | zero =>
      exact Or.inl ⟨trackingTaskQuietly_zero ali taskID re _ _ rfl,
        trackingTaskWithLog_zero ali taskID re _ off _ rfl⟩
  | succ n =>
      rw [trackingTaskQuietly_round ali taskID re n .running _ rfl,
        trackingTaskWithLog_round ali taskID re n .running off _ rfl]
      dsimp only
      cases hg : (ali.getStatus taskID (ali.readLogs taskID off s).2).1 with
      | error err =>
          rw [pair_eq_of_fst hg, logRound_readStatusError ali taskID off o err ⟨s, tl⟩ hoff hr hg]
          exact Or.inr ⟨_, _, [.sleep waitInteveral, .getStatus taskID], rfl, rfl, rfl⟩
      | ok st1 =>
          rw [pair_eq_of_fst hg, logRound_read ali taskID st1 off o ⟨s, tl⟩ hoff hr hg]
          dsimp only
          rcases log_quiet_sim ali taskID re Eq
              (fun x y h => by subst h; exact ⟨rfl, rfl⟩)
              (fun x y h => by subst h; exact ⟨rfl, rfl⟩) n st1 o
              (ali.getStatus taskID (ali.readLogs taskID off s).2).2
              (ali.getStatus taskID (ali.readLogs taskID off s).2).2
              (tq ++ [.sleep waitInteveral, .getStatus taskID])
              (tl ++ [.readLogs taskID off, .sleep waitInteveral, .getStatus taskID]) rfl
              (fun h => by omega) with h | ⟨out, a1, b1, evs, h1, h2, h3, h4⟩
          · exact Or.inl h
          · subst h3
            refine Or.inr ⟨out, a1, .sleep waitInteveral :: .getStatus taskID :: evs, ?_, ?_, ?_⟩
            · rw [h2]; simp
            · exact h4 hneg
            · rw [h1]
              simp [dropLogging]

theorem negative_offset_stops_reads_witness :
    (trackingTaskQuietly scriptedLogs (lit "t") true 5 TaskStatus.running
        ⟨(scriptedLogs.readLogs (lit "t") 0
          ([TaskStatus.running, TaskStatus.completed], [-1])).2, []⟩ = none ∧
      trackingTaskWithLog scriptedLogs (lit "t") true 5 TaskStatus.running 0
        ⟨([TaskStatus.running, TaskStatus.completed], [-1]), []⟩ = none) ∨
    ∃ out s1 evs,
      trackingTaskWithLog scriptedLogs (lit "t") true 5 TaskStatus.running 0
          ⟨([TaskStatus.running, TaskStatus.completed], [-1]), []⟩ =
        some (out, ⟨s1, [] ++ Event.readLogs (lit "t") 0 :: evs⟩) ∧
      readOffsets evs = [] ∧
      trackingTaskQuietly scriptedLogs (lit "t") true 5 TaskStatus.running
          ⟨(scriptedLogs.readLogs (lit "t") 0
            ([TaskStatus.running, TaskStatus.completed], [-1])).2, []⟩ =
        some (out, ⟨s1, [] ++ dropLogging evs⟩) :=
  negative_offset_stops_reads scriptedLogs (lit "t") true 5 0 (-1)
    ([TaskStatus.running, TaskStatus.completed], [-1]) [] [] (by decide) rfl (by decide)

/-! ## The two strategies -/

/-- C18, the claim as stated fails: for a service whose `readLogs` never
returns an error and whose `getStatus` answers Completed once the logs were
read and Failed before, started at the status Running, the quiet tracker
makes one `getStatus` call and returns the invalid status error for Failed,
while the logging tracker makes one `getStatus` call and one `getResults`
call and returns the result. -/
theorem strategies_differ :
    trackingTaskQuietly logSensitive (lit "t") true 3 TaskStatus.running ⟨false, []⟩ =
      some ((none, some (GoError.invalidTaskStatus TaskStatus.failed)),
        ⟨false, [Event.sleep 2, Event.getStatus (lit "t")]⟩) ∧
    trackingTaskWithLog logSensitive (lit "t") true 3 TaskStatus.running 0 ⟨false, []⟩ =
      some ((some 7, none),
        ⟨true, [Event.readLogs (lit "t") 0, Event.sleep 2, Event.getStatus (lit "t"),
          Event.readLogs (lit "t") 0, Event.getResults (lit "t") 20]⟩) :=
  ⟨rfl, rfl⟩

/-- C18, amended: for every task ID, initial status and `resultExpected`
flag, when no `readLogs` call returns an error and the `readLogs` calls do
not change what `getStatus` and `getResults` answer (the states of the
service with and without them stay related by `R`), the logging tracker and
the quiet tracker are both still looping after the same number of rounds, or
both return, with the same result and error, and the events of the quiet run
are those of the logging run without the `readLogs` calls and the printed
lines: the same `getStatus` and `getResults` calls and sleeps, in order. -/
theorem strategies_agree {σ ρ ε : Type} (ali : Alisa σ ρ ε) (taskID : GoString) (re : Bool)
    (R : σ → σ → Prop) (fuel : Nat) (st : TaskStatus) (s : σ) (tr : List Event)
    (hS : ∀ x y, R x y → (ali.getStatus taskID x).1 = (ali.getStatus taskID y).1 ∧
      R (ali.getStatus taskID x).2 (ali.getStatus taskID y).2)
    (hG : ∀ x y, R x y →
      (ali.getResults taskID readResultsBatch x).1 = (ali.getResults taskID readResultsBatch y).1 ∧
      R (ali.getResults taskID readResultsBatch x).2
        (ali.getResults taskID readResultsBatch y).2)
    (hL : ∀ x y (o : Int), R x y → 0 ≤ o →
      (∃ o1, (ali.readLogs taskID o y).1 = .ok o1) ∧ R x (ali.readLogs taskID o y).2)
    (hR : R s s) :
    (trackingTaskQuietly ali taskID re fuel st ⟨s, tr⟩ = none ∧
      trackingTaskWithLog ali taskID re fuel st 0 ⟨s, tr⟩ = none) ∨
    ∃ out wq wl evs,
      trackingTaskQuietly ali taskID re fuel st ⟨s, tr⟩ = some (out, wq) ∧
      trackingTaskWithLog ali taskID re fuel st 0 ⟨s, tr⟩ = some (out, wl) ∧
      wl.trace = tr ++ evs ∧ wq.trace = tr ++ dropLogging evs := by
  rcases log_quiet_sim ali taskID re R hS hG fuel st 0 s s tr tr hR (fun _ => hL) with
    h | ⟨out, a1, b1, evs, h1, h2, -, -⟩
  · exact Or.inl h
  · exact Or.inr ⟨out, _, _, evs, h1, h2, rfl, rfl⟩

theorem strategies_agree_witness :
    (trackingTaskQuietly scripted (lit "t") true 3 TaskStatus.waiting
        ⟨[TaskStatus.running, TaskStatus.completed], []⟩ = none ∧
      trackingTaskWithLog scripted (lit "t") true 3 TaskStatus.waiting 0
        ⟨[TaskStatus.running, TaskStatus.completed], []⟩ = none) ∨
    ∃ out wq wl evs,
      trackingTaskQuietly scripted (lit "t") true 3 TaskStatus.waiting
        ⟨[TaskStatus.running, TaskStatus.completed], []⟩ = some (out, wq) ∧
      trackingTaskWithLog scripted (lit "t") true 3 TaskStatus.waiting 0
        ⟨[TaskStatus.running, TaskStatus.completed], []⟩ = some (out, wl) ∧
      wl.trace = [] ++ evs ∧ wq.trace = [] ++ dropLogging evs :=
  strategies_agree scripted (lit "t") true Eq 3 TaskStatus.waiting
    [TaskStatus.running, TaskStatus.completed] []
    (fun x y h => by subst h; exact ⟨rfl, rfl⟩)
    (fun x y h => by subst h; exact ⟨rfl, rfl⟩)
    (fun x y o h _ => by subst h; exact ⟨⟨o + 1, rfl⟩, rfl⟩) rfl

/-! ## The parts of an accepted DSN -/

theorem isIDChar_sep {c : Nat} (h : isIDChar c = true) : c ≠ 58 ∧ c ≠ 64 ∧ c ≠ 63 := by
  simp only [isIDChar, Bool.or_eq_true, Bool.and_eq_true, decide_eq_true_eq, beq_iff_eq] at h
  omega

theorem isSecretChar_sep {c : Nat} (h : isSecretChar c = true) : c ≠ 64 ∧ c ≠ 63 := by
  simp only [isSecretChar, isIDChar, Bool.or_eq_true, Bool.and_eq_true, decide_eq_true_eq,
    beq_iff_eq] at h
  omega

theorem isURLChar_sep {c : Nat} (h : isURLChar c = true) : c ≠ 63 := by
  simp only [isURLChar, isIDChar, Bool.or_eq_true, Bool.and_eq_true, decide_eq_true_eq,
    beq_iff_eq] at h
  omega

/-- C20: for every string `s` that `ParseDSN` accepts with the result `C`,
there is exactly one string `q` without `/` such that `s` is the access id,
`:`, the secret, `@`, the URL, `?` and `q`; the access id is the text of `s`
before its first `:`, the access id, `:` and the secret are the text before
its first `@`, and the access id, `:`, the secret, `@` and the URL are the
text before its first `?`. -/
theorem ParseDSN_decomposition (s : GoString) (C : Config) (h : ParseDSN s = .ok C) :
    (∃! q : GoString, (∀ c ∈ q, c ≠ 47) ∧
      s = C.POPAccessID ++ lit ":" ++ C.POPAccessSecret ++ lit "@" ++ C.POPURL ++ lit "?" ++ q) ∧
    s.takeWhile (fun c => c != 58) = C.POPAccessID ∧
    s.takeWhile (fun c => c != 64) = C.POPAccessID ++ lit ":" ++ C.POPAccessSecret ∧
    s.takeWhile (fun c => c != 63) =
      C.POPAccessID ++ lit ":" ++ C.POPAccessSecret ++ lit "@" ++ C.POPURL := by
  obtain ⟨pid, ps, purl, q, kvs, env, w, hre, -, -, -, -, hC⟩ := ParseDSN_ok_inv h
  obtain ⟨hs, -, c1, -, c2, -, c3, -, c4⟩ := reDSN_sound hre
  subst hC
  simp only [lit_colon, lit_at, lit_qmark]
  refine ⟨⟨q, ⟨c4, by rw [hs]; simp⟩, ?_⟩, ?_, ?_, ?_⟩
  · rintro q2 ⟨-, h2⟩
    rw [hs] at h2
    simpa using h2.symm
  · rw [hs]
    exact (takeWhile_append_stop pid 58 _ (fun c hc => by
      have := (isIDChar_sep (c1 c hc)).1
      simpa using this) (by decide)).1
  · have e : s = (pid ++ [58] ++ ps) ++ 64 :: (purl ++ 63 :: q) := by rw [hs]; simp
    rw [e]
    exact (takeWhile_append_stop (pid ++ [58] ++ ps) 64 _ (fun c hc => by
      simp only [List.mem_append, List.mem_singleton] at hc
      rcases hc with (hc | hc) | hc
      · have := (isIDChar_sep (c1 c hc)).2.1
        simpa using this
      · subst hc; decide
      · have := (isSecretChar_sep (c2 c hc)).1
        simpa using this) (by decide)).1
  · have e : s = (pid ++ [58] ++ ps ++ [64] ++ purl) ++ 63 :: q := by rw [hs]; simp
    rw [e]
    exact (takeWhile_append_stop (pid ++ [58] ++ ps ++ [64] ++ purl) 63 _ (fun c hc => by
      simp only [List.mem_append, List.mem_singleton] at hc
      rcases hc with (((hc | hc) | hc) | hc) | hc
      · have := (isIDChar_sep (c1 c hc)).2.2
        simpa using this
      · subst hc; decide
      · have := (isSecretChar_sep (c2 c hc)).2
        simpa using this
      · subst hc; decide
      · have := isURLChar_sep (c3 c hc)
        simpa using this) (by decide)).1

theorem ParseDSN_decomposition_witness :
    (∃! q : GoString, (∀ c ∈ q, c ≠ 47) ∧
      lit "a:b@h:80/x?env=e30&with=e30&curr_project=p" =
        lit "a" ++ lit ":" ++ lit "b" ++ lit "@" ++ lit "h:80/x" ++ lit "?" ++ q) ∧
    (lit "a:b@h:80/x?env=e30&with=e30&curr_project=p").takeWhile (fun c => c != 58) = lit "a" ∧
    (lit "a:b@h:80/x?env=e30&with=e30&curr_project=p").takeWhile (fun c => c != 64) =
      lit "a" ++ lit ":" ++ lit "b" ∧
    (lit "a:b@h:80/x?env=e30&with=e30&curr_project=p").takeWhile (fun c => c != 63) =
      lit "a" ++ lit ":" ++ lit "b" ++ lit "@" ++ lit "h:80/x" :=
  ParseDSN_decomposition (lit "a:b@h:80/x?env=e30&with=e30&curr_project=p")
    ⟨lit "a", lit "b", lit "h:80/x", lit "http", [], [], false, lit "p"⟩ (by decide)

end Goalisa
